import Mathlib

/-!
Verification development for the Titan market-data engine.

Each definition below is a shallow embedding of a function of the C++
source tree.  Machine integers are modelled as `Int`/`Nat` (the C++ code
guards its own overflow; behaviour is modelled in the defined-behaviour
semantics), `double` quantities are modelled as exact rationals `ℚ`, and
the two places where the code routes an integer computation through
IEEE-754 binary64 intermediates (detail::mul_div / detail::mul_scale in
core/fixed_point.hpp) are modelled by an explicit round-to-nearest-even
dyadic rounding function with 53-bit precision and unbounded exponent
(the values involved never leave the normal range of binary64).
-/

namespace Titan

/-! ## Fixed-point decimal parsing (core/fixed_point.hpp, FixedPoint::parse, D = 8) -/

/-- Error cases of FixedPoint::parse.  The two no-digit messages of the
source (sign only / no digits found) are both std::invalid_argument for a
digitless input and are mapped to emptyDigits. -/
inductive ParseErr where
  | emptyDigits
  | multiplePoints
  | invalidChar
  | overflow
deriving DecidableEq

/-- INT64_MAX, the value of std::numeric_limits of int64_t. -/
def int64Max : ℤ := 9223372036854775807

/-- INT64_MIN. -/
def int64Min : ℤ := -9223372036854775808

/-- The int64 range.  A signed operation whose exact result falls
outside it is undefined behaviour in the C++ source; the model maps
such an execution to none. -/
def inInt64 (z : ℤ) : Prop := int64Min ≤ z ∧ z ≤ int64Max

instance (z : ℤ) : Decidable (inInt64 z) := by unfold inInt64; infer_instance

/-- max_safe_int of FixedPoint::parse: INT64_MAX / 10 (C++ integer division). -/
def maxSafeInt : ℤ := int64Max / 10

/-- scale = 10^Decimals with Decimals = 8 (FixedPrice). -/
def fpScale : ℤ := 100000000

/-- max_integer_part of FixedPoint::parse: INT64_MAX / scale. -/
def maxIntPart : ℤ := int64Max / fpScale

/-- Character classifier used by the parse loop: c in 0..9. -/
def isDigitC (c : Char) : Prop := '0' ≤ c ∧ c ≤ '9'

instance (c : Char) : Decidable (isDigitC c) := by unfold isDigitC; infer_instance

/-- Numeric value of a digit character. -/
def digitV (c : Char) : ℤ := (c.toNat - '0'.toNat : ℕ)

/-- The character loop of FixedPoint::parse.  Arguments mirror the local
state of the C++ loop: remaining characters, in_fraction, integer_part,
frac_part, frac_digits, has_digits.  Returns the final loop state.  The
source checks integer_part > max_safe_int before multiplying, but the
multiply-add integer_part * 10 + digit itself is unguarded int64
arithmetic: when its exact value leaves the int64 range the C++
execution is undefined behaviour, modelled as none.  (frac_part stays
below 10^8 because frac_digits is capped at 8, so the fraction
multiply-add cannot leave the range.) -/
def parseLoop : List Char → Bool → ℤ → ℤ → ℕ → Bool →
    Option (Except ParseErr (ℤ × ℤ × ℕ × Bool))
  | [], _, ip, fp, fd, hd => some (.ok (ip, fp, fd, hd))
  | c :: cs, inF, ip, fp, fd, hd =>
    if c = '.' then
      if inF then some (.error .multiplePoints)
      else parseLoop cs true ip fp fd hd
    else if c < '0' ∨ '9' < c then some (.error .invalidChar)
    else if inF then
      if fd < 8 then parseLoop cs inF ip (fp * 10 + digitV c) (fd + 1) true
      else parseLoop cs inF ip fp fd true
    else if maxSafeInt < ip then some (.error .overflow)
    else if inInt64 (ip * 10 + digitV c) then
      parseLoop cs inF (ip * 10 + digitV c) fp fd true
    else none

/-- FixedPoint::parse on a character list (the body of the C++ function:
empty-string early return, sign handling, loop, fraction scaling and the
final overflow check).  The final assembly
integer_part * scale + frac_part is unguarded int64 arithmetic: the
source only bounds integer_part by max_integer_part, so the addition can
leave the int64 range (e.g. integer_part = INT64_MAX / 10^8 with
frac_part > INT64_MAX mod 10^8); that execution is undefined behaviour,
modelled as none.  (The multiplication alone cannot overflow under the
max_integer_part check, and result is never INT64_MIN, so the negation
is always defined.) -/
def parseChars (cs : List Char) : Option (Except ParseErr ℤ) :=
  match cs with
  | [] => some (.ok 0)
  | c0 :: t0 =>
    let rest : List Char := if c0 = '-' ∨ c0 = '+' then t0 else c0 :: t0
    let neg : Bool := c0 = '-'
    if rest = [] then some (.error .emptyDigits)
    else
      match parseLoop rest false 0 0 0 false with
      | none => none
      | some (.error e) => some (.error e)
      | some (.ok (ip, fp, fd, hd)) =>
        if hd = false then some (.error .emptyDigits)
        else
          let fp' := fp * 10 ^ (8 - fd)
          if maxIntPart < ip then some (.error .overflow)
          else
            let r := ip * fpScale + fp'
            if inInt64 r then some (.ok (if neg then -r else r)) else none

/-- FixedPoint::parse on a string. -/
def parseFP (s : String) : Option (Except ParseErr ℤ) := parseChars s.data

/-- The integer digit numerals on which the parse loop reaches the
unguarded overflowing multiply-add before the max_safe_int guard can
fire: some prefix of the digits (prefix values are n / 10^t) is still
at most max_safe_int while absorbing one more digit leaves int64. -/
def intUB (n : ℤ) : Prop :=
  ∃ t : ℕ, int64Max < n / 10 ^ t ∧ n / 10 ^ (t + 1) ≤ maxSafeInt

/-! ### Decimal denotation of a numeric string (specification side)

The spec speaks of decimal price strings denoting the same decimal
value.  The denotation below is defined from that wording alone:
optional sign, digit sequence with at most one decimal point and at
least one digit, standard positional value. -/

/-- Value of a digit list read in base 10, most significant first. -/
def numeralV (ds : List Char) : ℤ := ds.foldl (fun a c => a * 10 + digitV c) 0

/-- Split a signless body into integer digits and fraction digits; none
when the body is not of the shape digits [ point digits ]. -/
def decBody? (cs : List Char) : Option (List Char × List Char) :=
  let i := cs.takeWhile (fun c => decide (isDigitC c))
  match cs.dropWhile (fun c => decide (isDigitC c)) with
  | [] => some (i, [])
  | c :: t =>
    if c = '.' ∧ t.all (fun c => decide (isDigitC c)) then some (i, t) else none

/-- Decimal value denoted by a character list, when well formed. -/
def decVal? (cs : List Char) : Option ℚ :=
  let sgn : ℚ := if cs.head? = some '-' then -1 else 1
  let body : List Char :=
    if cs.head? = some '-' ∨ cs.head? = some '+' then cs.tail else cs
  match decBody? body with
  | none => none
  | some (i, f) =>
    if i = [] ∧ f = [] then none
    else some (sgn * ((numeralV i : ℚ) + (numeralV f : ℚ) / 10 ^ f.length))

/-- Truncation toward zero of a decimal value to 8 fractional digits,
as a scaled integer: the value FixedPoint::parse is specified to keep. -/
def truncVal (v : ℚ) : ℤ := if 0 ≤ v then ⌊v * (fpScale : ℚ)⌋ else -⌊-v * (fpScale : ℚ)⌋

/-- A nonempty input that carries no digit at all and consists only of an
optional sign and at most one decimal point (the shape for which the
source raises its two no-digit errors). -/
def signPointOnly (cs : List Char) : Prop :=
  let body : List Char :=
    if cs.head? = some '-' ∨ cs.head? = some '+' then cs.tail else cs
  body = [] ∨ body = ['.']

instance (cs : List Char) : Decidable (signPointOnly cs) := by
  unfold signPointOnly; infer_instance

/-! ## IEEE-754 binary64 model for detail::mul_div / detail::mul_scale

The C++ helpers compute (double)a * (double)b / (double)divisor and
std::round the result.  Each step is binary64 round-to-nearest-even.
Values appearing in these computations are far from the subnormal and
overflow ranges, so binary64 is modelled as the dyadic rationals with a
53-bit significand and unbounded exponent. -/

/-- Nearest integer, ties to even: the rounding applied to the exact
value of each floating-point operation. -/
def rneInt (x : ℚ) : ℤ :=
  let n := ⌊x⌋
  let r := x - n
  if r < 1/2 then n else if 1/2 < r then n + 1 else if n % 2 = 0 then n else n + 1

/-- Rounding of std::round: nearest integer, halfway cases away from zero. -/
def stdRound (x : ℚ) : ℤ := if 0 ≤ x then ⌊x + 1/2⌋ else -⌊-x + 1/2⌋

/-- Fuel-driven binary logarithm on naturals (floor of log2, 0 for 0). -/
def natLog2F : ℕ → ℕ → ℕ
  | 0, _ => 0
  | f + 1, n => if 2 ≤ n then natLog2F f (n / 2) + 1 else 0

/-- Floor of log2 of a natural number (0 for 0). -/
def natLog2 (n : ℕ) : ℕ := natLog2F n n

/-- Floor of log2 of a rational, meaningful for positive arguments. -/
def qlog2 (q : ℚ) : ℤ :=
  if 1 ≤ q then (natLog2 ⌊q⌋.toNat : ℤ)
  else
    let f := natLog2 ⌊q⁻¹⌋.toNat
    if 1 ≤ q * 2 ^ f then -(f : ℤ) else -(f : ℤ) - 1

/-- Round a positive rational to the nearest binary64 value
(53-bit significand, ties to even, unbounded exponent). -/
def rndPos (q : ℚ) : ℚ :=
  let s : ℤ := qlog2 q - 52
  if 0 ≤ s then (rneInt (q / 2 ^ s.toNat) : ℚ) * 2 ^ s.toNat
  else (rneInt (q * 2 ^ (-s).toNat) : ℚ) / 2 ^ (-s).toNat

/-- Round a rational to the nearest binary64 value. -/
def rnd (q : ℚ) : ℚ := if q = 0 then 0 else if 0 < q then rndPos q else -rndPos (-q)

/-- detail::mul_div of core/fixed_point.hpp: the int64 inputs are
converted to double, multiplied and divided in double, and the result is
std::round-ed back to an integer. -/
def mulDiv (a b divisor : ℤ) : ℤ :=
  stdRound (rnd (rnd (rnd (a : ℚ) * rnd (b : ℚ)) / rnd (divisor : ℚ)))

/-- detail::mul_scale of core/fixed_point.hpp (identical computation
shape with the scale as second factor). -/
def mulScale (a scale divisor : ℤ) : ℤ :=
  stdRound (rnd (rnd (rnd (a : ℚ) * rnd (scale : ℚ)) / rnd (divisor : ℚ)))

/-- FixedPoint::operator* on raw values (D = 8): mul_div(a, b, scale). -/
def fixedMul (a b : ℤ) : ℤ := mulDiv a b fpScale

/-- Modelled from the spec: FixedPoint::try_divide was added in release
1.1.0 (changelog; exercised by tests/unit/test_fixed_point.cpp) but its
implementation file is not among the provided sources.  The spec words:
try_divide(a,b) = None if b == 0 else round(a.raw * 10^D / b.raw). -/
def tryDivide (a b : ℤ) : Option ℤ :=
  if b = 0 then none else some (stdRound ((a * fpScale : ℤ) / (b : ℚ)))

/-! ## Order book (orderbook/order_book.cpp)

Keys are FixedPrice raw values (ℤ, compared exactly); a side is the
association list of a std::map in iteration order: bids with comparator
std::greater (descending), asks ascending.  Quantities are double,
modelled as ℚ. -/

/-- A Binance price level: (FixedPrice raw value, double quantity). -/
abbrev Level := ℤ × ℚ

/-- DepthUpdate of binance/types.hpp (fields used by the engine; event
times, symbol and event type carry no behaviour and are omitted). -/
structure DepthUpdate where
  U : ℕ
  u : ℕ
  pu : ℕ
  bids : List Level
  asks : List Level
deriving DecidableEq

/-- DepthSnapshot of binance/types.hpp. -/
structure DepthSnapshot where
  lastUpdateId : ℕ
  bids : List Level
  asks : List Level
deriving DecidableEq

/-- Insert-or-assign of std::map with std::greater comparator
(descending key order): behaviour of bids_[price] = qty. -/
def insertDesc (p : ℤ) (q : ℚ) : List Level → List Level
  | [] => [(p, q)]
  | (p', q') :: rest =>
    if p' < p then (p, q) :: (p', q') :: rest
    else if p = p' then (p, q) :: rest
    else (p', q') :: insertDesc p q rest

/-- Insert-or-assign of std::map with the default (ascending) comparator:
behaviour of asks_[price] = qty. -/
def insertAsc (p : ℤ) (q : ℚ) : List Level → List Level
  | [] => [(p, q)]
  | (p', q') :: rest =>
    if p < p' then (p, q) :: (p', q') :: rest
    else if p = p' then (p, q) :: rest
    else (p', q') :: insertAsc p q rest

/-- map::erase of the entry found for a key, if present. -/
def eraseLevel (p : ℤ) : List Level → List Level
  | [] => []
  | (p', q') :: rest => if p = p' then rest else (p', q') :: eraseLevel p rest

/-- OrderBook state: both sides, last_update_id and the configured
imbalance depth.  The cached best iterators only memoise map::begin and
are not part of observable state. -/
structure Book where
  bids : List Level
  asks : List Level
  lastUpdateId : ℕ
  imbalanceLevels : ℕ
deriving DecidableEq

/-- A fresh order book (OrderBook constructor). -/
def emptyBook (levels : ℕ) : Book :=
  { bids := [], asks := [], lastUpdateId := 0, imbalanceLevels := levels }

/-- OrderBook::apply_bid_update: assign when qty > 0, erase otherwise. -/
def applyBidUpdate (bk : Book) (p : ℤ) (q : ℚ) : Book :=
  if 0 < q then { bk with bids := insertDesc p q bk.bids }
  else { bk with bids := eraseLevel p bk.bids }

/-- OrderBook::apply_ask_update: assign when qty > 0, erase otherwise. -/
def applyAskUpdate (bk : Book) (p : ℤ) (q : ℚ) : Book :=
  if 0 < q then { bk with asks := insertAsc p q bk.asks }
  else { bk with asks := eraseLevel p bk.asks }

/-- OrderBook::apply_snapshot: clear both sides, insert every level with
qty > 0, set last_update_id. -/
def applySnapshot (bk : Book) (s : DepthSnapshot) : Book :=
  let bids := s.bids.foldl (fun l pq => if 0 < pq.2 then insertDesc pq.1 pq.2 l else l) []
  let asks := s.asks.foldl (fun l pq => if 0 < pq.2 then insertAsc pq.1 pq.2 l else l) []
  { bk with bids := bids, asks := asks, lastUpdateId := s.lastUpdateId }

/-- OrderBook::apply_update: per-level bid updates, then ask updates,
then last_update_id := final_update_id. -/
def applyUpdate (bk : Book) (upd : DepthUpdate) : Book :=
  let bk1 := upd.bids.foldl (fun b pq => applyBidUpdate b pq.1 pq.2) bk
  let bk2 := upd.asks.foldl (fun b pq => applyAskUpdate b pq.1 pq.2) bk1
  { bk2 with lastUpdateId := upd.u }

/-- OrderBook::clear. -/
def clearBook (bk : Book) : Book :=
  { bk with bids := [], asks := [], lastUpdateId := 0 }

/-- OrderBook::has_sequence_gap: the first_update_id argument is unused
by the source; a gap is prev_final_update_id differing from the book's
last_update_id. -/
def hasSequenceGap (bk : Book) (_U pu : ℕ) : Bool := pu ≠ bk.lastUpdateId

/-- Sum of the quantities of a list of levels. -/
def qsum (l : List Level) : ℚ := (l.map (·.2)).sum

/-- OrderBook::calculate_imbalance: sums over the top imbalance_levels
levels of each side; 0 for an empty book or a non-positive total. -/
def calculateImbalance (bk : Book) : ℚ :=
  if bk.bids = [] ∧ bk.asks = [] then 0
  else
    let bidVolume := qsum (bk.bids.take bk.imbalanceLevels)
    let askVolume := qsum (bk.asks.take bk.imbalanceLevels)
    let total := bidVolume + askVolume
    if total ≤ 0 then 0 else (bidVolume - askVolume) / total

/-- Invariant of the order book maintained by every operation: bids
iterate in strictly descending key order, asks in strictly ascending
key order, and every stored quantity is positive. -/
def BookInv (bk : Book) : Prop :=
  bk.bids.Pairwise (fun a b => b.1 < a.1) ∧
  bk.asks.Pairwise (fun a b => a.1 < b.1) ∧
  (∀ x ∈ bk.bids, 0 < x.2) ∧ (∀ x ∈ bk.asks, 0 < x.2)

/-- The mutating operations a book is driven by. -/
inductive BookOp where
  | snap (s : DepthSnapshot)
  | upd (u : DepthUpdate)
  | clear

/-- Apply one operation. -/
def applyOp (bk : Book) : BookOp → Book
  | .snap s => applySnapshot bk s
  | .upd u => applyUpdate bk u
  | .clear => clearBook bk

/-- Run a sequence of operations from a fresh book. -/
def applyOps (levels : ℕ) (ops : List BookOp) : Book :=
  ops.foldl applyOp (emptyBook levels)

/-! ## Feed handler snapshot bridging (binance FeedHandler::apply_snapshot) -/

/-- FeedState of binance/feed_state.hpp. -/
inductive FeedState where
  | Disconnected
  | Connecting
  | WaitingSnapshot
  | Syncing
  | Live
  | Reconnecting
deriving DecidableEq

/-- Messages the feed handler emits toward the engine while applying a
snapshot (other message kinds are not produced on this path). -/
inductive FeedMsg where
  | snapshotMsg (s : DepthSnapshot)
  | depthMsg (d : DepthUpdate)
deriving DecidableEq

/-- The feed handler state touched by the snapshot path: the atomic
FeedState, the buffered updates, the snapshot_requested_ flag, and a
count of issued REST snapshot requests (fetch_snapshot calls). -/
structure FeedHandler where
  state : FeedState
  buffered : List DepthUpdate
  snapshotRequested : Bool
  fetchCount : ℕ
deriving DecidableEq

/-- FeedHandler::request_snapshot: no-op when a request is in flight;
otherwise set WaitingSnapshot, clear the buffer and fetch. -/
def requestSnapshot (fh : FeedHandler) : FeedHandler :=
  if fh.snapshotRequested then fh
  else { state := .WaitingSnapshot, buffered := [], snapshotRequested := true,
         fetchCount := fh.fetchCount + 1 }

/-- The buffered-updates walk of FeedHandler::apply_snapshot.  The flag
mirrors found_first_valid; the result is none when the walk hits the gap
branch (update newer than expected before any bridge) and otherwise the
list of updates emitted. -/
def walkBuffer (lastId : ℕ) (found : Bool) : List DepthUpdate → Option (List DepthUpdate)
  | [] => some []
  | upd :: rest =>
    if found then (walkBuffer lastId true rest).map (upd :: ·)
    else if upd.U ≤ lastId + 1 ∧ lastId + 1 ≤ upd.u then
      (walkBuffer lastId true rest).map (upd :: ·)
    else if upd.u ≤ lastId then walkBuffer lastId false rest
    else none

/-- FeedHandler::apply_snapshot: set Syncing, emit the snapshot, walk the
buffer; on the gap branch call request_snapshot and return, otherwise
clear the buffer and go Live. -/
def applySnapshotFH (snap : DepthSnapshot) (fh : FeedHandler) : FeedHandler × List FeedMsg :=
  let fh1 : FeedHandler := { fh with state := .Syncing }
  match walkBuffer snap.lastUpdateId false fh.buffered with
  | none => (requestSnapshot fh1, [.snapshotMsg snap])
  | some emitted =>
    ({ fh1 with buffered := [], state := .Live },
     .snapshotMsg snap :: emitted.map .depthMsg)

/-- FeedHandler::on_snapshot_response on the success path: clear the
snapshot_requested_ flag, then apply the parsed snapshot. -/
def onSnapshotOk (snap : DepthSnapshot) (fh : FeedHandler) : FeedHandler × List FeedMsg :=
  applySnapshotFH snap { fh with snapshotRequested := false }

/-! ## Compute core depth-update handling (engine/market_data_engine.cpp) -/

/-- MarketDataEngine::SyncState. -/
inductive SyncState where
  | Initing
  | WaitingSnapshot
  | Synced
deriving DecidableEq

/-- The engine state read and written by handle_depth_update and
handle_snapshot, with resyncSignaled modelling the call to
feed_handler_->request_snapshot(). -/
structure Engine where
  sync : SyncState
  lastProcessedId : ℕ
  book : Book
  resyncSignaled : Bool
deriving DecidableEq

/-- A fresh engine (sync_state_ starts before any snapshot). -/
def initEngine (levels : ℕ) : Engine :=
  { sync := .Initing, lastProcessedId := 0, book := emptyBook levels,
    resyncSignaled := false }

/-- MarketDataEngine::handle_snapshot: apply to the book, record the id,
mark Synced. -/
def handleSnapshotE (e : Engine) (s : DepthSnapshot) : Engine :=
  { e with book := applySnapshot e.book s,
           lastProcessedId := s.lastUpdateId,
           sync := .Synced }

/-- MarketDataEngine::handle_depth_update: drop unless Synced; treat as a
gap only when last_processed_id_ > 0 and has_sequence_gap holds, in
which case re-enter WaitingSnapshot, clear the book and signal the feed
handler; otherwise apply and advance last_processed_id_. -/
def handleDepthUpdateE (e : Engine) (upd : DepthUpdate) : Engine :=
  if e.sync ≠ .Synced then e
  else if 0 < e.lastProcessedId ∧ hasSequenceGap e.book upd.U upd.pu then
    { e with sync := .WaitingSnapshot, book := clearBook e.book, resyncSignaled := true }
  else
    { e with book := applyUpdate e.book upd, lastProcessedId := upd.u }

/-! ## Rolling VWAP (trade/vwap_calculator) and trade flow (trade/trade_flow) -/

/-- A trade stored in the VWAP window. -/
structure VwapTrade where
  price : ℚ
  qty : ℚ
deriving DecidableEq, Inhabited

/-- VwapCalculator state: the deque (head = oldest), the window size,
the running sums and the Welford accumulators. -/
structure Vwap where
  trades : List VwapTrade
  windowSize : ℕ
  sumPv : ℚ
  sumV : ℚ
  mean : ℚ
  m2 : ℚ
  count : ℕ
deriving DecidableEq

/-- VwapCalculator constructor. -/
def initVwap (w : ℕ) : Vwap :=
  { trades := [], windowSize := w, sumPv := 0, sumV := 0, mean := 0, m2 := 0, count := 0 }

/-- VwapCalculator::add_trade: append, update sums and Welford state,
then evict the oldest trade when the window is exceeded (reversing its
contribution, with the m2 clamp of the source). -/
def addTrade (c : Vwap) (price qty : ℚ) : Vwap :=
  let trades := c.trades ++ [⟨price, qty⟩]
  let sumPv := c.sumPv + price * qty
  let sumV := c.sumV + qty
  let count := c.count + 1
  let delta := qty - c.mean
  let mean := c.mean + delta / (count : ℚ)
  let delta2 := qty - mean
  let m2 := c.m2 + delta * delta2
  if c.windowSize < trades.length then
    let old := trades.headI
    let sumPv' := sumPv - old.price * old.qty
    let sumV' := sumV - old.qty
    let oldDelta := old.qty - mean
    let count' := count - 1
    if 0 < count' then
      let mean' := (mean * ((count' : ℚ) + 1) - old.qty) / (count' : ℚ)
      let oldDelta2 := old.qty - mean'
      let m2' := m2 - oldDelta * oldDelta2
      let m2'' := if m2' < 0 then 0 else m2'
      { c with trades := trades.tail, sumPv := sumPv', sumV := sumV',
               mean := mean', m2 := m2'', count := count' }
    else
      { c with trades := trades.tail, sumPv := sumPv', sumV := sumV',
               mean := 0, m2 := 0, count := count' }
  else
    { c with trades := trades, sumPv := sumPv, sumV := sumV,
             mean := mean, m2 := m2, count := count }

/-- VwapCalculator::vwap: 0 for a non-positive volume sum. -/
def vwapOf (c : Vwap) : ℚ := if c.sumV ≤ 0 then 0 else c.sumPv / c.sumV

/-- VwapCalculator::trade_count. -/
def tradeCount (c : Vwap) : ℕ := c.trades.length

/-- Fold a list of (price, qty) trades into a fresh calculator. -/
def addTrades (w : ℕ) (ts : List (ℚ × ℚ)) : Vwap :=
  ts.foldl (fun c t => addTrade c t.1 t.2) (initVwap w)

/-- AggTrade fields consumed by TradeFlow::process_trade (ids and times
carry no behaviour there and are omitted). -/
structure AggTrade where
  price : ℚ
  qty : ℚ
  isBuyerMaker : Bool
deriving DecidableEq

/-- TradeFlow state.  The alert detector only reads the rolling
statistics on this path and its optional alert output is not covered by
any claim; it is omitted from the state. -/
structure TradeFlow where
  vwap : Vwap
  totalBuyVolume : ℚ
  totalSellVolume : ℚ
deriving DecidableEq

/-- TradeFlow constructor / TradeFlow::reset. -/
def initTradeFlow (w : ℕ) : TradeFlow :=
  { vwap := initVwap w, totalBuyVolume := 0, totalSellVolume := 0 }

/-- TradeFlow::process_trade: feed the VWAP window and accumulate the
buy or sell volume (a buy exactly when is_buyer_maker is false). -/
def processTrade (tf : TradeFlow) (t : AggTrade) : TradeFlow :=
  let vwap := addTrade tf.vwap t.price t.qty
  let isBuy := ¬t.isBuyerMaker
  if isBuy then { tf with vwap := vwap, totalBuyVolume := tf.totalBuyVolume + t.qty }
  else { tf with vwap := vwap, totalSellVolume := tf.totalSellVolume + t.qty }

/-- The metrics struct TradeFlow::current_metrics fills (the optional
alert is omitted). -/
structure TradeFlowMetrics where
  vwap : ℚ
  totalBuyVolume : ℚ
  totalSellVolume : ℚ
  netFlow : ℚ
  tradeCount : ℕ
deriving DecidableEq

/-- TradeFlow::current_metrics. -/
def currentMetrics (tf : TradeFlow) : TradeFlowMetrics :=
  { vwap := vwapOf tf.vwap, totalBuyVolume := tf.totalBuyVolume,
    totalSellVolume := tf.totalSellVolume,
    netFlow := tf.totalBuyVolume - tf.totalSellVolume,
    tradeCount := tradeCount tf.vwap }

/-- Run a list of trades through a fresh TradeFlow. -/
def processTrades (w : ℕ) (ts : List AggTrade) : TradeFlow :=
  ts.foldl processTrade (initTradeFlow w)

/-! ## SPSC ring queue (queue/spsc_queue.hpp)

One producer and one consumer; each operation of the source touches its
own index, one slot's atomic sequence and the slot storage, and is
modelled as one atomic step on the whole state. -/

/-- A slot: the atomic sequence number and the (possibly constructed)
storage. -/
structure Slot (α : Type) where
  sequence : ℕ
  storage : Option α
deriving DecidableEq

/-- Queue state: consumer index head_, producer index tail_, and the
slot array (length = Capacity). -/
structure Spsc (α : Type) where
  head : ℕ
  tail : ℕ
  slots : List (Slot α)
deriving DecidableEq

/-- Constructor: slot i starts with sequence i. -/
def initSpsc (α : Type) (n : ℕ) : Spsc α :=
  { head := 0, tail := 0, slots := (List.range n).map (fun i => ⟨i, none⟩) }

/-- Slot index: pos & kMask with kMask = Capacity - 1. -/
def spscIdx (n pos : ℕ) : ℕ := pos &&& (n - 1)

/-- SpscQueue::try_push: inspect the slot at tail & mask; full unless
its sequence equals the position; otherwise construct the value, publish
sequence = pos + 1 and advance the tail. -/
def tryPush {α : Type} (v : α) (s : Spsc α) : Bool × Spsc α :=
  let n := s.slots.length
  let pos := s.tail
  match s.slots.get? (spscIdx n pos) with
  | none => (false, s)
  | some slot =>
    if slot.sequence ≠ pos then (false, s)
    else (true, { s with slots := s.slots.set (spscIdx n pos) ⟨pos + 1, some v⟩,
                         tail := pos + 1 })

/-- SpscQueue::try_pop: inspect the slot at head & mask; empty unless
its sequence equals head + 1; otherwise move the value out, re-arm the
slot with sequence = pos + Capacity and advance the head. -/
def tryPop {α : Type} (s : Spsc α) : Option α × Spsc α :=
  let n := s.slots.length
  let pos := s.head
  match s.slots.get? (spscIdx n pos) with
  | none => (none, s)
  | some slot =>
    if slot.sequence ≠ pos + 1 then (none, s)
    else (slot.storage, { s with slots := s.slots.set (spscIdx n pos) ⟨pos + n, none⟩,
                                 head := pos + 1 })

/-- Abstraction relation: the queue state s holds exactly the values of
l (oldest first).  Entry i of l sits in the slot of position head + i
with its published sequence; every position from tail up to head +
Capacity maps to a re-armed empty slot awaiting that position. -/
def SpscInv {α : Type} (k : ℕ) (s : Spsc α) (l : List α) : Prop :=
  s.slots.length = 2 ^ k ∧
  s.tail = s.head + l.length ∧
  l.length ≤ 2 ^ k ∧
  (∀ i < l.length, s.slots.get? (spscIdx (2 ^ k) (s.head + i)) =
    some ⟨s.head + i + 1, l.get? i⟩) ∧
  (∀ d < 2 ^ k - l.length, s.slots.get? (spscIdx (2 ^ k) (s.tail + d)) =
    some ⟨s.tail + d, none⟩)

instance {α : Type} [DecidableEq α] (k : ℕ) (s : Spsc α) (l : List α) :
    Decidable (SpscInv k s l) := by
  unfold SpscInv; infer_instance

/-! ## WebSocket broadcast fan-out (output/websocket_server.cpp) -/

/-- WebSocketSession state touched by send / do_write / on_write: the
locked write queue, the writing flag, and the message currently handed
to async_write. -/
structure WsSession where
  writeQueue : List String
  writing : Bool
  inFlight : Option String
deriving DecidableEq

/-- A freshly accepted session. -/
def newSession : WsSession := { writeQueue := [], writing := false, inFlight := none }

/-- WebSocketSession::do_write: pop the front message and start an
asynchronous write on it, or clear the writing flag when drained. -/
def doWrite (s : WsSession) : WsSession :=
  match s.writeQueue with
  | [] => { s with writing := false }
  | m :: rest => { s with writeQueue := rest, inFlight := some m }

/-- WebSocketSession::send: push the message onto the write queue; when
no write chain is running, mark writing and start one. -/
def sendWs (msg : String) (s : WsSession) : WsSession :=
  let s' := { s with writeQueue := s.writeQueue ++ [msg] }
  if s'.writing then s' else doWrite { s' with writing := true }

/-- The server's subscriber set (std::set of sessions; identity by
position in the list). -/
structure WsServer where
  sessions : List WsSession
deriving DecidableEq

/-- WebSocketServer::broadcast: serialize once, then enqueue onto every
session (the serialized payload is the msg argument). -/
def broadcastWs (msg : String) (srv : WsServer) : WsServer :=
  { sessions := srv.sessions.map (sendWs msg) }

/-- WebSocketSession::on_write with an error: the session removes itself
from the server.  Success continues the write chain instead. -/
def onWriteErr (srv : WsServer) (i : ℕ) : WsServer :=
  { sessions := srv.sessions.eraseIdx i }

/-- WebSocketSession::on_write on success: hand the next queued message
to async_write. -/
def onWriteOk (s : WsSession) : WsSession := doWrite { s with inFlight := none }

/-- Messages accepted by a session and not yet written out. -/
def outstanding (s : WsSession) : List String := s.inFlight.toList ++ s.writeQueue

/-- Session states reachable under the send / do_write / on_write
protocol: while no write chain is running nothing is queued or in
flight. -/
def WsWf (s : WsSession) : Prop :=
  s.writing = false → s.inFlight = none ∧ s.writeQueue = []

instance (s : WsSession) : Decidable (WsWf s) := by unfold WsWf; infer_instance

/-! ## Theorems -/

/-! ### C3: depth-update handling in the compute core -/

/-- C3.  The claim states that whenever has_sequence_gap(U, pu) holds for
a DepthUpdate seen in the Synced state, the core re-enters
WaitingSnapshot, clears the book, signals the feed handler and drops the
update.  The source additionally guards with last_processed_id_ > 0:
after a snapshot with lastUpdateId = 0 the engine is Synced with
last_processed_id = 0, has_sequence_gap holds for an update with pu = 5,
and yet the update is applied (sync stays Synced, no signal, book keeps
the update and last_processed_id becomes 6). -/
theorem C3_counterexample :
    (handleSnapshotE (initEngine 5) ⟨0, [], []⟩).sync = .Synced ∧
    hasSequenceGap (handleSnapshotE (initEngine 5) ⟨0, [], []⟩).book 5 5 = true ∧
    handleDepthUpdateE (handleSnapshotE (initEngine 5) ⟨0, [], []⟩) ⟨5, 6, 5, [], []⟩ =
      { sync := .Synced, lastProcessedId := 6,
        book := { bids := [], asks := [], lastUpdateId := 6, imbalanceLevels := 5 },
        resyncSignaled := false } := by
  decide

/-- C3 (amended).  has_sequence_gap(U, pu) holds iff pu differs from the
book's last_update_id.  A DepthUpdate is dropped unchanged unless the
engine is Synced; when Synced it is treated as a gap exactly when
last_processed_id > 0 and has_sequence_gap holds, in which case the core
re-enters WaitingSnapshot, clears the book and signals the feed handler
while dropping the update; otherwise it applies the update to the book
and sets last_processed_id = u. -/
theorem C3_depth_update_amended (e : Engine) (upd : DepthUpdate) :
    (hasSequenceGap e.book upd.U upd.pu = true ↔ upd.pu ≠ e.book.lastUpdateId) ∧
    (e.sync ≠ .Synced → handleDepthUpdateE e upd = e) ∧
    (e.sync = .Synced → 0 < e.lastProcessedId → upd.pu ≠ e.book.lastUpdateId →
      handleDepthUpdateE e upd =
        { e with sync := .WaitingSnapshot, book := clearBook e.book,
                 resyncSignaled := true }) ∧
    (e.sync = .Synced → (e.lastProcessedId = 0 ∨ upd.pu = e.book.lastUpdateId) →
      handleDepthUpdateE e upd =
        { e with book := applyUpdate e.book upd, lastProcessedId := upd.u }) := by
  refine ⟨by simp [hasSequenceGap], ?_, ?_, ?_⟩
  · intro h
    simp [handleDepthUpdateE, h]
  · intro hs hpos hgap
    simp [handleDepthUpdateE, hs, hasSequenceGap, hpos, hgap]
  · intro hs hcase
    rcases hcase with h0 | hret
    · simp [handleDepthUpdateE, hs, h0]
    · simp [handleDepthUpdateE, hs, hasSequenceGap, hret]

/-- C3 (witness): a Synced engine at id 1000 receiving pu = 999 takes
the gap branch. -/
theorem C3_depth_update_amended_witness :
    handleDepthUpdateE
        { sync := .Synced, lastProcessedId := 1000,
          book := { bids := [], asks := [], lastUpdateId := 1000, imbalanceLevels := 5 },
          resyncSignaled := false } ⟨1001, 1002, 999, [], []⟩ =
      { sync := .WaitingSnapshot, lastProcessedId := 1000,
        book := { bids := [], asks := [], lastUpdateId := 0, imbalanceLevels := 5 },
        resyncSignaled := true } := by
  have h := (C3_depth_update_amended
    { sync := .Synced, lastProcessedId := 1000,
      book := { bids := [], asks := [], lastUpdateId := 1000, imbalanceLevels := 5 },
      resyncSignaled := false } ⟨1001, 1002, 999, [], []⟩).2.2.1
    rfl (by decide) (by decide)
  simpa [clearBook] using h

/-! ### C8: broadcast fan-out and slow-consumer handling -/

/-- Helper: sendWs appends the message to the messages a well-formed
session holds, and keeps it well formed. -/
theorem sendWs_outstanding (m : String) (s : WsSession) (h : WsWf s) :
    outstanding (sendWs m s) = outstanding s ++ [m] ∧ WsWf (sendWs m s) := by
  unfold sendWs
  by_cases hw : s.writing
  · simp only [hw, if_true]
    constructor
    · simp [outstanding]
    · intro hfalse
      simp at hfalse
  · obtain ⟨hfly, hq⟩ := h (by simpa using hw)
    simp only [hw, if_false]
    constructor
    · simp [doWrite, outstanding, hq, hfly]
    · intro hfalse
      simp [doWrite, hq] at hfalse

/-- Helper: messages held by the single session of a fresh one-session
server after n broadcasts. -/
theorem broadcast_iter_growth (m : String) (n : ℕ) :
    ∃ s : WsSession, ((broadcastWs m)^[n] ⟨[newSession]⟩).sessions = [s] ∧
      (outstanding s).length = n ∧ WsWf s := by
  induction n with
  | zero => exact ⟨newSession, rfl, by simp [newSession, outstanding, WsWf]⟩
  | succ n ih =>
    obtain ⟨s, hs, hlen, hwf⟩ := ih
    obtain ⟨hout, hwf'⟩ := sendWs_outstanding m s hwf
    refine ⟨sendWs m s, ?_, ?_, hwf'⟩
    · rw [Function.iterate_succ_apply']
      simp [broadcastWs, hs]
    · simp [hout, hlen]

/-- C8.  The claim asserts a bounded per-subscriber outbound buffer with
eviction on a full buffer.  The write queue of WebSocketSession is a
plain std::vector with no capacity check: broadcasting to a single
subscriber whose socket never completes a write grows its pending
messages without bound and never removes it.  Concretely, after three
broadcasts the subscriber is still present holding three undelivered
messages, and no bound on the pending messages exists. -/
theorem C8_counterexample :
    (((broadcastWs "x")^[3] ⟨[newSession]⟩).sessions =
      [{ writeQueue := ["x", "x"], writing := true, inFlight := some "x" }]) ∧
    ¬ ∃ B : ℕ, ∀ n : ℕ, ∀ s ∈ ((broadcastWs "x")^[n] ⟨[newSession]⟩).sessions,
        (outstanding s).length ≤ B := by
  constructor
  · decide
  · rintro ⟨B, hB⟩
    obtain ⟨s, hs, hlen, -⟩ := broadcast_iter_growth "x" (B + 1)
    have := hB (B + 1) s (by rw [hs]; exact List.mem_singleton.mpr rfl)
    omega

/-- C8 (amended).  broadcast(msg) serializes the payload once and
enqueues that same payload onto every subscriber's unbounded outbound
buffer without removing any subscriber; a subscriber is removed from the
set only when an asynchronous write (or read) on its socket fails, which
is the only slow-consumer handling present. -/
theorem C8_broadcast_amended (srv : WsServer) (m : String)
    (h : ∀ s ∈ srv.sessions, WsWf s) :
    (broadcastWs m srv).sessions.length = srv.sessions.length ∧
    (∀ i, ((broadcastWs m srv).sessions.get? i) = (srv.sessions.get? i).map (sendWs m)) ∧
    (∀ s ∈ srv.sessions, outstanding (sendWs m s) = outstanding s ++ [m]) ∧
    (∀ i, (onWriteErr srv i).sessions = srv.sessions.eraseIdx i) := by
  refine ⟨by simp [broadcastWs], ?_, ?_, fun i => rfl⟩
  · intro i
    simp [broadcastWs]
  · intro s hs
    exact (sendWs_outstanding m s (h s hs)).1

/-- C8 (amended, witness): one fresh subscriber, one broadcast. -/
theorem C8_broadcast_amended_witness :
    (broadcastWs "x" ⟨[newSession]⟩).sessions.length = 1 ∧
    outstanding (sendWs "x" newSession) = outstanding newSession ++ ["x"] := by
  have h := C8_broadcast_amended ⟨[newSession]⟩ "x" (by decide)
  exact ⟨h.1, h.2.2.1 newSession (List.mem_singleton.mpr rfl)⟩

/-! ### C2: the buffered-update walk of FeedHandler::apply_snapshot -/

/-- Helper: once found_first_valid is set, the walk emits every
remaining buffered update in order. -/
theorem walkBuffer_found (lastId : ℕ) :
    ∀ l : List DepthUpdate, walkBuffer lastId true l = some l := by
  intro l
  induction l with
  | nil => rfl
  | cons x xs ih => simp [walkBuffer, ih]

/-- Helper: when dropWhile leaves a cons, the predicate fails on its
head. -/
theorem dropWhile_head_false {α : Type} (p : α → Bool) (l : List α) (d : α)
    (ds : List α) (h : l.dropWhile p = d :: ds) : p d = false := by
  induction l with
  | nil => simp at h
  | cons x xs ih =>
    rw [List.dropWhile_cons] at h
    by_cases hx : p x
    · rw [if_pos hx] at h
      exact ih h
    · rw [if_neg hx] at h
      injection h with h1 h2
      subst h1
      exact Bool.eq_false_iff.mpr hx

/-- Helper: the walk drops the longest prefix of entirely-past updates,
then either emits the whole remainder when its head bridges, or reports
the gap. -/
theorem walkBuffer_characterization (lastId : ℕ) (buf : List DepthUpdate) :
    walkBuffer lastId false buf =
      match buf.dropWhile (fun d => decide (d.u ≤ lastId)) with
      | [] => some []
      | d :: ds => if d.U ≤ lastId + 1 then some (d :: ds) else none := by
  induction buf with
  | nil => rfl
  | cons x xs ih =>
    have hstep : walkBuffer lastId false (x :: xs) =
        (if x.U ≤ lastId + 1 ∧ lastId + 1 ≤ x.u then
          (walkBuffer lastId true xs).map (x :: ·)
        else if x.u ≤ lastId then walkBuffer lastId false xs
        else none) := rfl
    by_cases hpast : x.u ≤ lastId
    · have hnb : ¬(x.U ≤ lastId + 1 ∧ lastId + 1 ≤ x.u) := by omega
      have hL : walkBuffer lastId false (x :: xs) = walkBuffer lastId false xs := by
        rw [hstep, if_neg hnb, if_pos hpast]
      have hR : List.dropWhile (fun d => decide (d.u ≤ lastId)) (x :: xs)
          = List.dropWhile (fun d => decide (d.u ≤ lastId)) xs := by
        rw [List.dropWhile_cons, if_pos (by simpa using hpast)]
      rw [hL, hR]
      exact ih
    · have hu : lastId + 1 ≤ x.u := by omega
      have hR : List.dropWhile (fun d => decide (d.u ≤ lastId)) (x :: xs) = x :: xs := by
        rw [List.dropWhile_cons, if_neg (by simpa using hpast)]
      rw [hR]
      show walkBuffer lastId false (x :: xs) =
        if x.U ≤ lastId + 1 then some (x :: xs) else none
      by_cases hb : x.U ≤ lastId + 1
      · rw [hstep, if_pos ⟨hb, hu⟩, walkBuffer_found, Option.map_some', if_pos hb]
      · rw [hstep, if_neg (fun h => hb h.1), if_neg hpast, if_neg hb]

/-- C2.  When a REST snapshot arrives in WaitingSnapshot (the handler
having reset snapshot_requested_), a single walk of the buffered depth
updates drops the maximal prefix of updates with u ≤ snapshot
last_update_id (and, the buffered u being strictly increasing as on a
live stream, every buffered update with u ≤ last_update_id is dropped);
when the first remaining update bridges (U ≤ last+1 ≤ u) it and every
subsequent buffered update are emitted in arrival order after the
snapshot message and the handler transitions to Live; when the first
remaining update instead has U > last+1 the handler re-enters
WaitingSnapshot, clears the buffer and issues a new snapshot request;
and with no remaining update the handler goes Live emitting only the
snapshot. -/
theorem C2_snapshot_bridging (snap : DepthSnapshot) (fh : FeedHandler)
    (hmono : fh.buffered.Pairwise (fun a b => a.u < b.u)) :
    (∀ x ∈ fh.buffered,
      x ∉ fh.buffered.dropWhile (fun d => decide (d.u ≤ snap.lastUpdateId)) →
      x.u ≤ snap.lastUpdateId) ∧
    (∀ x ∈ fh.buffered, x.u ≤ snap.lastUpdateId →
      x ∉ fh.buffered.dropWhile (fun d => decide (d.u ≤ snap.lastUpdateId))) ∧
    (match fh.buffered.dropWhile (fun d => decide (d.u ≤ snap.lastUpdateId)) with
     | [] =>
       (onSnapshotOk snap fh).1.state = .Live ∧
       (onSnapshotOk snap fh).1.buffered = [] ∧
       (onSnapshotOk snap fh).2 = [.snapshotMsg snap]
     | d :: ds =>
       if d.U ≤ snap.lastUpdateId + 1 then
         snap.lastUpdateId + 1 ≤ d.u ∧
         (onSnapshotOk snap fh).1.state = .Live ∧
         (onSnapshotOk snap fh).1.buffered = [] ∧
         (onSnapshotOk snap fh).2 =
           .snapshotMsg snap :: (d :: ds).map .depthMsg
       else
         (onSnapshotOk snap fh).1.state = .WaitingSnapshot ∧
         (onSnapshotOk snap fh).1.buffered = [] ∧
         (onSnapshotOk snap fh).1.snapshotRequested = true ∧
         (onSnapshotOk snap fh).1.fetchCount = fh.fetchCount + 1 ∧
         (onSnapshotOk snap fh).2 = [.snapshotMsg snap]) := by
  refine ⟨?_, ?_, ?_⟩
  · intro x hx hnd
    have hx' : x ∈ fh.buffered.takeWhile (fun d => decide (d.u ≤ snap.lastUpdateId)) := by
      have hsplit := List.takeWhile_append_dropWhile
        (p := fun d => decide (d.u ≤ snap.lastUpdateId)) (l := fh.buffered)
      rw [← hsplit] at hx
      rcases List.mem_append.mp hx with h | h
      · exact h
      · exact absurd h hnd
    simpa using List.mem_takeWhile_imp hx'
  · intro x hx hxu hmem
    have hrest : (fh.buffered.dropWhile
        (fun d => decide (d.u ≤ snap.lastUpdateId))).Pairwise (fun a b => a.u < b.u) :=
      List.Pairwise.sublist (List.dropWhile_sublist _) hmono
    cases hne : fh.buffered.dropWhile (fun d => decide (d.u ≤ snap.lastUpdateId)) with
    | nil => rw [hne] at hmem; exact (List.not_mem_nil x) hmem
    | cons d ds =>
      have hdu : ¬ d.u ≤ snap.lastUpdateId := by
        simpa using dropWhile_head_false _ _ _ _ hne
      rw [hne] at hmem hrest
      rcases List.mem_cons.mp hmem with h | h
      · subst h; omega
      · have := List.rel_of_pairwise_cons hrest h
        omega
  · have hchar := walkBuffer_characterization snap.lastUpdateId fh.buffered
    cases hne : fh.buffered.dropWhile (fun d => decide (d.u ≤ snap.lastUpdateId)) with
    | nil =>
      simp only [hne] at hchar
      simp only [hne]
      simp [onSnapshotOk, applySnapshotFH, hchar]
    | cons d ds =>
      have hdu : ¬ d.u ≤ snap.lastUpdateId := by
        simpa using dropWhile_head_false _ _ _ _ hne
      simp only [hne] at hchar
      simp only [hne]
      by_cases hb : d.U ≤ snap.lastUpdateId + 1
      · rw [if_pos hb] at hchar
        rw [if_pos hb]
        refine ⟨by omega, ?_⟩
        simp [onSnapshotOk, applySnapshotFH, hchar]
      · rw [if_neg hb] at hchar
        rw [if_neg hb]
        simp [onSnapshotOk, applySnapshotFH, hchar, requestSnapshot]

/-- C2 (witness): scenario 3 of the spec.  Snapshot last_update_id =
1001 with buffered updates (U,u) = (995,999), (1000,1002), (1003,1004):
the first is dropped, the second bridges, and the handler goes Live
emitting the snapshot followed by the last two updates. -/
theorem C2_snapshot_bridging_witness :
    (onSnapshotOk ⟨1001, [], []⟩
        ⟨.WaitingSnapshot, [⟨995, 999, 0, [], []⟩, ⟨1000, 1002, 0, [], []⟩,
          ⟨1003, 1004, 0, [], []⟩], true, 1⟩).1.state = .Live ∧
    (onSnapshotOk ⟨1001, [], []⟩
        ⟨.WaitingSnapshot, [⟨995, 999, 0, [], []⟩, ⟨1000, 1002, 0, [], []⟩,
          ⟨1003, 1004, 0, [], []⟩], true, 1⟩).2 =
      [.snapshotMsg ⟨1001, [], []⟩, .depthMsg ⟨1000, 1002, 0, [], []⟩,
       .depthMsg ⟨1003, 1004, 0, [], []⟩] := by
  have h := (C2_snapshot_bridging ⟨1001, [], []⟩
    ⟨.WaitingSnapshot, [⟨995, 999, 0, [], []⟩, ⟨1000, 1002, 0, [], []⟩,
      ⟨1003, 1004, 0, [], []⟩], true, 1⟩ (by decide)).2.2
  simp only [List.dropWhile, decide_eq_true_eq] at h
  norm_num at h
  exact ⟨h.1, h.2.2⟩

/-! ### C4 and C10: rolling VWAP window and trade-flow totals -/

/-- Helper: field-level characterization of add_trade: the deque and
the two running sums, with and without eviction. -/
theorem addTrade_fields (c : Vwap) (p q : ℚ) :
    (addTrade c p q).windowSize = c.windowSize ∧
    (addTrade c p q).trades = (if c.windowSize < c.trades.length + 1
      then (c.trades ++ [(⟨p, q⟩ : VwapTrade)]).tail
      else c.trades ++ [(⟨p, q⟩ : VwapTrade)]) ∧
    (addTrade c p q).sumPv = (if c.windowSize < c.trades.length + 1
      then c.sumPv + p * q -
        (c.trades ++ [(⟨p, q⟩ : VwapTrade)]).headI.price *
          (c.trades ++ [(⟨p, q⟩ : VwapTrade)]).headI.qty
      else c.sumPv + p * q) ∧
    (addTrade c p q).sumV = (if c.windowSize < c.trades.length + 1
      then c.sumV + q - (c.trades ++ [(⟨p, q⟩ : VwapTrade)]).headI.qty
      else c.sumV + q) := by
  by_cases h : c.windowSize < c.trades.length + 1
  · have h' : c.windowSize < (c.trades ++ [(⟨p, q⟩ : VwapTrade)]).length := by
      simpa using h
    refine ⟨?_, ?_, ?_, ?_⟩ <;>
      (simp only [addTrade, if_pos h', if_pos h]; split <;> rfl)
  · have h' : ¬ c.windowSize < (c.trades ++ [(⟨p, q⟩ : VwapTrade)]).length := by
      simpa using h
    refine ⟨?_, ?_, ?_, ?_⟩ <;> (simp only [addTrade, if_neg h', if_neg h])

/-- Helper: one add_trade step keeps the deque and the running sums in
lockstep with the last windowSize trades processed so far. -/
theorem addTrade_window (c : Vwap) (P : List (ℚ × ℚ)) (w : ℕ) (p q : ℚ)
    (hw : c.windowSize = w)
    (ht : c.trades = (P.drop (P.length - w)).map (fun t => ⟨t.1, t.2⟩))
    (hpv : c.sumPv = ((P.drop (P.length - w)).map (fun t => t.1 * t.2)).sum)
    (hv : c.sumV = ((P.drop (P.length - w)).map (fun t => t.2)).sum) :
    (addTrade c p q).windowSize = w ∧
    (addTrade c p q).trades =
      (((P ++ [(p, q)]).drop ((P ++ [(p, q)]).length - w)).map (fun t => ⟨t.1, t.2⟩)) ∧
    (addTrade c p q).sumPv =
      (((P ++ [(p, q)]).drop ((P ++ [(p, q)]).length - w)).map (fun t => t.1 * t.2)).sum ∧
    (addTrade c p q).sumV =
      (((P ++ [(p, q)]).drop ((P ++ [(p, q)]).length - w)).map (fun t => t.2)).sum := by
  obtain ⟨hf0, hf1, hf2, hf3⟩ := addTrade_fields c p q
  have hctl : c.trades.length = P.length - (P.length - w) := by
    rw [ht, List.length_map, List.length_drop]
  rw [hw] at hf1 hf2 hf3
  by_cases hcase : w < c.trades.length + 1
  · -- eviction branch
    have hwP : w ≤ P.length := by omega
    rw [if_pos hcase] at hf1 hf2 hf3
    by_cases hw0 : w = 0
    · subst hw0
      have hS : P.drop (P.length - 0) = [] := by
        simp
      have htr : c.trades = [] := by rw [ht, hS]; rfl
      have hhead : (c.trades ++ [(⟨p, q⟩ : VwapTrade)]).headI = ⟨p, q⟩ := by
        rw [htr]; rfl
      have htail : (c.trades ++ [(⟨p, q⟩ : VwapTrade)]).tail = [] := by
        rw [htr]; rfl
      have hdrop0 : (P ++ [(p, q)]).drop ((P ++ [(p, q)]).length - 0) = [] := by
        apply List.drop_eq_nil_of_le; simp
      refine ⟨hf0.trans hw, ?_, ?_, ?_⟩
      · rw [hf1, htail, hdrop0]; rfl
      · rw [hf2, hhead, hdrop0, hpv, hS]
        simp
      · rw [hf3, hhead, hdrop0, hv, hS]
        simp
    · -- window at least one
      have hw1 : 1 ≤ w := by omega
      have hSlen : 0 < (P.drop (P.length - w)).length := by
        rw [List.length_drop]; omega
      obtain ⟨s, S', hS⟩ : ∃ s S', P.drop (P.length - w) = s :: S' := by
        cases hS : P.drop (P.length - w) with
        | nil => rw [hS] at hSlen; simp at hSlen
        | cons s S' => exact ⟨s, S', rfl⟩
      have hS' : S' = P.drop (P.length - w + 1) := by
        have h := List.tail_drop P (P.length - w)
        rw [hS] at h
        exact h
      have hidx : (P ++ [(p, q)]).length - w = (P.length - w) + 1 := by
        simp; omega
      have hdropP : (P ++ [(p, q)]).drop ((P ++ [(p, q)]).length - w) =
          P.drop (P.length - w + 1) ++ [(p, q)] := by
        rw [hidx, List.drop_append_of_le_length (by omega)]
      have htr : c.trades =
          (⟨s.1, s.2⟩ : VwapTrade) :: S'.map (fun t => ⟨t.1, t.2⟩) := by
        rw [ht, hS]; rfl
      have hhead : (c.trades ++ [(⟨p, q⟩ : VwapTrade)]).headI = ⟨s.1, s.2⟩ := by
        rw [htr]; rfl
      have htail : (c.trades ++ [(⟨p, q⟩ : VwapTrade)]).tail =
          S'.map (fun t => ⟨t.1, t.2⟩) ++ [(⟨p, q⟩ : VwapTrade)] := by
        rw [htr]; rfl
      refine ⟨hf0.trans hw, ?_, ?_, ?_⟩
      · rw [hf1, htail, hdropP, ← hS', List.map_append]
        rfl
      · rw [hf2, hhead, hdropP, ← hS', hpv, hS, List.map_append, List.sum_append,
          List.map_cons, List.sum_cons]
        simp
        ring
      · rw [hf3, hhead, hdropP, ← hS', hv, hS, List.map_append, List.sum_append,
          List.map_cons, List.sum_cons]
        simp
        ring
  · -- no eviction
    have hwP : P.length < w := by omega
    rw [if_neg hcase] at hf1 hf2 hf3
    have hz : P.length - w = 0 := by omega
    have hz2 : (P ++ [(p, q)]).length - w = 0 := by simp; omega
    rw [hz, List.drop_zero] at ht hpv hv
    refine ⟨hf0.trans hw, ?_, ?_, ?_⟩
    · rw [hf1, ht, hz2, List.drop_zero, List.map_append]
      rfl
    · rw [hf2, hpv, hz2, List.drop_zero, List.map_append, List.sum_append]
      simp
    · rw [hf3, hv, hz2, List.drop_zero, List.map_append, List.sum_append]
      simp

/-- Helper: folding trades through add_trade from any state satisfying
the window invariant lands in a state satisfying it for the extended
history. -/
theorem addTrades_go (ts : List (ℚ × ℚ)) :
    ∀ (c : Vwap) (P : List (ℚ × ℚ)) (w : ℕ),
    c.windowSize = w →
    c.trades = (P.drop (P.length - w)).map (fun t => ⟨t.1, t.2⟩) →
    c.sumPv = ((P.drop (P.length - w)).map (fun t => t.1 * t.2)).sum →
    c.sumV = ((P.drop (P.length - w)).map (fun t => t.2)).sum →
    (ts.foldl (fun c t => addTrade c t.1 t.2) c).windowSize = w ∧
    (ts.foldl (fun c t => addTrade c t.1 t.2) c).trades =
      (((P ++ ts).drop ((P ++ ts).length - w)).map (fun t => ⟨t.1, t.2⟩)) ∧
    (ts.foldl (fun c t => addTrade c t.1 t.2) c).sumPv =
      (((P ++ ts).drop ((P ++ ts).length - w)).map (fun t => t.1 * t.2)).sum ∧
    (ts.foldl (fun c t => addTrade c t.1 t.2) c).sumV =
      (((P ++ ts).drop ((P ++ ts).length - w)).map (fun t => t.2)).sum := by
  induction ts with
  | nil =>
    intro c P w hw ht hpv hv
    simp only [List.foldl_nil, List.append_nil]
    exact ⟨hw, ht, hpv, hv⟩
  | cons t ts ih =>
    intro c P w hw ht hpv hv
    have hstep := addTrade_window c P w t.1 t.2 hw ht hpv hv
    have h := ih (addTrade c t.1 t.2) (P ++ [t]) w hstep.1 hstep.2.1 hstep.2.2.1 hstep.2.2.2
    simpa [List.append_assoc] using h

/-- Helper: the state after running a trade history through a fresh
window-w calculator. -/
theorem addTrades_window (w : ℕ) (ts : List (ℚ × ℚ)) :
    (addTrades w ts).windowSize = w ∧
    (addTrades w ts).trades = ((ts.drop (ts.length - w)).map (fun t => ⟨t.1, t.2⟩)) ∧
    (addTrades w ts).sumPv = ((ts.drop (ts.length - w)).map (fun t => t.1 * t.2)).sum ∧
    (addTrades w ts).sumV = ((ts.drop (ts.length - w)).map (fun t => t.2)).sum := by
  have := addTrades_go ts (initVwap w) [] w rfl (by simp [initVwap]) (by simp [initVwap])
    (by simp [initVwap])
  simpa [addTrades] using this

/-- C4.  The running sums of the VWAP calculator always cover exactly
the last W trades (so once the window is exceeded the oldest trade's
contribution has been removed); while at most W trades have been added,
vwap = (Σ price·qty)/(Σ qty) with vwap = 0 whenever Σ qty ≤ 0; and in
the concrete window-3 scenario the trades (100,1), (200,1), (300,1)
give VWAP 200, a further (400,1) gives VWAP 300 with trade count 3. -/
theorem C4_sliding_vwap :
    (∀ (ts : List (ℚ × ℚ)) (w : ℕ),
      (addTrades w ts).sumPv = ((ts.drop (ts.length - w)).map (fun t => t.1 * t.2)).sum ∧
      (addTrades w ts).sumV = ((ts.drop (ts.length - w)).map (fun t => t.2)).sum ∧
      tradeCount (addTrades w ts) = min ts.length w) ∧
    (∀ (ts : List (ℚ × ℚ)) (w : ℕ), ts.length ≤ w →
      vwapOf (addTrades w ts) =
        if (ts.map (fun t => t.2)).sum ≤ 0 then 0
        else (ts.map (fun t => t.1 * t.2)).sum / (ts.map (fun t => t.2)).sum) ∧
    (vwapOf (addTrades 3 [(100, 1), (200, 1), (300, 1)]) = 200 ∧
     vwapOf (addTrades 3 [(100, 1), (200, 1), (300, 1), (400, 1)]) = 300 ∧
     tradeCount (addTrades 3 [(100, 1), (200, 1), (300, 1), (400, 1)]) = 3) := by
  have key := addTrades_window
  refine ⟨?_, ?_, ?_, ?_, ?_⟩
  · intro ts w
    obtain ⟨-, ht, hpv, hv⟩ := key w ts
    refine ⟨hpv, hv, ?_⟩
    rw [tradeCount, ht, List.length_map, List.length_drop]
    omega
  · intro ts w hle
    obtain ⟨-, -, hpv, hv⟩ := key w ts
    have hz : ts.length - w = 0 := by omega
    rw [hz, List.drop_zero] at hpv hv
    rw [vwapOf, hpv, hv]
  · norm_num [addTrades, addTrade, initVwap, vwapOf]
  · norm_num [addTrades, addTrade, initVwap, vwapOf]
  · norm_num [addTrades, addTrade, initVwap, tradeCount]

/-- C4 (witness): a single trade within a window of 3. -/
theorem C4_sliding_vwap_witness :
    vwapOf (addTrades 3 [((42150 : ℚ), (2 : ℚ))]) = 42150 := by
  have h := C4_sliding_vwap.2.1 [((42150 : ℚ), (2 : ℚ))] 3 (by decide)
  norm_num at h
  exact h

/-- Helper: the trade-flow fold tracks lifetime buy and sell volume and
feeds every trade's (price, qty) to the VWAP window. -/
theorem processTrade_fold (ts : List AggTrade) : ∀ tf : TradeFlow,
    (ts.foldl processTrade tf).totalBuyVolume =
      tf.totalBuyVolume + ((ts.filter (fun t => !t.isBuyerMaker)).map (·.qty)).sum ∧
    (ts.foldl processTrade tf).totalSellVolume =
      tf.totalSellVolume + ((ts.filter (fun t => t.isBuyerMaker)).map (·.qty)).sum ∧
    (ts.foldl processTrade tf).vwap =
      (ts.map (fun t => (t.price, t.qty))).foldl (fun c t => addTrade c t.1 t.2) tf.vwap := by
  induction ts with
  | nil => intro tf; simp
  | cons t ts ih =>
    intro tf
    obtain ⟨h1, h2, h3⟩ := ih (processTrade tf t)
    by_cases hm : t.isBuyerMaker
    · refine ⟨?_, ?_, ?_⟩
      · rw [List.foldl_cons, h1]
        simp [processTrade, hm]
      · rw [List.foldl_cons, h2]
        simp [processTrade, hm]
        ring
      · rw [List.foldl_cons, h3]
        simp [processTrade, hm]
    · refine ⟨?_, ?_, ?_⟩
      · rw [List.foldl_cons, h1]
        simp [processTrade, hm]
        ring
      · rw [List.foldl_cons, h2]
        simp [processTrade, hm]
      · rw [List.foldl_cons, h3]
        simp [processTrade, hm]

/-- C10.  Over any trade history from construction (or reset, which
re-creates the same state), total_buy_volume accumulates the quantity of
every trade whose is_buyer_maker is false, total_sell_volume the rest;
these lifetime totals are whole-history sums, unaffected by the VWAP
window evicting old trades; net_flow reported by current_metrics is
their difference, and the reported trade_count is the window-limited
count min(n, W), never exceeding W. -/
theorem C10_trade_flow_totals (ts : List AggTrade) (w : ℕ) :
    (processTrades w ts).totalBuyVolume =
      ((ts.filter (fun t => !t.isBuyerMaker)).map (·.qty)).sum ∧
    (processTrades w ts).totalSellVolume =
      ((ts.filter (fun t => t.isBuyerMaker)).map (·.qty)).sum ∧
    (currentMetrics (processTrades w ts)).netFlow =
      (processTrades w ts).totalBuyVolume - (processTrades w ts).totalSellVolume ∧
    (processTrades w ts).vwap = addTrades w (ts.map (fun t => (t.price, t.qty))) ∧
    (currentMetrics (processTrades w ts)).tradeCount = min ts.length w ∧
    (currentMetrics (processTrades w ts)).tradeCount ≤ w := by
  obtain ⟨h1, h2, h3⟩ := processTrade_fold ts (initTradeFlow w)
  have hbuy : (processTrades w ts).totalBuyVolume =
      ((ts.filter (fun t => !t.isBuyerMaker)).map (·.qty)).sum := by
    rw [processTrades, h1]; simp [initTradeFlow]
  have hsell : (processTrades w ts).totalSellVolume =
      ((ts.filter (fun t => t.isBuyerMaker)).map (·.qty)).sum := by
    rw [processTrades, h2]; simp [initTradeFlow]
  have hvwap : (processTrades w ts).vwap =
      addTrades w (ts.map (fun t => (t.price, t.qty))) := by
    rw [processTrades, h3]; rfl
  have hcount : (currentMetrics (processTrades w ts)).tradeCount = min ts.length w := by
    have hw := (addTrades_window w (ts.map (fun t => (t.price, t.qty)))).2.1
    show tradeCount (processTrades w ts).vwap = _
    rw [hvwap, tradeCount, hw, List.length_map, List.length_drop, List.length_map]
    omega
  exact ⟨hbuy, hsell, rfl, hvwap, hcount, by rw [hcount]; omega⟩

/-! ### Order-book invariants (shared by C9 and C1) -/

/-- Helper: every element of insertDesc is the new entry or an old one. -/
theorem mem_insertDesc {p : ℤ} {q : ℚ} {l : List Level} {x : Level}
    (h : x ∈ insertDesc p q l) : x = (p, q) ∨ x ∈ l := by
  induction l with
  | nil => simpa [insertDesc] using h
  | cons y ys ih =>
    rw [insertDesc] at h
    split_ifs at h with h1 h2
    · rcases List.mem_cons.mp h with h | h
      · exact Or.inl h
      · exact Or.inr h
    · rcases List.mem_cons.mp h with h | h
      · exact Or.inl h
      · exact Or.inr (List.mem_cons_of_mem _ h)
    · rcases List.mem_cons.mp h with h | h
      · exact Or.inr (List.mem_cons.mpr (Or.inl h))
      · rcases ih h with h' | h'
        · exact Or.inl h'
        · exact Or.inr (List.mem_cons_of_mem _ h')

/-- Helper: every element of insertAsc is the new entry or an old one. -/
theorem mem_insertAsc {p : ℤ} {q : ℚ} {l : List Level} {x : Level}
    (h : x ∈ insertAsc p q l) : x = (p, q) ∨ x ∈ l := by
  induction l with
  | nil => simpa [insertAsc] using h
  | cons y ys ih =>
    rw [insertAsc] at h
    split_ifs at h with h1 h2
    · rcases List.mem_cons.mp h with h | h
      · exact Or.inl h
      · exact Or.inr h
    · rcases List.mem_cons.mp h with h | h
      · exact Or.inl h
      · exact Or.inr (List.mem_cons_of_mem _ h)
    · rcases List.mem_cons.mp h with h | h
      · exact Or.inr (List.mem_cons.mpr (Or.inl h))
      · rcases ih h with h' | h'
        · exact Or.inl h'
        · exact Or.inr (List.mem_cons_of_mem _ h')

/-- Helper: insertDesc preserves strictly descending key order. -/
theorem insertDesc_pairwise {p : ℤ} {q : ℚ} {l : List Level}
    (h : l.Pairwise (fun a b => b.1 < a.1)) :
    (insertDesc p q l).Pairwise (fun a b => b.1 < a.1) := by
  induction l with
  | nil => simp [insertDesc]
  | cons y ys ih =>
    obtain ⟨hy, hys⟩ := List.pairwise_cons.mp h
    rw [insertDesc]
    split_ifs with h1 h2
    · refine List.pairwise_cons.mpr ⟨?_, h⟩
      intro x hx
      rcases List.mem_cons.mp hx with h' | h'
      · subst h'; exact h1
      · exact lt_trans (hy x h') h1
    · exact List.pairwise_cons.mpr ⟨fun x hx => h2 ▸ hy x hx, hys⟩
    · refine List.pairwise_cons.mpr ⟨?_, ih hys⟩
      intro x hx
      rcases mem_insertDesc hx with h' | h'
      · subst h'; omega
      · exact hy x h'

/-- Helper: insertAsc preserves strictly ascending key order. -/
theorem insertAsc_pairwise {p : ℤ} {q : ℚ} {l : List Level}
    (h : l.Pairwise (fun a b => a.1 < b.1)) :
    (insertAsc p q l).Pairwise (fun a b => a.1 < b.1) := by
  induction l with
  | nil => simp [insertAsc]
  | cons y ys ih =>
    obtain ⟨hy, hys⟩ := List.pairwise_cons.mp h
    rw [insertAsc]
    split_ifs with h1 h2
    · refine List.pairwise_cons.mpr ⟨?_, h⟩
      intro x hx
      rcases List.mem_cons.mp hx with h' | h'
      · subst h'; exact h1
      · exact lt_trans h1 (hy x h')
    · exact List.pairwise_cons.mpr ⟨fun x hx => h2 ▸ hy x hx, hys⟩
    · refine List.pairwise_cons.mpr ⟨?_, ih hys⟩
      intro x hx
      rcases mem_insertAsc hx with h' | h'
      · subst h'; omega
      · exact hy x h'

/-- Helper: eraseLevel yields a sublist. -/
theorem eraseLevel_sublist (p : ℤ) (l : List Level) : List.Sublist (eraseLevel p l) l := by
  induction l with
  | nil => simp [eraseLevel]
  | cons y ys ih =>
    rw [eraseLevel]
    split_ifs
    · exact List.sublist_cons_self _ _
    · exact List.Sublist.cons₂ _ ih

/-- Helper: positivity of stored quantities after an insert of a
positive quantity. -/
theorem insertDesc_pos {p : ℤ} {q : ℚ} {l : List Level} (hq : 0 < q)
    (h : ∀ x ∈ l, 0 < x.2) : ∀ x ∈ insertDesc p q l, 0 < x.2 := by
  intro x hx
  rcases mem_insertDesc hx with h' | h'
  · subst h'; exact hq
  · exact h x h'

/-- Helper: positivity of stored quantities after an insert of a
positive quantity (ask side). -/
theorem insertAsc_pos {p : ℤ} {q : ℚ} {l : List Level} (hq : 0 < q)
    (h : ∀ x ∈ l, 0 < x.2) : ∀ x ∈ insertAsc p q l, 0 < x.2 := by
  intro x hx
  rcases mem_insertAsc hx with h' | h'
  · subst h'; exact hq
  · exact h x h'

/-- Helper: apply_bid_update and apply_ask_update preserve the book
invariant. -/
theorem applyBidUpdate_inv {bk : Book} (h : BookInv bk) (p : ℤ) (q : ℚ) :
    BookInv (applyBidUpdate bk p q) := by
  obtain ⟨hb, ha, hbp, hap⟩ := h
  rw [applyBidUpdate]
  split_ifs with hq
  · exact ⟨insertDesc_pairwise hb, ha, insertDesc_pos hq hbp, hap⟩
  · exact ⟨List.Pairwise.sublist (eraseLevel_sublist _ _) hb, ha,
      fun x hx => hbp x ((eraseLevel_sublist _ _).subset hx), hap⟩

/-- Helper: ask-side counterpart. -/
theorem applyAskUpdate_inv {bk : Book} (h : BookInv bk) (p : ℤ) (q : ℚ) :
    BookInv (applyAskUpdate bk p q) := by
  obtain ⟨hb, ha, hbp, hap⟩ := h
  rw [applyAskUpdate]
  split_ifs with hq
  · exact ⟨hb, insertAsc_pairwise ha, hbp, insertAsc_pos hq hap⟩
  · exact ⟨hb, List.Pairwise.sublist (eraseLevel_sublist _ _) ha,
      hbp, fun x hx => hap x ((eraseLevel_sublist _ _).subset hx)⟩

/-- Helper: a side built by folding positive-quantity inserts from any
invariant-satisfying side stays invariant (bid side). -/
theorem foldBids_inv (levels : List Level) :
    ∀ l : List Level, l.Pairwise (fun a b => b.1 < a.1) → (∀ x ∈ l, 0 < x.2) →
    ((levels.foldl (fun l pq => if 0 < pq.2 then insertDesc pq.1 pq.2 l else l) l).Pairwise
      (fun a b => b.1 < a.1)) ∧
    (∀ x ∈ levels.foldl (fun l pq => if 0 < pq.2 then insertDesc pq.1 pq.2 l else l) l,
      0 < x.2) := by
  induction levels with
  | nil => intro l h1 h2; exact ⟨h1, h2⟩
  | cons y ys ih =>
    intro l h1 h2
    rw [List.foldl_cons]
    by_cases hy : 0 < y.2
    · rw [if_pos hy]
      exact ih _ (insertDesc_pairwise h1) (insertDesc_pos hy h2)
    · rw [if_neg hy]
      exact ih _ h1 h2

/-- Helper: ask-side counterpart. -/
theorem foldAsks_inv (levels : List Level) :
    ∀ l : List Level, l.Pairwise (fun a b => a.1 < b.1) → (∀ x ∈ l, 0 < x.2) →
    ((levels.foldl (fun l pq => if 0 < pq.2 then insertAsc pq.1 pq.2 l else l) l).Pairwise
      (fun a b => a.1 < b.1)) ∧
    (∀ x ∈ levels.foldl (fun l pq => if 0 < pq.2 then insertAsc pq.1 pq.2 l else l) l,
      0 < x.2) := by
  induction levels with
  | nil => intro l h1 h2; exact ⟨h1, h2⟩
  | cons y ys ih =>
    intro l h1 h2
    rw [List.foldl_cons]
    by_cases hy : 0 < y.2
    · rw [if_pos hy]
      exact ih _ (insertAsc_pairwise h1) (insertAsc_pos hy h2)
    · rw [if_neg hy]
      exact ih _ h1 h2

/-- Helper: folding bid updates preserves the invariant. -/
theorem foldBidUpdates_inv (levels : List Level) :
    ∀ bk : Book, BookInv bk →
    BookInv (levels.foldl (fun b pq => applyBidUpdate b pq.1 pq.2) bk) := by
  induction levels with
  | nil => intro bk h; exact h
  | cons y ys ih =>
    intro bk h
    rw [List.foldl_cons]
    exact ih _ (applyBidUpdate_inv h y.1 y.2)

/-- Helper: folding ask updates preserves the invariant. -/
theorem foldAskUpdates_inv (levels : List Level) :
    ∀ bk : Book, BookInv bk →
    BookInv (levels.foldl (fun b pq => applyAskUpdate b pq.1 pq.2) bk) := by
  induction levels with
  | nil => intro bk h; exact h
  | cons y ys ih =>
    intro bk h
    rw [List.foldl_cons]
    exact ih _ (applyAskUpdate_inv h y.1 y.2)

/-- Helper: every operation preserves the book invariant. -/
theorem applyOp_inv {bk : Book} (h : BookInv bk) (op : BookOp) :
    BookInv (applyOp bk op) := by
  cases op with
  | snap s =>
    obtain ⟨hb, hbp⟩ := foldBids_inv s.bids [] (by simp) (by simp)
    obtain ⟨ha, hap⟩ := foldAsks_inv s.asks [] (by simp) (by simp)
    exact ⟨hb, ha, hbp, hap⟩
  | upd u =>
    have h1 := foldBidUpdates_inv u.bids bk h
    have h2 := foldAskUpdates_inv u.asks _ h1
    exact h2
  | clear =>
    exact ⟨List.Pairwise.nil, List.Pairwise.nil, by simp [applyOp, clearBook],
      by simp [applyOp, clearBook]⟩

/-- Helper: folding operations preserves the invariant. -/
theorem foldOps_inv (ops : List BookOp) :
    ∀ bk : Book, BookInv bk → BookInv (ops.foldl applyOp bk) := by
  induction ops with
  | nil => intro bk h; exact h
  | cons op ops ih =>
    intro bk h
    rw [List.foldl_cons]
    exact ih _ (applyOp_inv h op)

/-- Helper: every reachable book satisfies the invariant. -/
theorem applyOps_inv (levels : ℕ) (ops : List BookOp) :
    BookInv (applyOps levels ops) :=
  foldOps_inv ops (emptyBook levels)
    ⟨List.Pairwise.nil, List.Pairwise.nil, by simp [emptyBook], by simp [emptyBook]⟩

/-! ### C9: imbalance of the order book -/

/-- Helper: the quantity sum of a prefix of a positive-quantity side is
nonnegative. -/
theorem qsum_take_nonneg (l : List Level) (n : ℕ) (h : ∀ x ∈ l, 0 < x.2) :
    0 ≤ qsum (l.take n) := by
  apply List.sum_nonneg
  intro x hx
  obtain ⟨y, hy, rfl⟩ := List.mem_map.mp hx
  exact le_of_lt (h y (List.mem_of_mem_take hy))

/-- C9.  After any sequence of apply_snapshot, apply_update and clear
operations from a fresh book, the imbalance is 0 when both sides are
empty and when the top-L quantity total is non-positive, equals
(Σ top-L bid qty − Σ top-L ask qty) / total when the total is positive,
and always lies in [-1, 1]. -/
theorem C9_imbalance (levels : ℕ) (ops : List BookOp) :
    ((applyOps levels ops).bids = [] ∧ (applyOps levels ops).asks = [] →
      calculateImbalance (applyOps levels ops) = 0) ∧
    (qsum ((applyOps levels ops).bids.take (applyOps levels ops).imbalanceLevels) +
        qsum ((applyOps levels ops).asks.take (applyOps levels ops).imbalanceLevels) ≤ 0 →
      calculateImbalance (applyOps levels ops) = 0) ∧
    (0 < qsum ((applyOps levels ops).bids.take (applyOps levels ops).imbalanceLevels) +
        qsum ((applyOps levels ops).asks.take (applyOps levels ops).imbalanceLevels) →
      calculateImbalance (applyOps levels ops) =
        (qsum ((applyOps levels ops).bids.take (applyOps levels ops).imbalanceLevels) -
         qsum ((applyOps levels ops).asks.take (applyOps levels ops).imbalanceLevels)) /
        (qsum ((applyOps levels ops).bids.take (applyOps levels ops).imbalanceLevels) +
         qsum ((applyOps levels ops).asks.take (applyOps levels ops).imbalanceLevels))) ∧
    -1 ≤ calculateImbalance (applyOps levels ops) ∧
    calculateImbalance (applyOps levels ops) ≤ 1 := by
  obtain ⟨-, -, hbp, hap⟩ := applyOps_inv levels ops
  set bk := applyOps levels ops with hbk
  have hbv : 0 ≤ qsum (bk.bids.take bk.imbalanceLevels) :=
    qsum_take_nonneg _ _ hbp
  have hav : 0 ≤ qsum (bk.asks.take bk.imbalanceLevels) :=
    qsum_take_nonneg _ _ hap
  refine ⟨?_, ?_, ?_, ?_⟩
  · intro h
    simp only [calculateImbalance, if_pos h]
  · intro htot
    simp only [calculateImbalance]
    split_ifs with h1
    · rfl
    · rfl
  · intro htot
    simp only [calculateImbalance]
    split_ifs with h1 h2
    · rw [h1.1, h1.2] at htot
      simp [qsum] at htot
    · exact absurd h2 (not_le.mpr htot)
    · rfl
  · simp only [calculateImbalance]
    split_ifs with h1 h2
    · norm_num
    · norm_num
    · push_neg at h2
      constructor
      · rw [le_div_iff₀ h2]
        linarith
      · rw [div_le_one h2]
        linarith

/-- C9 (witness): the empty book reports imbalance 0 (via the
both-sides-empty hypothesis), and a three-level snapshot with bid depth
30 against ask depth 15 reports (30 − 15)/45 = 1/3. -/
theorem C9_imbalance_witness :
    calculateImbalance (applyOps 5 []) = 0 ∧
    calculateImbalance
      (applyOps 5 [.snap ⟨1000, [(5, 10), (4, 10), (3, 10)],
        [(6, 5), (7, 5), (8, 5)]⟩]) = 1 / 3 := by
  constructor
  · exact (C9_imbalance 5 []).1 ⟨rfl, rfl⟩
  · have h := (C9_imbalance 5 [.snap ⟨1000, [(5, 10), (4, 10), (3, 10)],
      [(6, 5), (7, 5), (8, 5)]⟩]).2.2.1
    have hbids : (applyOps 5 [.snap ⟨1000, [(5, 10), (4, 10), (3, 10)],
        [(6, 5), (7, 5), (8, 5)]⟩]).bids = [(5, 10), (4, 10), (3, 10)] := by
      norm_num [applyOps, applyOp, applySnapshot, emptyBook, insertDesc]
    have hasks : (applyOps 5 [.snap ⟨1000, [(5, 10), (4, 10), (3, 10)],
        [(6, 5), (7, 5), (8, 5)]⟩]).asks = [(6, 5), (7, 5), (8, 5)] := by
      norm_num [applyOps, applyOp, applySnapshot, emptyBook, insertAsc]
    have hlev : (applyOps 5 [.snap ⟨1000, [(5, 10), (4, 10), (3, 10)],
        [(6, 5), (7, 5), (8, 5)]⟩]).imbalanceLevels = 5 := rfl
    rw [hbids, hasks, hlev] at h
    norm_num [qsum] at h
    rw [h]

/-! ### Parse correspondence (shared by C1 and C5) -/

/-- Helper: a digit character is not the decimal point and passes the
range test of the parse loop. -/
theorem digit_char_facts {c : Char} (h : isDigitC c) :
    c ≠ '.' ∧ ¬(c < '0' ∨ '9' < c) := by
  obtain ⟨h1, h2⟩ := h
  constructor
  · rintro rfl
    exact absurd h1 (by decide)
  · push_neg
    exact ⟨h1, h2⟩

/-- Helper: bounds of the numeric value of a digit character. -/
theorem digitV_bounds {c : Char} (h : isDigitC c) : 0 ≤ digitV c ∧ digitV c < 10 := by
  obtain ⟨h1, h2⟩ := h
  simp [Char.le_def] at h1 h2
  have h1' : 48 ≤ c.toNat := h1
  have h2' : c.toNat ≤ 57 := h2
  refine ⟨Int.ofNat_nonneg _, ?_⟩
  unfold digitV
  have e : '0'.toNat = 48 := rfl
  rw [e]
  omega

/-- Helper: the digit fold from any start equals start·10^len plus the
numeral value. -/
theorem foldl_digits_eq (ds : List Char) :
    ∀ a : ℤ, ds.foldl (fun x c => x * 10 + digitV c) a =
      a * 10 ^ ds.length + numeralV ds := by
  induction ds with
  | nil => intro a; simp [numeralV]
  | cons c cs ih =>
    intro a
    have hn : numeralV (c :: cs) = digitV c * 10 ^ cs.length + numeralV cs := by
      have e : numeralV (c :: cs) =
          cs.foldl (fun x c => x * 10 + digitV c) (0 * 10 + digitV c) := rfl
      rw [e, ih]
      ring
    rw [List.foldl_cons, ih, hn, List.length_cons, pow_succ]
    ring

/-- Helper: the numeral value of a digit list is nonnegative. -/
theorem numeralV_nonneg {ds : List Char} (h : ∀ c ∈ ds, isDigitC c) :
    0 ≤ numeralV ds := by
  induction ds with
  | nil => simp [numeralV]
  | cons c cs ih =>
    have hc := digitV_bounds (h c (List.mem_cons_self c cs))
    have hcs : 0 ≤ numeralV cs := ih (fun x hx => h x (List.mem_cons_of_mem _ hx))
    have hn : numeralV (c :: cs) = digitV c * 10 ^ cs.length + numeralV cs := by
      have e : numeralV (c :: cs) =
          cs.foldl (fun x c => x * 10 + digitV c) (0 * 10 + digitV c) := rfl
      rw [e, foldl_digits_eq]
      ring
    have hp : (0 : ℤ) ≤ 10 ^ cs.length := by positivity
    have h1 : 0 ≤ digitV c * 10 ^ cs.length := mul_nonneg hc.1 hp
    rw [hn]
    linarith

/-- Helper: the numeral value of a digit list is below 10^length. -/
theorem numeralV_lt {ds : List Char} (h : ∀ c ∈ ds, isDigitC c) :
    numeralV ds < 10 ^ ds.length := by
  induction ds with
  | nil => simp [numeralV]
  | cons c cs ih =>
    have hc := digitV_bounds (h c (List.mem_cons_self c cs))
    have hcs : numeralV cs < 10 ^ cs.length :=
      ih (fun x hx => h x (List.mem_cons_of_mem _ hx))
    have hn : numeralV (c :: cs) = digitV c * 10 ^ cs.length + numeralV cs := by
      have e : numeralV (c :: cs) =
          cs.foldl (fun x c => x * 10 + digitV c) (0 * 10 + digitV c) := rfl
      rw [e, foldl_digits_eq]
      ring
    have h10 : (0 : ℤ) < 10 ^ cs.length := by positivity
    have hb : digitV c * 10 ^ cs.length ≤ 9 * 10 ^ cs.length :=
      mul_le_mul_of_nonneg_right (by linarith [hc.2]) (le_of_lt h10)
    rw [hn, List.length_cons, pow_succ]
    linarith

/-- Helper: the numeral value of an appended digit list. -/
theorem numeralV_append (xs ys : List Char) :
    numeralV (xs ++ ys) = numeralV xs * 10 ^ ys.length + numeralV ys := by
  rw [numeralV, List.foldl_append, foldl_digits_eq]
  rfl

/-- Helper: peeling one digit off the front of a numeral. -/
theorem numeralV_cons (c : Char) (t : List Char) :
    numeralV (c :: t) = digitV c * 10 ^ t.length + numeralV t := by
  have e : numeralV (c :: t) =
      t.foldl (fun x c => x * 10 + digitV c) (0 * 10 + digitV c) := rfl
  rw [e, foldl_digits_eq]
  ring

/-- Helper: the digit fold stays nonnegative. -/
theorem foldl_digits_nonneg {ds : List Char} (hds : ∀ c ∈ ds, isDigitC c)
    {a : ℤ} (ha : 0 ≤ a) : 0 ≤ ds.foldl (fun x c => x * 10 + digitV c) a := by
  rw [foldl_digits_eq]
  have h1 : 0 ≤ a * 10 ^ ds.length := mul_nonneg ha (by positivity)
  have h2 := numeralV_nonneg hds
  linarith

/-- Helper: the integer-phase loop absorbs a block of digits when every
prefix accumulator respects the max_safe_int guard and every multiply-add
result stays in int64. -/
theorem parseLoop_int_pass (ds : List Char) (hds : ∀ c ∈ ds, isDigitC c) :
    ∀ (rest : List Char) (a fp : ℤ) (fd : ℕ) (hd : Bool), 0 ≤ a →
    (∀ i < ds.length, (ds.take i).foldl (fun x c => x * 10 + digitV c) a ≤ maxSafeInt) →
    (∀ i ≤ ds.length, (ds.take i).foldl (fun x c => x * 10 + digitV c) a ≤ int64Max) →
    parseLoop (ds ++ rest) false a fp fd hd =
      parseLoop rest false (ds.foldl (fun x c => x * 10 + digitV c) a) fp fd
        (hd || !ds.isEmpty) := by
  induction ds with
  | nil =>
    intro rest a fp fd hd ha htake hmax
    simp
  | cons c cs ih =>
    intro rest a fp fd hd ha htake hmax
    have hc := hds c (List.mem_cons_self c cs)
    have hfacts := digit_char_facts hc
    have hbound := digitV_bounds hc
    have hstep : parseLoop ((c :: cs) ++ rest) false a fp fd hd =
        (if c = '.' then parseLoop (cs ++ rest) true a fp fd hd
        else if c < '0' ∨ '9' < c then some (.error .invalidChar)
        else if maxSafeInt < a then some (.error .overflow)
        else if inInt64 (a * 10 + digitV c) then
          parseLoop (cs ++ rest) false (a * 10 + digitV c) fp fd true
        else none) := rfl
    have hguard : ¬ maxSafeInt < a := by
      have h0 := htake 0 (by simp)
      simpa using h0
    have hin : inInt64 (a * 10 + digitV c) := by
      constructor
      · have h0 : (0:ℤ) ≤ a * 10 + digitV c := by
          have := mul_nonneg ha (by norm_num : (0:ℤ) ≤ 10)
          linarith [hbound.1]
        have hmin : int64Min ≤ 0 := by norm_num [int64Min]
        linarith
      · have h1 := hmax 1 (by simp)
        rwa [List.take_succ_cons, List.take_zero, List.foldl_cons,
          List.foldl_nil] at h1
    rw [hstep, if_neg hfacts.1, if_neg hfacts.2, if_neg hguard, if_pos hin]
    have htake' : ∀ i < cs.length,
        (cs.take i).foldl (fun x c => x * 10 + digitV c) (a * 10 + digitV c) ≤
          maxSafeInt := by
      intro i hi
      have := htake (i + 1) (by simpa using hi)
      rwa [List.take_succ_cons, List.foldl_cons] at this
    have hmax' : ∀ i ≤ cs.length,
        (cs.take i).foldl (fun x c => x * 10 + digitV c) (a * 10 + digitV c) ≤
          int64Max := by
      intro i hi
      have := hmax (i + 1) (by simpa using hi)
      rwa [List.take_succ_cons, List.foldl_cons] at this
    rw [ih (fun x hx => hds x (List.mem_cons_of_mem _ hx)) rest _ fp fd true
      (by linarith [hbound.1, mul_nonneg ha (by norm_num : (0:ℤ) ≤ 10)]) htake' hmax']
    simp

/-- Helper: the integer-phase loop raises overflow when some prefix
accumulator exceeds max_safe_int with every accumulator up to there
still in int64 (so that no earlier multiply-add was undefined). -/
theorem parseLoop_int_overflow (ds : List Char) (hds : ∀ c ∈ ds, isDigitC c) :
    ∀ (rest : List Char) (a fp : ℤ) (fd : ℕ) (hd : Bool), 0 ≤ a →
    (∃ i < ds.length, maxSafeInt < (ds.take i).foldl (fun x c => x * 10 + digitV c) a ∧
      ∀ i' ≤ i, (ds.take i').foldl (fun x c => x * 10 + digitV c) a ≤ int64Max) →
    parseLoop (ds ++ rest) false a fp fd hd = some (.error .overflow) := by
  induction ds with
  | nil =>
    intro rest a fp fd hd ha htrig
    obtain ⟨i, hi, -⟩ := htrig
    simp at hi
  | cons c cs ih =>
    intro rest a fp fd hd ha htrig
    have hc := hds c (List.mem_cons_self c cs)
    have hfacts := digit_char_facts hc
    have hbound := digitV_bounds hc
    have hstep : parseLoop ((c :: cs) ++ rest) false a fp fd hd =
        (if c = '.' then parseLoop (cs ++ rest) true a fp fd hd
        else if c < '0' ∨ '9' < c then some (.error .invalidChar)
        else if maxSafeInt < a then some (.error .overflow)
        else if inInt64 (a * 10 + digitV c) then
          parseLoop (cs ++ rest) false (a * 10 + digitV c) fp fd true
        else none) := rfl
    rw [hstep, if_neg hfacts.1, if_neg hfacts.2]
    by_cases hguard : maxSafeInt < a
    · rw [if_pos hguard]
    · rw [if_neg hguard]
      obtain ⟨i, hi, htr, hok⟩ := htrig
      cases i with
      | zero =>
        simp at htr
        omega
      | succ j =>
        have hin : inInt64 (a * 10 + digitV c) := by
          constructor
          · have h0 : (0:ℤ) ≤ a * 10 + digitV c := by
              have := mul_nonneg ha (by norm_num : (0:ℤ) ≤ 10)
              linarith [hbound.1]
            have hmin : int64Min ≤ 0 := by norm_num [int64Min]
            linarith
          · have h1 := hok 1 (by omega)
            rwa [List.take_succ_cons, List.take_zero, List.foldl_cons,
              List.foldl_nil] at h1
        rw [if_pos hin]
        apply ih (fun x hx => hds x (List.mem_cons_of_mem _ hx)) rest _ fp fd true
          (by linarith [hbound.1, mul_nonneg ha (by norm_num : (0:ℤ) ≤ 10)])
        refine ⟨j, by simpa using hi, ?_, ?_⟩
        · rw [List.take_succ_cons, List.foldl_cons] at htr
          exact htr
        · intro i' hi'
          have := hok (i' + 1) (by omega)
          rwa [List.take_succ_cons, List.foldl_cons] at this

/-- Helper: the integer-phase loop hits the unguarded overflowing
multiply-add (undefined behaviour, none) when some accumulator is still
within max_safe_int but absorbing the next digit leaves int64. -/
theorem parseLoop_int_ub (ds : List Char) (hds : ∀ c ∈ ds, isDigitC c) :
    ∀ (rest : List Char) (a fp : ℤ) (fd : ℕ) (hd : Bool), 0 ≤ a →
    (∃ i < ds.length,
      (∀ i' ≤ i, (ds.take i').foldl (fun x c => x * 10 + digitV c) a ≤ maxSafeInt) ∧
      int64Max < (ds.take (i + 1)).foldl (fun x c => x * 10 + digitV c) a) →
    parseLoop (ds ++ rest) false a fp fd hd = none := by
  induction ds with
  | nil =>
    intro rest a fp fd hd ha htrig
    obtain ⟨i, hi, -⟩ := htrig
    simp at hi
  | cons c cs ih =>
    intro rest a fp fd hd ha htrig
    have hc := hds c (List.mem_cons_self c cs)
    have hfacts := digit_char_facts hc
    have hbound := digitV_bounds hc
    have hstep : parseLoop ((c :: cs) ++ rest) false a fp fd hd =
        (if c = '.' then parseLoop (cs ++ rest) true a fp fd hd
        else if c < '0' ∨ '9' < c then some (.error .invalidChar)
        else if maxSafeInt < a then some (.error .overflow)
        else if inInt64 (a * 10 + digitV c) then
          parseLoop (cs ++ rest) false (a * 10 + digitV c) fp fd true
        else none) := rfl
    rw [hstep, if_neg hfacts.1, if_neg hfacts.2]
    obtain ⟨i, hi, hsafe, htr⟩ := htrig
    have hguard : ¬ maxSafeInt < a := by
      have h0 := hsafe 0 (by omega)
      simpa using h0
    rw [if_neg hguard]
    cases i with
    | zero =>
      have htr' : int64Max < a * 10 + digitV c := by
        rwa [List.take_succ_cons, List.take_zero, List.foldl_cons,
          List.foldl_nil] at htr
      have hnin : ¬ inInt64 (a * 10 + digitV c) := fun hcon =>
        absurd htr' (not_lt.mpr hcon.2)
      rw [if_neg hnin]
    | succ j =>
      have hin : inInt64 (a * 10 + digitV c) := by
        constructor
        · have h0 : (0:ℤ) ≤ a * 10 + digitV c := by
            have := mul_nonneg ha (by norm_num : (0:ℤ) ≤ 10)
            linarith [hbound.1]
          have hmin : int64Min ≤ 0 := by norm_num [int64Min]
          linarith
        · have h1 := hsafe 1 (by omega)
          rw [List.take_succ_cons, List.take_zero, List.foldl_cons,
            List.foldl_nil] at h1
          have hms : maxSafeInt ≤ int64Max := by decide
          linarith
      rw [if_pos hin]
      apply ih (fun x hx => hds x (List.mem_cons_of_mem _ hx)) rest _ fp fd true
        (by linarith [hbound.1, mul_nonneg ha (by norm_num : (0:ℤ) ≤ 10)])
      refine ⟨j, by simpa using hi, ?_, ?_⟩
      · intro i' hi'
        have := hsafe (i' + 1) (by omega)
        rwa [List.take_succ_cons, List.foldl_cons] at this
      · rw [List.take_succ_cons, List.foldl_cons] at htr
        exact htr

/-- Helper: the fraction-phase loop on a block of digits accumulates the
first 8 − k of them and counts the digits up to 8. -/
theorem parseLoop_frac_pass (fs : List Char) (hfs : ∀ c ∈ fs, isDigitC c) :
    ∀ (rest : List Char) (a f : ℤ) (k : ℕ) (hd : Bool), k ≤ 8 →
    parseLoop (fs ++ rest) true a f k hd =
      parseLoop rest true a
        (f * 10 ^ (min (8 - k) fs.length) + numeralV (fs.take (8 - k)))
        (min 8 (k + fs.length)) (hd || !fs.isEmpty) := by
  induction fs with
  | nil =>
    intro rest a f k hd hk
    simp [numeralV, Nat.min_eq_right hk]
  | cons c cs ih =>
    intro rest a f k hd hk
    have hc := hfs c (List.mem_cons_self c cs)
    have hfacts := digit_char_facts hc
    have hstep : parseLoop ((c :: cs) ++ rest) true a f k hd =
        (if c = '.' then some (.error .multiplePoints)
        else if c < '0' ∨ '9' < c then some (.error .invalidChar)
        else if k < 8 then parseLoop (cs ++ rest) true a (f * 10 + digitV c) (k + 1) true
        else parseLoop (cs ++ rest) true a f k true) := rfl
    rw [hstep, if_neg hfacts.1, if_neg hfacts.2]
    by_cases hk8 : k < 8
    · rw [if_pos hk8,
        ih (fun x hx => hfs x (List.mem_cons_of_mem _ hx)) rest a _ (k + 1) true hk8]
      have e1 : (f * 10 + digitV c) * 10 ^ (min (8 - (k + 1)) cs.length) +
          numeralV (cs.take (8 - (k + 1))) =
          f * 10 ^ (min (8 - k) (c :: cs).length) + numeralV ((c :: cs).take (8 - k)) := by
        have h7 : 8 - k = (8 - (k + 1)) + 1 := by omega
        rw [h7, List.take_succ_cons, numeralV_cons, List.length_take, List.length_cons]
        have hmin : min (8 - (k + 1)) cs.length + 1 = min ((8 - (k+1)) + 1) (cs.length + 1) := by
          omega
        rw [show f * 10 ^ min (8 - (k+1) + 1) (cs.length + 1) =
            f * 10 ^ (min (8 - (k + 1)) cs.length + 1) by rw [hmin], pow_succ]
        ring
      have e2 : min 8 (k + 1 + cs.length) = min 8 (k + (c :: cs).length) := by
        rw [List.length_cons]
        omega
      rw [e1, e2]
      simp
    · have hkeq : k = 8 := by omega
      rw [if_neg hk8,
        ih (fun x hx => hfs x (List.mem_cons_of_mem _ hx)) rest a f k true hk]
      subst hkeq
      simp [numeralV]

/-- Helper: folding digits from a nonnegative accumulator never
decreases it. -/
theorem foldl_digits_ge {ds : List Char} (hds : ∀ c ∈ ds, isDigitC c)
    {a : ℤ} (ha : 0 ≤ a) : a ≤ ds.foldl (fun x c => x * 10 + digitV c) a := by
  rw [foldl_digits_eq]
  have h1 : a ≤ a * 10 ^ ds.length :=
    le_mul_of_one_le_right ha (one_le_pow₀ (by norm_num))
  have h2 := numeralV_nonneg hds
  linarith

/-- Helper: every prefix accumulator of a digit fold from 0 is bounded
by the full numeral. -/
theorem take_foldl_le (ds : List Char) (hds : ∀ c ∈ ds, isDigitC c) (j : ℕ) :
    (ds.take j).foldl (fun x c => x * 10 + digitV c) 0 ≤ numeralV ds := by
  conv_rhs => rw [numeralV, ← List.take_append_drop j ds]
  rw [List.foldl_append]
  exact foldl_digits_ge (fun c hc => hds c (List.mem_of_mem_drop hc))
    (foldl_digits_nonneg (fun c hc => hds c (List.mem_of_mem_take hc)) le_rfl)

/-- Helper: prefix accumulators of a digit fold from zero are truncated
divisions of the full numeral. -/
theorem take_foldl_div (i : List Char) (hi : ∀ c ∈ i, isDigitC c) (j : ℕ)
    (hj : j ≤ i.length) :
    (i.take j).foldl (fun x c => x * 10 + digitV c) 0 =
      numeralV i / 10 ^ (i.length - j) := by
  have happ : numeralV i =
      numeralV (i.take j) * 10 ^ (i.drop j).length + numeralV (i.drop j) := by
    conv_lhs => rw [← List.take_append_drop j i]
    rw [numeralV_append]
  have hlen : (i.drop j).length = i.length - j := List.length_drop j i
  have hr0 : 0 ≤ numeralV (i.drop j) :=
    numeralV_nonneg (fun c hc => hi c (List.mem_of_mem_drop hc))
  have hrlt : numeralV (i.drop j) < 10 ^ (i.length - j) := by
    have h : numeralV (i.drop j) < 10 ^ (i.drop j).length :=
      numeralV_lt (fun c hc => hi c (List.mem_of_mem_drop hc))
    rwa [hlen] at h
  rw [happ, hlen, add_comm,
    Int.add_mul_ediv_right _ _ (pow_ne_zero _ (by norm_num : (10:ℤ) ≠ 0)),
    Int.ediv_eq_zero_of_lt hr0 hrlt, zero_add]
  rfl

/-- Helper: dividing a nonnegative integer by a higher power of ten
gives at most the lower-power quotient. -/
theorem ediv_pow_anti (n : ℤ) (hn : 0 ≤ n) {s t : ℕ} (h : s ≤ t) :
    n / 10 ^ t ≤ n / 10 ^ s := by
  rw [Int.le_ediv_iff_mul_le (by positivity : (0:ℤ) < 10 ^ s)]
  have hq0 : 0 ≤ n / 10 ^ t := Int.ediv_nonneg hn (by positivity)
  have hmul : n / 10 ^ t * 10 ^ t ≤ n :=
    Int.ediv_mul_le n (pow_ne_zero _ (by norm_num : (10:ℤ) ≠ 0))
  have hpow : (10:ℤ) ^ s ≤ 10 ^ t := pow_le_pow_right₀ (by norm_num) h
  calc n / 10 ^ t * 10 ^ s ≤ n / 10 ^ t * 10 ^ t :=
        mul_le_mul_of_nonneg_left hpow hq0
  _ ≤ n := hmul

/-- Helper: every proper prefix quotient of an int64 value respects the
max_safe_int guard. -/
theorem div_prefix_safe (n : ℤ) (hn : 0 ≤ n) (hmax : n ≤ int64Max) (t : ℕ)
    (ht : 1 ≤ t) : n / 10 ^ t ≤ maxSafeInt := by
  have h1 : n / 10 ^ t ≤ n / 10 ^ 1 := ediv_pow_anti n hn ht
  have h2 : n / 10 ^ 1 ≤ int64Max / 10 ^ 1 :=
    Int.ediv_le_ediv (by positivity) hmax
  have h3 : int64Max / 10 ^ 1 = maxSafeInt := by
    rw [pow_one]
    rfl
  linarith

/-- Helper: the integer-phase prefix-safety hypothesis follows from a
bound on the full integer numeral. -/
theorem int_pass_safe {i : List Char} (hi : ∀ c ∈ i, isDigitC c)
    (hNI : numeralV i ≤ maxSafeInt) :
    ∀ j < i.length, (i.take j).foldl (fun x c => x * 10 + digitV c) (0:ℤ) ≤ maxSafeInt := by
  intro j _
  exact le_trans (take_foldl_le i hi j) hNI

/-- Helper: the integer phase from zero is determined by the digits'
numeral: it absorbs them when the numeral fits int64, executes the
undefined multiply-add when the numeral satisfies intUB, and raises
overflow otherwise. -/
theorem parseLoop_int_det (i : List Char) (hi : ∀ c ∈ i, isDigitC c)
    (rest : List Char) :
    (numeralV i ≤ int64Max →
      parseLoop (i ++ rest) false 0 0 0 false =
        parseLoop rest false (numeralV i) 0 0 (false || !i.isEmpty)) ∧
    (intUB (numeralV i) →
      parseLoop (i ++ rest) false 0 0 0 false = none) ∧
    (int64Max < numeralV i → ¬ intUB (numeralV i) →
      parseLoop (i ++ rest) false 0 0 0 false = some (.error .overflow)) := by
  have hN0 : 0 ≤ numeralV i := numeralV_nonneg hi
  have hlenpow : ∀ t : ℕ, i.length ≤ t → numeralV i / 10 ^ t = 0 := by
    intro t htl
    exact Int.ediv_eq_zero_of_lt hN0
      (lt_of_lt_of_le (numeralV_lt hi) (pow_le_pow_right₀ (by norm_num) htl))
  refine ⟨?_, ?_, ?_⟩
  · intro hNI
    have htake : ∀ j < i.length,
        (i.take j).foldl (fun x c => x * 10 + digitV c) (0:ℤ) ≤ maxSafeInt := by
      intro j hj
      rw [take_foldl_div i hi j (le_of_lt hj)]
      exact div_prefix_safe (numeralV i) hN0 hNI (i.length - j) (by omega)
    have hmax : ∀ j ≤ i.length,
        (i.take j).foldl (fun x c => x * 10 + digitV c) (0:ℤ) ≤ int64Max :=
      fun j _ => le_trans (take_foldl_le i hi j) hNI
    exact parseLoop_int_pass i hi rest 0 0 0 false le_rfl htake hmax
  · intro hub
    obtain ⟨t, ht1, ht2⟩ := hub
    have htlen : t < i.length := by
      by_contra hc
      push_neg at hc
      rw [hlenpow t hc] at ht1
      norm_num [int64Max] at ht1
    apply parseLoop_int_ub i hi rest 0 0 0 false le_rfl
    refine ⟨i.length - 1 - t, by omega, ?_, ?_⟩
    · intro i' hi'
      rw [take_foldl_div i hi i' (by omega)]
      calc numeralV i / 10 ^ (i.length - i') ≤ numeralV i / 10 ^ (t + 1) :=
            ediv_pow_anti (numeralV i) hN0 (by omega)
      _ ≤ maxSafeInt := ht2
    · rw [take_foldl_div i hi (i.length - 1 - t + 1) (by omega),
        show i.length - (i.length - 1 - t + 1) = t from by omega]
      exact ht1
  · intro hNI hnub
    have hex : ∃ t : ℕ, numeralV i / 10 ^ (t + 1) ≤ int64Max := by
      refine ⟨i.length, ?_⟩
      rw [hlenpow (i.length + 1) (by omega)]
      norm_num [int64Max]
    have hTle : numeralV i / 10 ^ (Nat.find hex + 1) ≤ int64Max := Nat.find_spec hex
    have hTmin : ∀ t < Nat.find hex, int64Max < numeralV i / 10 ^ (t + 1) := by
      intro t htT
      exact not_le.mp (Nat.find_min hex htT)
    have hTgt : int64Max < numeralV i / 10 ^ Nat.find hex := by
      cases hT : Nat.find hex with
      | zero =>
        simpa using hNI
      | succ t =>
        have := hTmin t (by omega)
        rwa [← hT] at this ⊢
    have hTsafe : maxSafeInt < numeralV i / 10 ^ (Nat.find hex + 1) := by
      by_contra hc
      push_neg at hc
      exact hnub ⟨Nat.find hex, hTgt, hc⟩
    have hTlen : Nat.find hex < i.length := by
      by_contra hc
      push_neg at hc
      rw [hlenpow (Nat.find hex) hc] at hTgt
      norm_num [int64Max] at hTgt
    apply parseLoop_int_overflow i hi rest 0 0 0 false le_rfl
    refine ⟨i.length - (Nat.find hex + 1), by omega, ?_, ?_⟩
    · rw [take_foldl_div i hi _ (by omega),
        show i.length - (i.length - (Nat.find hex + 1)) = Nat.find hex + 1 from by
          omega]
      exact hTsafe
    · intro i' hi'
      rw [take_foldl_div i hi i' (by omega)]
      calc numeralV i / 10 ^ (i.length - i') ≤
            numeralV i / 10 ^ (Nat.find hex + 1) :=
            ediv_pow_anti (numeralV i) hN0 (by omega)
      _ ≤ int64Max := hTle

/-- Helper: the full loop on a body of the shape digits point digits. -/
theorem parseLoop_body_point (i f : List Char) (hi : ∀ c ∈ i, isDigitC c)
    (hf : ∀ c ∈ f, isDigitC c) (hNI : numeralV i ≤ int64Max) :
    parseLoop (i ++ '.' :: f) false 0 0 0 false =
      some (.ok (numeralV i, numeralV (f.take 8), min 8 f.length,
        !i.isEmpty || !f.isEmpty)) := by
  rw [(parseLoop_int_det i hi ('.' :: f)).1 hNI]
  have hdot : parseLoop ('.' :: f) false (numeralV i) 0 0 (false || !i.isEmpty) =
      parseLoop f true (numeralV i) 0 0 (false || !i.isEmpty) := rfl
  rw [hdot]
  have hfr := parseLoop_frac_pass f hf [] (numeralV i) 0 0 (false || !i.isEmpty)
    (by norm_num)
  rw [List.append_nil] at hfr
  rw [hfr]
  simp [numeralV]
  rfl

/-- Helper: the full loop on a body of pure digits. -/
theorem parseLoop_body_nopoint (i : List Char) (hi : ∀ c ∈ i, isDigitC c)
    (hNI : numeralV i ≤ int64Max) :
    parseLoop i false 0 0 0 false = some (.ok (numeralV i, 0, 0, !i.isEmpty)) := by
  have h := (parseLoop_int_det i hi []).1 hNI
  rw [List.append_nil] at h
  rw [h]
  rfl

/-- Helper: shape of a body accepted by the decimal-denotation split. -/
theorem decBody_some_shape {body i f : List Char}
    (h : decBody? body = some (i, f)) :
    (∀ c ∈ i, isDigitC c) ∧ (∀ c ∈ f, isDigitC c) ∧
      ((body = i ∧ f = []) ∨ body = i ++ '.' :: f) := by
  have htw : ∀ x ∈ body.takeWhile (fun c => decide (isDigitC c)), isDigitC x := by
    intro x hx
    exact of_decide_eq_true
      (List.mem_takeWhile_imp (p := fun c => decide (isDigitC c)) hx)
  simp only [decBody?] at h
  cases hdw : body.dropWhile (fun c => decide (isDigitC c)) with
  | nil =>
    rw [hdw] at h
    have h' : some (body.takeWhile (fun c => decide (isDigitC c)), ([] : List Char)) =
        some (i, f) := h
    simp only [Option.some.injEq, Prod.mk.injEq] at h'
    obtain ⟨hib, hfb⟩ := h'
    subst hib
    subst hfb
    refine ⟨htw, by simp, Or.inl ⟨?_, rfl⟩⟩
    conv_lhs => rw [← List.takeWhile_append_dropWhile
      (p := fun c => decide (isDigitC c)) (l := body)]
    rw [hdw, List.append_nil]
  | cons c t =>
    rw [hdw] at h
    have h' : (if c = '.' ∧ t.all (fun c => decide (isDigitC c)) then
        some (body.takeWhile (fun c => decide (isDigitC c)), t) else none) =
        some (i, f) := h
    by_cases hc : c = '.' ∧ t.all (fun c => decide (isDigitC c))
    · rw [if_pos hc] at h'
      simp only [Option.some.injEq, Prod.mk.injEq] at h'
      obtain ⟨hib, hfb⟩ := h'
      subst hib
      subst hfb
      refine ⟨htw, ?_, Or.inr ?_⟩
      · intro x hx
        exact of_decide_eq_true (List.all_eq_true.mp hc.2 x hx)
      · conv_lhs => rw [← List.takeWhile_append_dropWhile
          (p := fun c => decide (isDigitC c)) (l := body)]
        rw [hdw, hc.1]
    · rw [if_neg hc] at h'
      exact absurd h' (by simp)

/-- Helper: shape of a body the decimal-denotation split rejects. -/
theorem decBody_none_shape {body : List Char} (h : decBody? body = none) :
    ∃ c t, body.dropWhile (fun c => decide (isDigitC c)) = c :: t ∧
      ¬(c = '.' ∧ t.all (fun c => decide (isDigitC c))) := by
  simp only [decBody?] at h
  cases hdw : body.dropWhile (fun c => decide (isDigitC c)) with
  | nil =>
    rw [hdw] at h
    have h' : some (body.takeWhile (fun c => decide (isDigitC c)), ([] : List Char)) =
        (none : Option (List Char × List Char)) := h
    exact absurd h' (by simp)
  | cons c t =>
    rw [hdw] at h
    have h' : (if c = '.' ∧ t.all (fun c => decide (isDigitC c)) then
        some (body.takeWhile (fun c => decide (isDigitC c)), t) else none) =
        (none : Option (List Char × List Char)) := h
    by_cases hc : c = '.' ∧ t.all (fun c => decide (isDigitC c))
    · rw [if_pos hc] at h'
      exact absurd h' (by simp)
    · exact ⟨c, t, rfl, hc⟩

/-- Helper: an integer plus a proper digit fraction floors to the
integer. -/
theorem floor_int_add_fracQ (z : ℤ) (g : List Char) (hg : ∀ c ∈ g, isDigitC c) :
    ⌊(z : ℚ) + (numeralV g : ℚ) / 10 ^ g.length⌋ = z := by
  have h0 : (0:ℚ) ≤ (numeralV g : ℚ) / 10 ^ g.length :=
    div_nonneg (by exact_mod_cast numeralV_nonneg hg) (by positivity)
  have h1 : (numeralV g : ℚ) / 10 ^ g.length < 1 := by
    rw [div_lt_one (by positivity)]
    exact_mod_cast numeralV_lt hg
  rw [add_comm, Int.floor_add_int, Int.floor_eq_zero_iff.mpr ⟨h0, h1⟩, zero_add]

/-- Helper: scaling a digit fraction by 10^8 and flooring keeps the
first 8 fraction digits, padded by trailing zeros. -/
theorem floor_frac_part (f : List Char) (hf : ∀ c ∈ f, isDigitC c) :
    ⌊(numeralV f : ℚ) * 10 ^ (8:ℕ) / 10 ^ f.length⌋ =
      numeralV (f.take 8) * 10 ^ (8 - min 8 f.length) := by
  by_cases hL : f.length ≤ 8
  · have htake : f.take 8 = f := List.take_of_length_le hL
    have hmin : min 8 f.length = f.length := min_eq_right hL
    rw [htake, hmin]
    have h10 : (10:ℚ) ^ (8:ℕ) = 10 ^ (8 - f.length) * 10 ^ f.length := by
      rw [← pow_add]
      congr 1
      omega
    rw [h10, show (numeralV f : ℚ) * (10 ^ (8 - f.length) * 10 ^ f.length) =
      (numeralV f : ℚ) * 10 ^ (8 - f.length) * 10 ^ f.length from by ring,
      mul_div_cancel_right₀ _ (pow_ne_zero _ (by norm_num : (10:ℚ) ≠ 0))]
    have hcast : ((numeralV f * 10 ^ (8 - f.length) : ℤ) : ℚ) =
        (numeralV f : ℚ) * 10 ^ (8 - f.length) := by
      push_cast
      ring
    rw [← hcast, Int.floor_intCast]
  · push_neg at hL
    have hmin : min 8 f.length = 8 := min_eq_left (by omega)
    rw [hmin]
    have happ : numeralV f =
        numeralV (f.take 8) * 10 ^ (f.drop 8).length + numeralV (f.drop 8) := by
      conv_lhs => rw [← List.take_append_drop 8 f]
      rw [numeralV_append]
    have hlen : (f.drop 8).length = f.length - 8 := List.length_drop 8 f
    have hcalc : (numeralV f : ℚ) * 10 ^ (8:ℕ) / 10 ^ f.length =
        (numeralV (f.take 8) : ℚ) + (numeralV (f.drop 8) : ℚ) / 10 ^ (f.drop 8).length := by
      rw [happ]
      push_cast
      rw [hlen]
      have hLq : (10:ℚ) ^ f.length = 10 ^ (f.length - 8) * 10 ^ (8:ℕ) := by
        rw [← pow_add]
        congr 1
        omega
      rw [hLq]
      field_simp
      ring
    rw [hcalc, floor_int_add_fracQ (numeralV (f.take 8)) (f.drop 8)
      (fun c hc => hf c (List.mem_of_mem_drop hc))]
    simp

/-- Helper: the floor of a well-formed decimal body scaled by 10^8 is
exactly the integer FixedPoint::parse assembles. -/
theorem trunc_body_floor (i f : List Char) (hi : ∀ c ∈ i, isDigitC c)
    (hf : ∀ c ∈ f, isDigitC c) :
    ⌊((numeralV i : ℚ) + (numeralV f : ℚ) / 10 ^ f.length) * (fpScale : ℚ)⌋ =
      numeralV i * fpScale + numeralV (f.take 8) * 10 ^ (8 - min 8 f.length) := by
  have hsc : (fpScale : ℚ) = 10 ^ (8:ℕ) := by norm_num [fpScale]
  have hscZ : fpScale = (10:ℤ) ^ (8:ℕ) := by norm_num [fpScale]
  rw [hsc]
  have hexp : ((numeralV i : ℚ) + (numeralV f : ℚ) / 10 ^ f.length) * 10 ^ (8:ℕ) =
      ((numeralV i * 10 ^ (8:ℕ) : ℤ) : ℚ) +
        (numeralV f : ℚ) * 10 ^ (8:ℕ) / 10 ^ f.length := by
    push_cast
    ring
  rw [hexp, add_comm, Int.floor_add_int, floor_frac_part f hf, hscZ]
  ring

/-- Helper: a well-formed decimal body denotes a nonnegative value. -/
theorem body_val_nonneg (i f : List Char) (hi : ∀ c ∈ i, isDigitC c)
    (hf : ∀ c ∈ f, isDigitC c) :
    (0:ℚ) ≤ (numeralV i : ℚ) + (numeralV f : ℚ) / 10 ^ f.length := by
  have h1 : (0:ℚ) ≤ (numeralV i : ℚ) := by exact_mod_cast numeralV_nonneg hi
  have h2 : (0:ℚ) ≤ (numeralV f : ℚ) := by exact_mod_cast numeralV_nonneg hf
  exact add_nonneg h1 (div_nonneg h2 (by positivity))

/-- Helper: truncation toward zero on a nonnegative value. -/
theorem truncVal_of_nonneg {x : ℚ} (hx : 0 ≤ x) :
    truncVal x = ⌊x * (fpScale : ℚ)⌋ := if_pos hx

/-- Helper: truncation toward zero on the negation of a nonnegative
value. -/
theorem truncVal_neg_of_nonneg {x : ℚ} (hx : 0 ≤ x) :
    truncVal (-x) = -⌊x * (fpScale : ℚ)⌋ := by
  rcases eq_or_lt_of_le hx with h0 | h0
  · rw [← h0]
    simp [truncVal]
  · have hneg : ¬ (0:ℚ) ≤ -x := not_le.mpr (by linarith)
    rw [truncVal, if_neg hneg, neg_neg]

/-- Helper: FixedPoint::parse on a nonempty input, with the sign
handling and the lets unfolded. -/
theorem parseChars_cons_eq (c0 : Char) (t0 : List Char) :
    parseChars (c0 :: t0) =
      (if (if c0 = '-' ∨ c0 = '+' then t0 else c0 :: t0) = [] then
        some (.error .emptyDigits)
      else
        match parseLoop (if c0 = '-' ∨ c0 = '+' then t0 else c0 :: t0)
            false 0 0 0 false with
        | none => none
        | some (.error e) => some (.error e)
        | some (.ok (ip, fp, fd, hd)) =>
          if hd = false then some (.error .emptyDigits)
          else
            if maxIntPart < ip then some (.error .overflow)
            else
              if inInt64 (ip * fpScale + fp * 10 ^ (8 - fd)) then
                some (.ok (if decide (c0 = '-') then
                    -(ip * fpScale + fp * 10 ^ (8 - fd))
                  else ip * fpScale + fp * 10 ^ (8 - fd)))
              else none) := rfl

/-- Helper: FixedPoint::parse after a successful loop run. -/
theorem parseChars_post (c0 : Char) (t0 : List Char) (ip fp : ℤ) (fd : ℕ)
    (hd : Bool)
    (hrne : (if c0 = '-' ∨ c0 = '+' then t0 else c0 :: t0) ≠ [])
    (hloop : parseLoop (if c0 = '-' ∨ c0 = '+' then t0 else c0 :: t0)
      false 0 0 0 false = some (.ok (ip, fp, fd, hd))) :
    parseChars (c0 :: t0) =
      (if hd = false then some (.error .emptyDigits)
       else
         if maxIntPart < ip then some (.error .overflow)
         else
           if inInt64 (ip * fpScale + fp * 10 ^ (8 - fd)) then
             some (.ok (if decide (c0 = '-') then
                 -(ip * fpScale + fp * 10 ^ (8 - fd))
               else ip * fpScale + fp * 10 ^ (8 - fd)))
           else none) := by
  rw [parseChars_cons_eq, if_neg hrne, hloop]

/-- Helper: FixedPoint::parse propagates a loop error. -/
theorem parseChars_prop_err (c0 : Char) (t0 : List Char) (e : ParseErr)
    (hrne : (if c0 = '-' ∨ c0 = '+' then t0 else c0 :: t0) ≠ [])
    (hloop : parseLoop (if c0 = '-' ∨ c0 = '+' then t0 else c0 :: t0)
      false 0 0 0 false = some (.error e)) :
    parseChars (c0 :: t0) = some (.error e) := by
  rw [parseChars_cons_eq, if_neg hrne, hloop]

/-- Helper: FixedPoint::parse propagates loop undefined behaviour. -/
theorem parseChars_prop_none (c0 : Char) (t0 : List Char)
    (hrne : (if c0 = '-' ∨ c0 = '+' then t0 else c0 :: t0) ≠ [])
    (hloop : parseLoop (if c0 = '-' ∨ c0 = '+' then t0 else c0 :: t0)
      false 0 0 0 false = none) :
    parseChars (c0 :: t0) = none := by
  rw [parseChars_cons_eq, if_neg hrne, hloop]

/-- Helper: the loop result on either well-formed body shape. -/
theorem parseLoop_wf_body (i f rest : List Char)
    (hsh : (rest = i ∧ f = []) ∨ rest = i ++ '.' :: f)
    (hi : ∀ c ∈ i, isDigitC c) (hf : ∀ c ∈ f, isDigitC c)
    (hNI : numeralV i ≤ int64Max) :
    parseLoop rest false 0 0 0 false =
      some (.ok (numeralV i, numeralV (f.take 8), min 8 f.length,
        !i.isEmpty || !f.isEmpty)) := by
  rcases hsh with ⟨hr, hf0⟩ | hr
  · subst hf0
    rw [hr, parseLoop_body_nopoint i hi hNI]
    simp [numeralV]
  · rw [hr]
    exact parseLoop_body_point i f hi hf hNI

/-- Helper: the had-digit flag of a nonempty body is set. -/
theorem hd_of_ne {i f : List Char} (hne : ¬(i = [] ∧ f = [])) :
    (!i.isEmpty || !f.isEmpty) = true := by
  cases i with
  | nil =>
    cases f with
    | nil => exact absurd ⟨rfl, rfl⟩ hne
    | cons a t => rfl
  | cons a t => rfl

/-- Helper: a well-formed body with a digit somewhere is nonempty. -/
theorem rest_ne_of_shape {rest i f : List Char}
    (hsh : (rest = i ∧ f = []) ∨ rest = i ++ '.' :: f)
    (hne : ¬(i = [] ∧ f = [])) : rest ≠ [] := by
  rcases hsh with ⟨hr, hf0⟩ | hr
  · rw [hr]
    intro h0
    exact hne ⟨h0, hf0⟩
  · rw [hr]
    simp

/-- Helper: the scaled integer a well-formed body assembles is
nonnegative. -/
theorem wf_R_nonneg (i f : List Char) (hi : ∀ c ∈ i, isDigitC c)
    (hf : ∀ c ∈ f, isDigitC c) :
    0 ≤ numeralV i * fpScale + numeralV (f.take 8) * 10 ^ (8 - min 8 f.length) := by
  have h1 := numeralV_nonneg hi
  have h2 : 0 ≤ numeralV (f.take 8) :=
    numeralV_nonneg (fun c hc => hf c (List.mem_of_mem_take hc))
  have h3 : (0:ℤ) ≤ fpScale := by norm_num [fpScale]
  exact add_nonneg (mul_nonneg h1 h3) (mul_nonneg h2 (by positivity))

/-- Helper: FixedPoint::parse succeeds on a well-formed decimal whose
truncated scaled integer stays in int64, and returns that sign-adjusted
integer. -/
theorem parseChars_wf_ok (cs i f : List Char)
    (hbody : decBody? (if cs.head? = some '-' ∨ cs.head? = some '+'
      then cs.tail else cs) = some (i, f))
    (hne : ¬(i = [] ∧ f = []))
    (hip : numeralV i ≤ maxIntPart)
    (hrange : numeralV i * fpScale + numeralV (f.take 8) * 10 ^ (8 - min 8 f.length) ≤
      int64Max) :
    parseChars cs =
      some (.ok (if cs.head? = some '-' then
            -(numeralV i * fpScale + numeralV (f.take 8) * 10 ^ (8 - min 8 f.length))
          else
            numeralV i * fpScale + numeralV (f.take 8) * 10 ^ (8 - min 8 f.length))) := by
  cases cs with
  | nil =>
    exfalso
    simp [decBody?] at hbody
    exact hne ⟨hbody.1, hbody.2⟩
  | cons c0 t0 =>
    simp only [List.head?_cons, Option.some.injEq, List.tail_cons] at hbody ⊢
    obtain ⟨hi, hf, hsh⟩ := decBody_some_shape hbody
    have hrne := rest_ne_of_shape hsh hne
    have hNI : numeralV i ≤ int64Max :=
      le_trans hip (by decide : maxIntPart ≤ int64Max)
    have hloop := parseLoop_wf_body i f _ hsh hi hf hNI
    rw [parseChars_post c0 t0 _ _ _ _ hrne hloop, hd_of_ne hne]
    rw [if_neg (by simp : ¬ (true = false)), if_neg (not_lt.mpr hip)]
    have hmin : int64Min ≤
        numeralV i * fpScale + numeralV (f.take 8) * 10 ^ (8 - min 8 f.length) := by
      have h0 := wf_R_nonneg i f hi hf
      have hm : int64Min ≤ 0 := by norm_num [int64Min]
      linarith
    rw [if_pos ⟨hmin, hrange⟩]
    simp only [decide_eq_true_eq]

/-- Helper: FixedPoint::parse reaches the unguarded overflowing final
assembly (undefined behaviour, none) on a well-formed decimal whose
integer part passes the max_integer_part check but whose truncated
scaled integer leaves int64. -/
theorem parseChars_wf_ub (cs i f : List Char)
    (hbody : decBody? (if cs.head? = some '-' ∨ cs.head? = some '+'
      then cs.tail else cs) = some (i, f))
    (hne : ¬(i = [] ∧ f = []))
    (hip : numeralV i ≤ maxIntPart)
    (hrange : int64Max <
      numeralV i * fpScale + numeralV (f.take 8) * 10 ^ (8 - min 8 f.length)) :
    parseChars cs = none := by
  cases cs with
  | nil =>
    exfalso
    simp [decBody?] at hbody
    exact hne ⟨hbody.1, hbody.2⟩
  | cons c0 t0 =>
    simp only [List.head?_cons, Option.some.injEq, List.tail_cons] at hbody
    obtain ⟨hi, hf, hsh⟩ := decBody_some_shape hbody
    have hrne := rest_ne_of_shape hsh hne
    have hNI : numeralV i ≤ int64Max :=
      le_trans hip (by decide : maxIntPart ≤ int64Max)
    have hloop := parseLoop_wf_body i f _ hsh hi hf hNI
    rw [parseChars_post c0 t0 _ _ _ _ hrne hloop, hd_of_ne hne]
    rw [if_neg (by simp : ¬ (true = false)), if_neg (not_lt.mpr hip)]
    rw [if_neg (fun hcon => absurd hrange (not_lt.mpr hcon.2))]

/-- Helper: on a well-formed decimal whose integer part exceeds
max_integer_part, FixedPoint::parse raises overflow unless the loop
itself hits the undefined multiply-add (intUB), in which case the
execution is undefined. -/
theorem parseChars_wf_overflow (cs i f : List Char)
    (hbody : decBody? (if cs.head? = some '-' ∨ cs.head? = some '+'
      then cs.tail else cs) = some (i, f))
    (hne : ¬(i = [] ∧ f = []))
    (hip : maxIntPart < numeralV i) :
    (¬ intUB (numeralV i) → parseChars cs = some (.error .overflow)) ∧
    (intUB (numeralV i) → parseChars cs = none) := by
  cases cs with
  | nil =>
    exfalso
    simp [decBody?] at hbody
    exact hne ⟨hbody.1, hbody.2⟩
  | cons c0 t0 =>
    simp only [List.head?_cons, Option.some.injEq, List.tail_cons] at hbody
    obtain ⟨hi, hf, hsh⟩ := decBody_some_shape hbody
    have hrne := rest_ne_of_shape hsh hne
    constructor
    · intro hnub
      by_cases hNI : numeralV i ≤ int64Max
      · have hloop := parseLoop_wf_body i f _ hsh hi hf hNI
        rw [parseChars_post c0 t0 _ _ _ _ hrne hloop, hd_of_ne hne]
        rw [if_neg (by simp : ¬ (true = false)), if_pos hip]
      · push_neg at hNI
        have hloopE : parseLoop (if c0 = '-' ∨ c0 = '+' then t0 else c0 :: t0)
            false 0 0 0 false = some (.error .overflow) := by
          rcases hsh with ⟨hr, hf0⟩ | hr
          · have h := (parseLoop_int_det i hi []).2.2 hNI hnub
            rw [List.append_nil] at h
            rw [hr]
            exact h
          · rw [hr]
            exact (parseLoop_int_det i hi ('.' :: f)).2.2 hNI hnub
        exact parseChars_prop_err c0 t0 .overflow hrne hloopE
    · intro hub
      have hloopN : parseLoop (if c0 = '-' ∨ c0 = '+' then t0 else c0 :: t0)
          false 0 0 0 false = none := by
        rcases hsh with ⟨hr, hf0⟩ | hr
        · have h := (parseLoop_int_det i hi []).2.1 hub
          rw [List.append_nil] at h
          rw [hr]
          exact h
        · rw [hr]
          exact (parseLoop_int_det i hi ('.' :: f)).2.1 hub
      exact parseChars_prop_none c0 t0 hrne hloopN

/-- Helper: a decimal point while already in the fraction errors. -/
theorem parseLoop_point_inF (t2 : List Char) (a f : ℤ) (k : ℕ) (hd : Bool) :
    parseLoop ('.' :: t2) true a f k hd = some (.error .multiplePoints) := rfl

/-- Helper: the first decimal point switches to the fraction phase. -/
theorem parseLoop_point_start (t2 : List Char) (a f : ℤ) (k : ℕ) (hd : Bool) :
    parseLoop ('.' :: t2) false a f k hd = parseLoop t2 true a f k hd := rfl

/-- Helper: a character that is neither a digit nor a point errors. -/
theorem parseLoop_bad_char (b : Char) (t2 : List Char) (hb : ¬ isDigitC b)
    (hbd : b ≠ '.') (inF : Bool) (a f : ℤ) (k : ℕ) (hd : Bool) :
    parseLoop (b :: t2) inF a f k hd = some (.error .invalidChar) := by
  have hstep : parseLoop (b :: t2) inF a f k hd =
      (if b = '.' then
        (if inF then some (.error .multiplePoints) else parseLoop t2 true a f k hd)
      else if b < '0' ∨ '9' < b then some (.error .invalidChar)
      else if inF then
        (if k < 8 then parseLoop t2 inF a (f * 10 + digitV b) (k + 1) true
         else parseLoop t2 inF a f k true)
      else if maxSafeInt < a then some (.error .overflow)
      else if inInt64 (a * 10 + digitV b) then
        parseLoop t2 inF (a * 10 + digitV b) f k true
      else none) := rfl
  have hlt : b < '0' ∨ '9' < b := by
    rcases not_and_or.mp hb with h | h
    · exact Or.inl (not_le.mp h)
    · exact Or.inr (not_le.mp h)
  rw [hstep, if_neg hbd, if_pos hlt]

/-- Helper: on every nonempty input that does not denote a decimal
value, FixedPoint::parse fails with some ParseError or, when the digit
run overflows the unguarded multiply-add first, is undefined. -/
theorem parseChars_illformed (cs : List Char) (hcs : cs ≠ [])
    (hnone : decVal? cs = none) :
    (∃ e, parseChars cs = some (.error e)) ∨ parseChars cs = none := by
  cases cs with
  | nil => exact absurd rfl hcs
  | cons c0 t0 =>
    simp only [decVal?, List.head?_cons, Option.some.injEq, List.tail_cons] at hnone
    set rest := if c0 = '-' ∨ c0 = '+' then t0 else c0 :: t0 with hrest
    cases hB : decBody? rest with
    | some p =>
      obtain ⟨i, f⟩ := p
      rw [hB] at hnone
      have h' : (if i = [] ∧ f = [] then (none : Option ℚ)
          else some ((if c0 = '-' then (-1:ℚ) else 1) *
            ((numeralV i : ℚ) + (numeralV f : ℚ) / 10 ^ f.length))) = none := hnone
      by_cases hif : i = [] ∧ f = []
      · obtain ⟨hi0, hf0⟩ := hif
        obtain ⟨hdigi, hdigf, hsh⟩ := decBody_some_shape hB
        rcases hsh with ⟨hr, -⟩ | hr
        · refine Or.inl ⟨.emptyDigits, ?_⟩
          rw [parseChars_cons_eq, ← hrest, if_pos (by rw [hr, hi0])]
        · refine Or.inl ⟨.emptyDigits, ?_⟩
          have hr' : rest = ['.'] := by
            rw [hr, hi0, hf0]
            rfl
          rw [parseChars_cons_eq, ← hrest, hr', if_neg (by simp)]
          have hlp : parseLoop ['.'] false 0 0 0 false =
              some (.ok (0, 0, 0, false)) := rfl
          rw [hlp]
          rfl
      · rw [if_neg hif] at h'
        exact absurd h' (by simp)
    | none =>
      obtain ⟨c, t, hdw, hbad⟩ := decBody_none_shape hB
      have hreq : rest = rest.takeWhile (fun c => decide (isDigitC c)) ++ c :: t := by
        conv_lhs => rw [← List.takeWhile_append_dropWhile
          (p := fun c => decide (isDigitC c)) (l := rest)]
        rw [hdw]
      have hdigi : ∀ x ∈ rest.takeWhile (fun c => decide (isDigitC c)), isDigitC x := by
        intro x hx
        exact of_decide_eq_true
          (List.mem_takeWhile_imp (p := fun c => decide (isDigitC c)) hx)
      have hcnd : ¬ isDigitC c := by
        have h1 := dropWhile_head_false (fun c => decide (isDigitC c)) rest c t hdw
        intro hcon
        exact absurd h1 (by simp [hcon])
      have hrne : rest ≠ [] := by
        rw [hreq]
        simp
      by_cases hNI : numeralV (rest.takeWhile (fun c => decide (isDigitC c))) ≤ int64Max
      · -- the digit run is absorbed; the offending character then decides
        have hpass := (parseLoop_int_det _ hdigi (c :: t)).1 hNI
        by_cases hdot : c = '.'
        · have hnall : ¬ t.all (fun c => decide (isDigitC c)) = true :=
            fun hall => hbad ⟨hdot, hall⟩
          have hdw2 : t.dropWhile (fun c => decide (isDigitC c)) ≠ [] := by
            intro h0
            apply hnall
            rw [List.all_eq_true]
            intro x hx
            exact List.dropWhile_eq_nil_iff.mp h0 x hx
          cases hdwt : t.dropWhile (fun c => decide (isDigitC c)) with
          | nil => exact absurd hdwt hdw2
          | cons b t2 =>
            have hteq : t = t.takeWhile (fun c => decide (isDigitC c)) ++ b :: t2 := by
              conv_lhs => rw [← List.takeWhile_append_dropWhile
                (p := fun c => decide (isDigitC c)) (l := t)]
              rw [hdwt]
            have hdigt : ∀ x ∈ t.takeWhile (fun c => decide (isDigitC c)), isDigitC x := by
              intro x hx
              exact of_decide_eq_true
                (List.mem_takeWhile_imp (p := fun c => decide (isDigitC c)) hx)
            have hbnd : ¬ isDigitC b := by
              have h1 := dropWhile_head_false (fun c => decide (isDigitC c)) t b t2 hdwt
              intro hcon
              exact absurd h1 (by simp [hcon])
            by_cases hb : b = '.'
            · refine Or.inl ⟨.multiplePoints, ?_⟩
              apply parseChars_prop_err c0 t0 .multiplePoints hrne
              rw [← hrest, hreq, hpass, hdot, parseLoop_point_start]
              conv_lhs => rw [hteq]
              rw [parseLoop_frac_pass _ hdigt (b :: t2) _ 0 0 _ (by norm_num)]
              rw [hb, parseLoop_point_inF]
            · refine Or.inl ⟨.invalidChar, ?_⟩
              apply parseChars_prop_err c0 t0 .invalidChar hrne
              rw [← hrest, hreq, hpass, hdot, parseLoop_point_start]
              conv_lhs => rw [hteq]
              rw [parseLoop_frac_pass _ hdigt (b :: t2) _ 0 0 _ (by norm_num)]
              exact parseLoop_bad_char b t2 hbnd hb true _ _ _ _
        · refine Or.inl ⟨.invalidChar, ?_⟩
          apply parseChars_prop_err c0 t0 .invalidChar hrne
          rw [← hrest, hreq, hpass]
          exact parseLoop_bad_char c t hcnd hdot false _ _ _ _
      · push_neg at hNI
        by_cases hub : intUB (numeralV (rest.takeWhile (fun c => decide (isDigitC c))))
        · refine Or.inr ?_
          apply parseChars_prop_none c0 t0 hrne
          rw [← hrest, hreq]
          exact (parseLoop_int_det _ hdigi (c :: t)).2.1 hub
        · refine Or.inl ⟨.overflow, ?_⟩
          apply parseChars_prop_err c0 t0 .overflow hrne
          rw [← hrest, hreq]
          exact (parseLoop_int_det _ hdigi (c :: t)).2.2 hNI hub

/-- Helper: a nonempty input that is only a sign and at most one point
raises empty-digits. -/
theorem parseChars_sign_point (cs : List Char) (hcs : cs ≠ [])
    (hspo : signPointOnly cs) : parseChars cs = some (.error .emptyDigits) := by
  cases cs with
  | nil => exact absurd rfl hcs
  | cons c0 t0 =>
    simp only [signPointOnly, List.head?_cons, Option.some.injEq,
      List.tail_cons] at hspo
    rw [parseChars_cons_eq]
    rcases hspo with hb | hb
    · rw [if_pos hb]
    · rw [hb, if_neg (by simp)]
      have hlp : parseLoop ['.'] false 0 0 0 false = some (.ok (0, 0, 0, false)) := rfl
      rw [hlp]
      rfl

/-- Helper: unpacking a defined decimal denotation. -/
theorem decVal_elim {cs : List Char} {v : ℚ} (h : decVal? cs = some v) :
    ∃ i f, decBody? (if cs.head? = some '-' ∨ cs.head? = some '+'
        then cs.tail else cs) = some (i, f) ∧
      ¬(i = [] ∧ f = []) ∧
      v = (if cs.head? = some '-' then (-1 : ℚ) else 1) *
        ((numeralV i : ℚ) + (numeralV f : ℚ) / 10 ^ f.length) := by
  simp only [decVal?] at h
  cases hB : decBody? (if cs.head? = some '-' ∨ cs.head? = some '+'
      then cs.tail else cs) with
  | none =>
    rw [hB] at h
    have h' : (none : Option ℚ) = some v := h
    exact absurd h' (by simp)
  | some p =>
    obtain ⟨i, f⟩ := p
    rw [hB] at h
    have h' : (if i = [] ∧ f = [] then (none : Option ℚ)
        else some ((if cs.head? = some '-' then (-1:ℚ) else 1) *
          ((numeralV i : ℚ) + (numeralV f : ℚ) / 10 ^ f.length))) = some v := h
    by_cases hif : i = [] ∧ f = []
    · rw [if_pos hif] at h'
      exact absurd h' (by simp)
    · rw [if_neg hif] at h'
      simp only [Option.some.injEq] at h'
      exact ⟨i, f, hB.symm ▸ rfl, hif, h'.symm⟩

/-- Helper: building a defined decimal denotation. -/
theorem decVal_intro (cs i f : List Char)
    (hB : decBody? (if cs.head? = some '-' ∨ cs.head? = some '+'
      then cs.tail else cs) = some (i, f))
    (hne : ¬(i = [] ∧ f = [])) :
    decVal? cs = some ((if cs.head? = some '-' then (-1:ℚ) else 1) *
      ((numeralV i : ℚ) + (numeralV f : ℚ) / 10 ^ f.length)) := by
  simp only [decVal?]
  rw [hB]
  show (if i = [] ∧ f = [] then (none : Option ℚ)
      else some ((if cs.head? = some '-' then (-1:ℚ) else 1) *
        ((numeralV i : ℚ) + (numeralV f : ℚ) / 10 ^ f.length))) = _
  rw [if_neg hne]

/-- Helper: the integer part of the absolute value of a denoted decimal
is its integer digit numeral. -/
theorem decVal_floor_abs {cs : List Char} {v : ℚ} {i f : List Char}
    (hdigi : ∀ c ∈ i, isDigitC c) (hdigf : ∀ c ∈ f, isDigitC c)
    (hv : v = (if cs.head? = some '-' then (-1 : ℚ) else 1) *
      ((numeralV i : ℚ) + (numeralV f : ℚ) / 10 ^ f.length)) :
    ⌊|v|⌋ = numeralV i := by
  have hx := body_val_nonneg i f hdigi hdigf
  have habs : |v| = (numeralV i : ℚ) + (numeralV f : ℚ) / 10 ^ f.length := by
    rw [hv]
    split_ifs
    · rw [neg_one_mul, abs_neg, abs_of_nonneg hx]
    · rw [one_mul, abs_of_nonneg hx]
  rw [habs, floor_int_add_fracQ _ f hdigf]

/-- Helper: truncation of a denoted decimal equals the sign-adjusted
integer FixedPoint::parse assembles. -/
theorem decVal_trunc {cs : List Char} {v : ℚ} {i f : List Char}
    (hdigi : ∀ c ∈ i, isDigitC c) (hdigf : ∀ c ∈ f, isDigitC c)
    (hv : v = (if cs.head? = some '-' then (-1 : ℚ) else 1) *
      ((numeralV i : ℚ) + (numeralV f : ℚ) / 10 ^ f.length)) :
    truncVal v = (if cs.head? = some '-' then
        -(numeralV i * fpScale + numeralV (f.take 8) * 10 ^ (8 - min 8 f.length))
      else
        numeralV i * fpScale + numeralV (f.take 8) * 10 ^ (8 - min 8 f.length)) := by
  have hx := body_val_nonneg i f hdigi hdigf
  have hfl := trunc_body_floor i f hdigi hdigf
  rw [hv]
  split_ifs
  · rw [neg_one_mul, truncVal_neg_of_nonneg hx, hfl]
  · rw [one_mul, truncVal_of_nonneg hx, hfl]

/-- Helper: the absolute truncated value of a denoted decimal is the
scaled integer the parse assembles. -/
theorem decVal_trunc_abs {cs : List Char} {v : ℚ} {i f : List Char}
    (hdigi : ∀ c ∈ i, isDigitC c) (hdigf : ∀ c ∈ f, isDigitC c)
    (hv : v = (if cs.head? = some '-' then (-1 : ℚ) else 1) *
      ((numeralV i : ℚ) + (numeralV f : ℚ) / 10 ^ f.length)) :
    |truncVal v| =
      numeralV i * fpScale + numeralV (f.take 8) * 10 ^ (8 - min 8 f.length) := by
  rw [decVal_trunc hdigi hdigf hv]
  split_ifs
  · rw [abs_neg, abs_of_nonneg (wf_R_nonneg i f hdigi hdigf)]
  · rw [abs_of_nonneg (wf_R_nonneg i f hdigi hdigf)]

/-- Helper: parse succeeds with the truncated value on any input
denoting a decimal whose truncation is int64-representable. -/
theorem parseFP_ok_of_decVal {s : String} {v : ℚ} (hv : decVal? s.data = some v)
    (htr : |truncVal v| ≤ int64Max) : parseFP s = some (.ok (truncVal v)) := by
  obtain ⟨i, f, hB, hne, hveq⟩ := decVal_elim hv
  obtain ⟨hdi, hdf, -⟩ := decBody_some_shape hB
  have hR := decVal_trunc_abs hdi hdf hveq
  have hrange : numeralV i * fpScale +
      numeralV (f.take 8) * 10 ^ (8 - min 8 f.length) ≤ int64Max := hR ▸ htr
  have hip : numeralV i ≤ maxIntPart := by
    have h2 : 0 ≤ numeralV (f.take 8) * 10 ^ (8 - min 8 f.length) :=
      mul_nonneg (numeralV_nonneg (fun c hc => hdf c (List.mem_of_mem_take hc)))
        (by positivity)
    have h1 : numeralV i * fpScale ≤ int64Max := by linarith
    have h3 : maxIntPart = int64Max / fpScale := rfl
    rw [h3, Int.le_ediv_iff_mul_le (by norm_num [fpScale] : (0:ℤ) < fpScale)]
    exact h1
  rw [parseFP, parseChars_wf_ok s.data i f hB hne hip hrange,
    ← decVal_trunc hdi hdf hveq]

/-- Helper: parse hits the undefined final assembly on any input
denoting a decimal whose integer part passes the max_integer_part
check but whose truncation leaves int64. -/
theorem parseFP_ub_of_decVal {s : String} {v : ℚ} (hv : decVal? s.data = some v)
    (hip : ⌊|v|⌋ ≤ maxIntPart) (htr : int64Max < |truncVal v|) :
    parseFP s = none := by
  obtain ⟨i, f, hB, hne, hveq⟩ := decVal_elim hv
  obtain ⟨hdi, hdf, -⟩ := decBody_some_shape hB
  have hfl := decVal_floor_abs hdi hdf hveq
  have hR := decVal_trunc_abs hdi hdf hveq
  exact parseChars_wf_ub s.data i f hB hne (hfl ▸ hip) (hR ▸ htr)

/-- Helper: on any input denoting an out-of-range decimal, parse raises
overflow, unless the digit run itself satisfies intUB, when the loop
multiply-add is undefined. -/
theorem parseFP_ovf_of_decVal {s : String} {v : ℚ}
    (hv : decVal? s.data = some v) (hgt : maxIntPart < ⌊|v|⌋) :
    (¬ intUB ⌊|v|⌋ → parseFP s = some (.error .overflow)) ∧
    (intUB ⌊|v|⌋ → parseFP s = none) := by
  obtain ⟨i, f, hB, hne, hveq⟩ := decVal_elim hv
  obtain ⟨hdi, hdf, -⟩ := decBody_some_shape hB
  have hfl := decVal_floor_abs hdi hdf hveq
  have h := parseChars_wf_overflow s.data i f hB hne (hfl ▸ hgt)
  exact ⟨fun hnub => h.1 (hfl ▸ hnub), fun hub => h.2 (hfl ▸ hub)⟩

/-- Helper: the string "1.5" denotes 3/2. -/
theorem decVal_one_point_five : decVal? ("1.5" : String).data = some (3/2) := by
  show decVal? ['1', '.', '5'] = some (3/2)
  have hI := decVal_intro ['1', '.', '5'] ['1'] ['5'] (by decide) (by decide)
  rw [hI]
  have e1 : numeralV ['1'] = 1 := by decide
  have e5 : numeralV ['5'] = 5 := by decide
  rw [e1, e5, if_neg (by decide : ¬((['1', '.', '5'] : List Char).head? = some '-'))]
  norm_num [List.length_singleton]

/-- Helper: the string "1.50" also denotes 3/2. -/
theorem decVal_one_point_fifty : decVal? ("1.50" : String).data = some (3/2) := by
  show decVal? ['1', '.', '5', '0'] = some (3/2)
  have hI := decVal_intro ['1', '.', '5', '0'] ['1'] ['5', '0'] (by decide) (by decide)
  rw [hI]
  have e1 : numeralV ['1'] = 1 := by decide
  have e5 : numeralV ['5', '0'] = 50 := by decide
  rw [e1, e5,
    if_neg (by decide : ¬((['1', '.', '5', '0'] : List Char).head? = some '-'))]
  norm_num

/-- Helper: the string "92233720368.6" denotes INT64_MAX/10^8 plus
six tenths. -/
theorem decVal_big_frac :
    decVal? ("92233720368.6" : String).data = some (92233720368 + 3/5 : ℚ) := by
  show decVal? ['9','2','2','3','3','7','2','0','3','6','8','.','6'] =
    some (92233720368 + 3/5 : ℚ)
  have hI := decVal_intro ['9','2','2','3','3','7','2','0','3','6','8','.','6']
    ['9','2','2','3','3','7','2','0','3','6','8'] ['6'] (by decide) (by decide)
  rw [hI]
  have e1 : numeralV ['9','2','2','3','3','7','2','0','3','6','8'] = 92233720368 := by
    decide
  have e2 : numeralV ['6'] = 6 := by decide
  rw [e1, e2, if_neg (by decide :
    ¬((['9','2','2','3','3','7','2','0','3','6','8','.','6'] : List Char).head? =
      some '-'))]
  norm_num [List.length_singleton]

/-- C5 counterexample: the empty string contains no digits, yet
FixedPoint::parse returns FixedPoint::zero() for it instead of the
empty-digits ParseError the claim requires for every digit-free
input. -/
theorem C5_counterexample :
    (∀ c ∈ ("" : String).data, ¬ isDigitC c) ∧
      parseFP "" = some (.ok 0) ∧ parseFP "" ≠ some (.error .emptyDigits) := by
  refine ⟨?_, rfl, ?_⟩
  · intro c hc
    exact absurd hc (List.not_mem_nil c)
  · intro hcon
    have h0 : parseFP "" = some (.ok 0) := rfl
    rw [hcon] at h0
    simp at h0

/-- C5 (amended): FixedPoint::parse returns zero for the empty string;
on an input denoting a decimal value v it returns the scaled integer
trunc(v * 10^8) — fractional digits beyond 8 truncated toward zero —
whenever that integer is int64-representable, and otherwise either
raises the overflow error or runs into unguarded int64 arithmetic
(undefined behaviour, modelled none): the undefined final assembly when
the integer part still passes max_integer_part, and overflow-or-UB when
the integer part exceeds it; a nonempty input of only a sign and at
most one decimal point raises empty-digits; and every defined
successful parse of a nonempty input returns the truncation of the
decimal value the input denotes. -/
theorem C5_parse_amended :
    parseFP "" = some (.ok 0) ∧
    (∀ (s : String) (v : ℚ), decVal? s.data = some v → |truncVal v| ≤ int64Max →
      parseFP s = some (.ok (truncVal v))) ∧
    (∀ (s : String) (v : ℚ), decVal? s.data = some v → ⌊|v|⌋ ≤ maxIntPart →
      int64Max < |truncVal v| → parseFP s = none) ∧
    (∀ (s : String) (v : ℚ), decVal? s.data = some v → maxIntPart < ⌊|v|⌋ →
      parseFP s = some (.error .overflow) ∨ parseFP s = none) ∧
    (∀ s : String, s.data ≠ [] → signPointOnly s.data →
      parseFP s = some (.error .emptyDigits)) ∧
    (∀ (s : String) (r : ℤ), parseFP s = some (.ok r) →
      s.data = [] ∨ ∃ v, decVal? s.data = some v ∧ r = truncVal v) := by
  refine ⟨rfl, ?_, ?_, ?_, ?_, ?_⟩
  · exact fun s v hv htr => parseFP_ok_of_decVal hv htr
  · exact fun s v hv hip htr => parseFP_ub_of_decVal hv hip htr
  · intro s v hv hgt
    by_cases hub : intUB ⌊|v|⌋
    · exact Or.inr ((parseFP_ovf_of_decVal hv hgt).2 hub)
    · exact Or.inl ((parseFP_ovf_of_decVal hv hgt).1 hub)
  · exact fun s hne hspo => parseChars_sign_point s.data hne hspo
  · intro s r hok
    by_cases hnil : s.data = []
    · exact Or.inl hnil
    · right
      cases hv : decVal? s.data with
      | none =>
        rcases parseChars_illformed s.data hnil hv with ⟨e, he⟩ | hn
        · rw [parseFP, he] at hok
          exact absurd hok (by simp)
        · rw [parseFP, hn] at hok
          exact absurd hok (by simp)
      | some v =>
        refine ⟨v, rfl, ?_⟩
        by_cases htr : |truncVal v| ≤ int64Max
        · have hPC := parseFP_ok_of_decVal hv htr
          rw [hok] at hPC
          simp only [Option.some.injEq, Except.ok.injEq] at hPC
          exact hPC
        · push_neg at htr
          by_cases hip : ⌊|v|⌋ ≤ maxIntPart
          · rw [parseFP_ub_of_decVal hv hip htr] at hok
            exact absurd hok (by simp)
          · push_neg at hip
            by_cases hub : intUB ⌊|v|⌋
            · rw [(parseFP_ovf_of_decVal hv hip).2 hub] at hok
              exact absurd hok (by simp)
            · rw [(parseFP_ovf_of_decVal hv hip).1 hub] at hok
              exact absurd hok (by simp)

/-- C5 witness: the string "1.5" denotes 3/2, its truncation 150000000
is int64-representable, parse returns it, and "+" raises
empty-digits. -/
theorem C5_parse_amended_witness :
    (decVal? ("1.5" : String).data = some (3/2) ∧
      |truncVal (3/2 : ℚ)| ≤ int64Max ∧
      parseFP "1.5" = some (.ok (truncVal (3/2))) ∧
      truncVal (3/2 : ℚ) = 150000000) ∧
    (decVal? ("92233720368.6" : String).data = some (92233720368 + 3/5 : ℚ) ∧
      ⌊|(92233720368 + 3/5 : ℚ)|⌋ ≤ maxIntPart ∧
      int64Max < |truncVal (92233720368 + 3/5 : ℚ)| ∧
      parseFP "92233720368.6" = none) ∧
    parseFP "+" = some (.error .emptyDigits) := by
  have h1 := decVal_one_point_five
  have htv : truncVal (3/2 : ℚ) = 150000000 := by norm_num [truncVal, fpScale]
  have h2 : |truncVal (3/2 : ℚ)| ≤ int64Max := by
    rw [htv]
    norm_num [int64Max]
  have habs : |(92233720368 + 3/5 : ℚ)| = 92233720368 + 3/5 :=
    abs_of_nonneg (by norm_num)
  have hfl : ⌊|(92233720368 + 3/5 : ℚ)|⌋ ≤ maxIntPart := by
    rw [habs]
    norm_num [maxIntPart, int64Max, fpScale]
  have htv2 : truncVal (92233720368 + 3/5 : ℚ) = 9223372036860000000 := by
    norm_num [truncVal, fpScale]
  have hbig : int64Max < |truncVal (92233720368 + 3/5 : ℚ)| := by
    rw [htv2]
    norm_num [int64Max]
  exact ⟨⟨h1, h2, C5_parse_amended.2.1 "1.5" (3/2) h1 h2, htv⟩,
    ⟨decVal_big_frac, hfl, hbig,
      C5_parse_amended.2.2.1 "92233720368.6" _ decVal_big_frac hfl hbig⟩,
    C5_parse_amended.2.2.2.2.1 "+" (by decide) (by decide)⟩

/-- Helper: updating twice at the same bid key rewrites one level. -/
theorem insertDesc_same (p : ℤ) (q q' : ℚ) (l : List Level) :
    insertDesc p q (insertDesc p q' l) = insertDesc p q l := by
  induction l with
  | nil => simp [insertDesc]
  | cons hd tl ih =>
    obtain ⟨p', q''⟩ := hd
    by_cases h1 : p' < p
    · simp [insertDesc, h1]
    · by_cases h2 : p = p'
      · subst h2
        simp [insertDesc, lt_irrefl]
      · simp [insertDesc, h1, h2, ih]

/-- Helper: updating twice at the same ask key rewrites one level. -/
theorem insertAsc_same (p : ℤ) (q q' : ℚ) (l : List Level) :
    insertAsc p q (insertAsc p q' l) = insertAsc p q l := by
  induction l with
  | nil => simp [insertAsc]
  | cons hd tl ih =>
    obtain ⟨p', q''⟩ := hd
    by_cases h1 : p < p'
    · simp [insertAsc, h1]
    · by_cases h2 : p = p'
      · subst h2
        simp [insertAsc, lt_irrefl]
      · simp [insertAsc, h1, h2, ih]

/-- C1: both book sides are keyed by the exact scaled integer: every
reachable book keeps bids strictly descending and asks strictly
ascending in that key; FixedPoint::parse sends any two decimal strings
denoting the same decimal value to the same result, never comparing
floating point; and consecutive updates at one key address a single
level on either side. -/
theorem C1_fixed_price_keys :
    (∀ (levels : ℕ) (ops : List BookOp),
      (applyOps levels ops).bids.Pairwise (fun a b => b.1 < a.1) ∧
      (applyOps levels ops).asks.Pairwise (fun a b => a.1 < b.1)) ∧
    (∀ (s1 s2 : String) (v : ℚ), decVal? s1.data = some v →
      decVal? s2.data = some v → parseFP s1 = parseFP s2) ∧
    (∀ (p : ℤ) (q q' : ℚ) (l : List Level),
      insertDesc p q (insertDesc p q' l) = insertDesc p q l ∧
      insertAsc p q (insertAsc p q' l) = insertAsc p q l) := by
  refine ⟨?_, ?_, ?_⟩
  · intro levels ops
    obtain ⟨h1, h2, -, -⟩ := applyOps_inv levels ops
    exact ⟨h1, h2⟩
  · intro s1 s2 v hv1 hv2
    by_cases htr : |truncVal v| ≤ int64Max
    · rw [parseFP_ok_of_decVal hv1 htr, parseFP_ok_of_decVal hv2 htr]
    · push_neg at htr
      by_cases hip : ⌊|v|⌋ ≤ maxIntPart
      · rw [parseFP_ub_of_decVal hv1 hip htr, parseFP_ub_of_decVal hv2 hip htr]
      · push_neg at hip
        by_cases hub : intUB ⌊|v|⌋
        · rw [(parseFP_ovf_of_decVal hv1 hip).2 hub,
            (parseFP_ovf_of_decVal hv2 hip).2 hub]
        · rw [(parseFP_ovf_of_decVal hv1 hip).1 hub,
            (parseFP_ovf_of_decVal hv2 hip).1 hub]
  · intro p q q' l
    exact ⟨insertDesc_same p q q' l, insertAsc_same p q q' l⟩

/-- C1 witness: "1.5" and "1.50" denote the same decimal 3/2 and parse
to the identical key 150000000. -/
theorem C1_fixed_price_keys_witness :
    decVal? ("1.5" : String).data = some (3/2) ∧
    decVal? ("1.50" : String).data = some (3/2) ∧
    parseFP "1.5" = parseFP "1.50" ∧
    parseFP "1.5" = some (.ok 150000000) := by
  refine ⟨decVal_one_point_five, decVal_one_point_fifty, ?_, ?_⟩
  · exact C1_fixed_price_keys.2.1 "1.5" "1.50" (3/2)
      decVal_one_point_five decVal_one_point_fifty
  · have htv : truncVal (3/2 : ℚ) = 150000000 := by norm_num [truncVal, fpScale]
    have hb : |truncVal (3/2 : ℚ)| ≤ int64Max := by
      rw [htv]
      norm_num [int64Max]
    rw [parseFP_ok_of_decVal decVal_one_point_five hb, htv]

/-- Helper: the power-of-two mask index is reduction mod capacity. -/
theorem spscIdx_pow (k p : ℕ) : spscIdx (2 ^ k) p = p % 2 ^ k := by
  rw [spscIdx, Nat.and_pow_two_sub_one_eq_mod]

/-- Helper: positions within one capacity window with equal slot
indices coincide. -/
theorem mod_window_inj {N a p p' : ℕ} (hp : a ≤ p) (hp2 : p < a + N)
    (hq : a ≤ p') (hq2 : p' < a + N) (hmod : p % N = p' % N) : p = p' := by
  rcases le_total p p' with h | h
  · have hdvd : N ∣ p' - p := (Nat.modEq_iff_dvd' h).mp hmod
    have h0 := Nat.eq_zero_of_dvd_of_lt hdvd
    by_cases hz : p' - p = 0
    · omega
    · have := h0 (by omega)
      omega
  · have hdvd : N ∣ p - p' := (Nat.modEq_iff_dvd' h).mp hmod.symm
    have h0 := Nat.eq_zero_of_dvd_of_lt hdvd
    by_cases hz : p - p' = 0
    · omega
    · have := h0 (by omega)
      omega

/-- Helper: try_push once the producer slot is read. -/
theorem tryPush_eq_of_get {α : Type} (v : α) (s : Spsc α) (sl : Slot α)
    (hget : s.slots.get? (spscIdx s.slots.length s.tail) = some sl) :
    tryPush v s = (if sl.sequence ≠ s.tail then (false, s)
      else (true, { s with
                    slots := s.slots.set (spscIdx s.slots.length s.tail)
                      ⟨s.tail + 1, some v⟩
                    tail := s.tail + 1 })) := by
  simp only [tryPush]
  rw [hget]

/-- Helper: try_pop once the consumer slot is read. -/
theorem tryPop_eq_of_get {α : Type} (s : Spsc α) (sl : Slot α)
    (hget : s.slots.get? (spscIdx s.slots.length s.head) = some sl) :
    tryPop s = (if sl.sequence ≠ s.head + 1 then (none, s)
      else (sl.storage, { s with
                          slots := s.slots.set (spscIdx s.slots.length s.head)
                            ⟨s.head + s.slots.length, none⟩
                          head := s.head + 1 })) := by
  simp only [tryPop]
  rw [hget]

/-- Helper: a fresh power-of-two queue holds nothing. -/
theorem initSpsc_inv (α : Type) (k : ℕ) : SpscInv k (initSpsc α (2 ^ k)) [] := by
  refine ⟨by simp [initSpsc], by simp [initSpsc], by simp, ?_, ?_⟩
  · intro i hi
    simp at hi
  · intro d hd
    have hdlt : d < 2 ^ k := by simpa using hd
    simp only [initSpsc, spscIdx_pow, Nat.zero_add]
    rw [Nat.mod_eq_of_lt hdlt]
    simp [List.get?_eq_getElem?, List.getElem?_range hdlt]

/-- Helper: try_push succeeds on a non-full queue and appends the
value. -/
theorem tryPush_not_full {α : Type} {k : ℕ} {s : Spsc α} {l : List α} (v : α)
    (hinv : SpscInv k s l) (hlt : l.length < 2 ^ k) :
    (tryPush v s).1 = true ∧ SpscInv k (tryPush v s).2 (l ++ [v]) := by
  obtain ⟨hn, ht, hle, hfullc, hempty⟩ := hinv
  have hI0 : spscIdx s.slots.length s.tail = s.tail % 2 ^ k := by
    rw [hn, spscIdx_pow]
  have hget : s.slots.get? (spscIdx s.slots.length s.tail) = some ⟨s.tail, none⟩ := by
    rw [hn]
    have h0 := hempty 0 (by omega)
    simpa using h0
  rw [tryPush_eq_of_get v s _ hget, if_neg (by simp)]
  refine ⟨rfl, by simp [hn], by simp [ht]; omega, by simp; omega, ?_, ?_⟩
  · intro i hi
    have hi' : i < l.length + 1 := by simpa using hi
    show (s.slots.set (spscIdx s.slots.length s.tail) ⟨s.tail + 1, some v⟩).get?
        (spscIdx (2 ^ k) (s.head + i)) = some ⟨s.head + i + 1, (l ++ [v]).get? i⟩
    rw [spscIdx_pow, hI0]
    by_cases hcase : i < l.length
    · have hne : s.tail % 2 ^ k ≠ (s.head + i) % 2 ^ k := by
        intro hmod
        have h2p : 0 < 2 ^ k := Nat.two_pow_pos k
        have heq := mod_window_inj (a := s.head) (by omega) (by omega)
          (by omega) (by omega) hmod
        omega
      have hold := hfullc i hcase
      rw [spscIdx_pow] at hold
      rw [List.get?_eq_getElem?, List.getElem?_set_ne hne, ← List.get?_eq_getElem?,
        hold, List.get?_append hcase]
    · have hieq : i = l.length := by omega
      subst hieq
      rw [← ht, List.get?_eq_getElem?,
        List.getElem?_set_self (by rw [hn]; exact Nat.mod_lt _ (Nat.two_pow_pos k)),
        List.get?_concat_length]
  · intro d hd
    have hd' : d + 1 < 2 ^ k - l.length := by
      simp at hd
      omega
    have hold := hempty (d + 1) hd'
    rw [spscIdx_pow] at hold
    show (s.slots.set (spscIdx s.slots.length s.tail) ⟨s.tail + 1, some v⟩).get?
        (spscIdx (2 ^ k) (s.tail + 1 + d)) = some ⟨s.tail + 1 + d, none⟩
    rw [spscIdx_pow, hI0]
    have hpos : s.tail + 1 + d = s.tail + (d + 1) := by omega
    rw [hpos]
    have hne : s.tail % 2 ^ k ≠ (s.tail + (d + 1)) % 2 ^ k := by
      intro hmod
      have h2p : 0 < 2 ^ k := Nat.two_pow_pos k
      have heq := mod_window_inj (a := s.tail) (by omega) (by omega)
        (by omega) (by omega) hmod
      omega
    rw [List.get?_eq_getElem?, List.getElem?_set_ne hne, ← List.get?_eq_getElem?,
      hold]

/-- Helper: try_push reports full and leaves the queue unchanged when
all capacity is used (capacity at least 2). -/
theorem tryPush_full {α : Type} {k : ℕ} {s : Spsc α} {l : List α} (v : α)
    (hk : 1 ≤ k) (hinv : SpscInv k s l) (hfull : l.length = 2 ^ k) :
    tryPush v s = (false, s) := by
  obtain ⟨hn, ht, hle, hfullc, hempty⟩ := hinv
  have h2 : 2 ≤ 2 ^ k := by
    calc 2 = 2 ^ 1 := by norm_num
    _ ≤ 2 ^ k := Nat.pow_le_pow_right (by norm_num) hk
  have h0 : 0 < l.length := by
    rw [hfull]
    exact Nat.two_pow_pos k
  have hget0 := hfullc 0 h0
  rw [spscIdx_pow] at hget0
  have hget : s.slots.get? (spscIdx s.slots.length s.tail) =
      some ⟨s.head + 1, l.get? 0⟩ := by
    rw [hn, spscIdx_pow]
    have hmod : s.tail % 2 ^ k = s.head % 2 ^ k := by
      rw [ht, hfull, Nat.add_mod_right]
    rw [hmod]
    simpa using hget0
  rw [tryPush_eq_of_get v s _ hget,
    if_pos (by show s.head + 1 ≠ s.tail; omega)]

/-- Helper: try_pop reports empty and leaves the queue unchanged. -/
theorem tryPop_empty {α : Type} {k : ℕ} {s : Spsc α}
    (hinv : SpscInv k s ([] : List α)) : tryPop s = (none, s) := by
  obtain ⟨hn, ht, hle, hfullc, hempty⟩ := hinv
  have hteq : s.tail = s.head := by simpa using ht
  have hget : s.slots.get? (spscIdx s.slots.length s.head) = some ⟨s.head, none⟩ := by
    rw [hn]
    have h0 := hempty 0 (by simpa using Nat.two_pow_pos k)
    rw [hteq] at h0
    simpa using h0
  rw [tryPop_eq_of_get s _ hget, if_pos (by show s.head ≠ s.head + 1; omega)]

/-- Helper: try_pop returns the oldest value and removes it. -/
theorem tryPop_cons {α : Type} {k : ℕ} {s : Spsc α} {x : α} {rest : List α}
    (hinv : SpscInv k s (x :: rest)) :
    (tryPop s).1 = some x ∧ SpscInv k (tryPop s).2 rest := by
  obtain ⟨hn, ht, hle, hfullc, hempty⟩ := hinv
  have hI0 : spscIdx s.slots.length s.head = s.head % 2 ^ k := by
    rw [hn, spscIdx_pow]
  have hlen : (x :: rest).length = rest.length + 1 := rfl
  have hget0 := hfullc 0 (by simp)
  have hget : s.slots.get? (spscIdx s.slots.length s.head) =
      some ⟨s.head + 1, some x⟩ := by
    rw [hn]
    simpa using hget0
  rw [tryPop_eq_of_get s _ hget, if_neg (by simp)]
  refine ⟨rfl, by simp [hn], ?_, ?_, ?_, ?_⟩
  · show s.tail = s.head + 1 + rest.length
    rw [hlen] at ht
    omega
  · rw [hlen] at hle
    omega
  · intro i hi
    have hold := hfullc (i + 1) (by simp; omega)
    rw [spscIdx_pow, List.get?_cons_succ] at hold
    show (s.slots.set (spscIdx s.slots.length s.head)
        ⟨s.head + s.slots.length, none⟩).get? (spscIdx (2 ^ k) (s.head + 1 + i)) =
      some ⟨s.head + 1 + i + 1, rest.get? i⟩
    rw [spscIdx_pow, hI0]
    have hpos : s.head + 1 + i = s.head + (i + 1) := by omega
    rw [hpos]
    have hne : s.head % 2 ^ k ≠ (s.head + (i + 1)) % 2 ^ k := by
      intro hmod
      have h2p : 0 < 2 ^ k := Nat.two_pow_pos k
      have hlb : rest.length + 1 ≤ 2 ^ k := by
        rw [hlen] at hle
        exact hle
      have heq := mod_window_inj (a := s.head) (by omega) (by omega)
        (by omega) (by omega) hmod
      omega
    rw [List.get?_eq_getElem?, List.getElem?_set_ne hne, ← List.get?_eq_getElem?,
      hold]
  · intro d hd
    have hlb : rest.length + 1 ≤ 2 ^ k := by
      rw [hlen] at hle
      exact hle
    have hteq : s.tail = s.head + (rest.length + 1) := by
      rw [hlen] at ht
      exact ht
    show (s.slots.set (spscIdx s.slots.length s.head)
        ⟨s.head + s.slots.length, none⟩).get? (spscIdx (2 ^ k) (s.tail + d)) =
      some ⟨s.tail + d, none⟩
    by_cases hdc : d < 2 ^ k - (rest.length + 1)
    · have hold := hempty d (by rw [hlen]; exact hdc)
      rw [spscIdx_pow] at hold
      rw [spscIdx_pow, hI0]
      have hne : s.head % 2 ^ k ≠ (s.tail + d) % 2 ^ k := by
        intro hmod
        have h2p : 0 < 2 ^ k := Nat.two_pow_pos k
        have heq := mod_window_inj (a := s.head) (by omega) (by omega)
          (by omega) (by omega) hmod
        omega
      rw [List.get?_eq_getElem?, List.getElem?_set_ne hne, ← List.get?_eq_getElem?,
        hold]
    · have hdeq : d = 2 ^ k - (rest.length + 1) := by omega
      have hpos2 : s.tail + d = s.head + 2 ^ k := by omega
      rw [spscIdx_pow, hI0, hpos2, Nat.add_mod_right]
      rw [List.get?_eq_getElem?,
        List.getElem?_set_self (by rw [hn]; exact Nat.mod_lt _ (Nat.two_pow_pos k))]
      rw [hn]

/-- C7 counterexample: with capacity N = 1 (a power of two) the ring is
broken: a second try_push on the full queue also reports success, the
first value is silently overwritten, and try_pop then recovers neither
value, so push on full does not return false and the consumer does not
observe the pushed values exactly once in order. -/
theorem C7_counterexample :
    (tryPush (7:ℤ) (initSpsc ℤ 1)).1 = true ∧
    (tryPush (8:ℤ) (tryPush (7:ℤ) (initSpsc ℤ 1)).2).1 = true ∧
    (tryPop (tryPush (8:ℤ) (tryPush (7:ℤ) (initSpsc ℤ 1)).2).2).1 = none := by
  decide

/-- C7 (amended): for the SPSC ring of power-of-two capacity N = 2^k
with k ≥ 1, relative to the abstraction of the queue state to its list
of un-popped values: the fresh queue holds nothing; try_push succeeds
whenever fewer than N un-popped values are stored and appends the
pushed value; try_push returns false and changes nothing on a full
queue; try_pop returns none and changes nothing on an empty queue; and
try_pop returns exactly the oldest stored value and removes it, so the
consumer observes the pushed values exactly once each, in FIFO order. -/
theorem C7_spsc_amended :
    ∀ (α : Type) (k : ℕ), 1 ≤ k →
      SpscInv k (initSpsc α (2 ^ k)) ([] : List α) ∧
      (∀ (s : Spsc α) (l : List α) (v : α), SpscInv k s l → l.length < 2 ^ k →
        (tryPush v s).1 = true ∧ SpscInv k (tryPush v s).2 (l ++ [v])) ∧
      (∀ (s : Spsc α) (l : List α) (v : α), SpscInv k s l → l.length = 2 ^ k →
        tryPush v s = (false, s)) ∧
      (∀ s : Spsc α, SpscInv k s ([] : List α) → tryPop s = (none, s)) ∧
      (∀ (s : Spsc α) (x : α) (rest : List α), SpscInv k s (x :: rest) →
        (tryPop s).1 = some x ∧ SpscInv k (tryPop s).2 rest) := by
  intro α k hk
  refine ⟨initSpsc_inv α k, ?_, ?_, ?_, ?_⟩
  · intro s l v hinv hlt
    exact tryPush_not_full v hinv hlt
  · intro s l v hinv hfull
    exact tryPush_full v hk hinv hfull
  · intro s hinv
    exact tryPop_empty hinv
  · intro s x rest hinv
    exact tryPop_cons hinv

/-- C7 witness: at capacity 2 the fresh integer queue holds nothing and
a first push of 5 succeeds. -/
theorem C7_spsc_amended_witness :
    SpscInv 1 (initSpsc ℤ 2) ([] : List ℤ) ∧
      (tryPush (5:ℤ) (initSpsc ℤ 2)).1 = true ∧
      SpscInv 1 (tryPush (5:ℤ) (initSpsc ℤ 2)).2 [5] := by
  have h0 : SpscInv 1 (initSpsc ℤ 2) ([] : List ℤ) := (C7_spsc_amended ℤ 1 le_rfl).1
  have h1 := (C7_spsc_amended ℤ 1 le_rfl).2.1 (initSpsc ℤ 2) [] 5
    (by decide) (by decide)
  exact ⟨h0, h1.1, by simpa using h1.2⟩

/-- Helper: the fuelled binary logarithm brackets its argument when the
fuel suffices. -/
theorem natLog2F_spec : ∀ (f n : ℕ), 1 ≤ n → n < 2 ^ (f + 1) →
    2 ^ natLog2F f n ≤ n ∧ n < 2 ^ (natLog2F f n + 1) := by
  intro f
  induction f with
  | zero =>
    intro n h1 h2
    norm_num at h2
    have hn1 : n = 1 := by omega
    subst hn1
    simp [natLog2F]
  | succ f ih =>
    intro n h1 h2
    by_cases hn : 2 ≤ n
    · have hstep : natLog2F (f + 1) n = natLog2F f (n / 2) + 1 := by
        simp only [natLog2F]
        rw [if_pos hn]
      have hp2 : 2 ^ (f + 1 + 1) = 2 * 2 ^ (f + 1) := by
        rw [pow_succ]
        ring
      have h1' : 1 ≤ n / 2 := by omega
      have h2' : n / 2 < 2 ^ (f + 1) := by omega
      obtain ⟨ha, hb⟩ := ih (n / 2) h1' h2'
      rw [hstep]
      have e1 : 2 ^ (natLog2F f (n / 2) + 1) = 2 * 2 ^ natLog2F f (n / 2) := by
        rw [pow_succ]
        ring
      have e2 : 2 ^ (natLog2F f (n / 2) + 1 + 1) =
          2 * 2 ^ (natLog2F f (n / 2) + 1) := by
        rw [pow_succ]
        ring
      omega
    · have hn1 : n = 1 := by omega
      subst hn1
      simp [natLog2F]

/-- Helper: the binary logarithm brackets every positive natural. -/
theorem natLog2_spec (n : ℕ) (h1 : 1 ≤ n) :
    2 ^ natLog2 n ≤ n ∧ n < 2 ^ (natLog2 n + 1) :=
  natLog2F_spec n n h1
    (lt_of_lt_of_le (Nat.lt_two_pow n) (Nat.pow_le_pow_right (by norm_num) (by omega)))

/-- Helper: the binary logarithm is determined by its bracketing. -/
theorem natLog2_eq_of (n L : ℕ) (h1 : 1 ≤ n) (hlo : 2 ^ L ≤ n)
    (hhi : n < 2 ^ (L + 1)) : natLog2 n = L := by
  obtain ⟨ha, hb⟩ := natLog2_spec n h1
  by_contra hne
  rcases Nat.lt_or_ge (natLog2 n) L with h | h
  · have h2 : (2:ℕ) ^ (natLog2 n + 1) ≤ 2 ^ L :=
      Nat.pow_le_pow_right (by norm_num) (Nat.succ_le_of_lt h)
    omega
  · have hgt : L < natLog2 n := by omega
    have h2 : (2:ℕ) ^ (L + 1) ≤ 2 ^ natLog2 n :=
      Nat.pow_le_pow_right (by norm_num) (Nat.succ_le_of_lt hgt)
    omega

/-- Helper: the rational binary logarithm brackets every positive
rational. -/
theorem qlog2_spec_pos (q : ℚ) (hq : 0 < q) :
    (2:ℚ) ^ qlog2 q ≤ q ∧ q < (2:ℚ) ^ (qlog2 q + 1) := by
  by_cases h1 : 1 ≤ q
  · rw [qlog2, if_pos h1]
    have hge : 1 ≤ ⌊q⌋ := Int.le_floor.mpr (by exact_mod_cast h1)
    have hnn : 1 ≤ ⌊q⌋.toNat := by omega
    obtain ⟨ha, hb⟩ := natLog2_spec ⌊q⌋.toNat hnn
    have hcast : ((⌊q⌋.toNat : ℤ) : ℚ) = ((⌊q⌋ : ℤ) : ℚ) := by
      congr 1
      omega
    constructor
    · rw [zpow_natCast]
      calc (2:ℚ) ^ natLog2 ⌊q⌋.toNat = ((2 ^ natLog2 ⌊q⌋.toNat : ℕ) : ℚ) := by
            push_cast
            ring
      _ ≤ ((⌊q⌋.toNat : ℕ) : ℚ) := by exact_mod_cast ha
      _ = ((⌊q⌋ : ℤ) : ℚ) := by exact_mod_cast hcast
      _ ≤ q := Int.floor_le q
    · rw [show (natLog2 ⌊q⌋.toNat : ℤ) + 1 = ((natLog2 ⌊q⌋.toNat + 1 : ℕ) : ℤ) by
        push_cast; ring, zpow_natCast]
      calc q < (⌊q⌋ : ℚ) + 1 := Int.lt_floor_add_one q
      _ = ((⌊q⌋.toNat : ℕ) : ℚ) + 1 := by rw [← hcast]; push_cast; ring
      _ ≤ ((2 ^ (natLog2 ⌊q⌋.toNat + 1) : ℕ) : ℚ) := by
            exact_mod_cast Nat.succ_le_of_lt hb
      _ = (2:ℚ) ^ (natLog2 ⌊q⌋.toNat + 1) := by push_cast; ring
  · push_neg at h1
    rw [qlog2, if_neg (not_le.mpr h1)]
    have hinv : 1 < q⁻¹ := by
      have hmul : q * q⁻¹ = 1 := mul_inv_cancel₀ (ne_of_gt hq)
      nlinarith
    have hge : 1 ≤ ⌊q⁻¹⌋ := Int.le_floor.mpr (by exact_mod_cast hinv.le)
    have hnn : 1 ≤ ⌊q⁻¹⌋.toNat := by omega
    obtain ⟨ha, hb⟩ := natLog2_spec ⌊q⁻¹⌋.toNat hnn
    have hcast : ((⌊q⁻¹⌋.toNat : ℤ) : ℚ) = ((⌊q⁻¹⌋ : ℤ) : ℚ) := by
      congr 1
      omega
    have hA : ((2:ℚ)) ^ (natLog2 ⌊q⁻¹⌋.toNat : ℕ) ≤ q⁻¹ := by
      calc (2:ℚ) ^ (natLog2 ⌊q⁻¹⌋.toNat : ℕ) =
          ((2 ^ natLog2 ⌊q⁻¹⌋.toNat : ℕ) : ℚ) := by push_cast; ring
      _ ≤ ((⌊q⁻¹⌋.toNat : ℕ) : ℚ) := by exact_mod_cast ha
      _ = ((⌊q⁻¹⌋ : ℤ) : ℚ) := by exact_mod_cast hcast
      _ ≤ q⁻¹ := Int.floor_le q⁻¹
    have hB : q⁻¹ < (2:ℚ) ^ ((natLog2 ⌊q⁻¹⌋.toNat : ℕ) + 1) := by
      calc q⁻¹ < (⌊q⁻¹⌋ : ℚ) + 1 := Int.lt_floor_add_one q⁻¹
      _ = ((⌊q⁻¹⌋.toNat : ℕ) : ℚ) + 1 := by rw [← hcast]; push_cast; ring
      _ ≤ ((2 ^ (natLog2 ⌊q⁻¹⌋.toNat + 1) : ℕ) : ℚ) := by
            exact_mod_cast Nat.succ_le_of_lt hb
      _ = (2:ℚ) ^ ((natLog2 ⌊q⁻¹⌋.toNat : ℕ) + 1) := by push_cast; ring
    have h2f : (0:ℚ) < 2 ^ (natLog2 ⌊q⁻¹⌋.toNat : ℕ) := by positivity
    have h2f1 : (0:ℚ) < 2 ^ ((natLog2 ⌊q⁻¹⌋.toNat : ℕ) + 1) := by positivity
    have hqA : q ≤ ((2:ℚ) ^ (natLog2 ⌊q⁻¹⌋.toNat : ℕ))⁻¹ := by
      have h := inv_anti₀ h2f hA
      rwa [inv_inv] at h
    have hqB : ((2:ℚ) ^ ((natLog2 ⌊q⁻¹⌋.toNat : ℕ) + 1))⁻¹ < q := by
      have h := inv_strictAnti₀ (inv_pos.mpr hq) hB
      rwa [inv_inv] at h
    by_cases hc : 1 ≤ q * 2 ^ natLog2 ⌊q⁻¹⌋.toNat
    · rw [if_pos hc]
      constructor
      · rw [show ((2:ℚ) ^ (-(natLog2 ⌊q⁻¹⌋.toNat : ℤ))) =
            ((2:ℚ) ^ (natLog2 ⌊q⁻¹⌋.toNat : ℕ))⁻¹ by rw [zpow_neg, zpow_natCast],
          inv_eq_one_div, div_le_iff₀ h2f]
        linarith
      · have hup : ((2:ℚ) ^ (natLog2 ⌊q⁻¹⌋.toNat : ℕ))⁻¹ <
            (2:ℚ) ^ (-(natLog2 ⌊q⁻¹⌋.toNat : ℤ) + 1) := by
          rw [show ((2:ℚ) ^ (natLog2 ⌊q⁻¹⌋.toNat : ℕ))⁻¹ =
              (2:ℚ) ^ (-(natLog2 ⌊q⁻¹⌋.toNat : ℤ)) by rw [zpow_neg, zpow_natCast]]
          exact zpow_lt_zpow_right₀ (by norm_num) (by omega)
        exact lt_of_le_of_lt hqA hup
    · rw [if_neg hc]
      push_neg at hc
      constructor
      · rw [show (-(natLog2 ⌊q⁻¹⌋.toNat : ℤ) - 1) =
            -((natLog2 ⌊q⁻¹⌋.toNat : ℤ) + 1) by ring]
        rw [show ((2:ℚ) ^ (-((natLog2 ⌊q⁻¹⌋.toNat : ℤ) + 1))) =
            ((2:ℚ) ^ ((natLog2 ⌊q⁻¹⌋.toNat : ℕ) + 1))⁻¹ by
          rw [zpow_neg]
          congr 1
          rw [show ((natLog2 ⌊q⁻¹⌋.toNat : ℤ) + 1) = (((natLog2 ⌊q⁻¹⌋.toNat : ℕ) + 1 : ℕ) : ℤ) by push_cast; ring,
            zpow_natCast]]
        exact hqB.le
      · rw [show (-(natLog2 ⌊q⁻¹⌋.toNat : ℤ) - 1 + 1) =
            -(natLog2 ⌊q⁻¹⌋.toNat : ℤ) by ring]
        rw [show ((2:ℚ) ^ (-(natLog2 ⌊q⁻¹⌋.toNat : ℤ))) =
            ((2:ℚ) ^ (natLog2 ⌊q⁻¹⌋.toNat : ℕ))⁻¹ by rw [zpow_neg, zpow_natCast],
          inv_eq_one_div, lt_div_iff₀ h2f]
        exact hc

/-- Helper: the rational binary logarithm is determined by its
bracketing. -/
theorem qlog2_eq_of (q : ℚ) (e : ℤ) (hq : 0 < q) (hlo : (2:ℚ) ^ e ≤ q)
    (hhi : q < (2:ℚ) ^ (e + 1)) : qlog2 q = e := by
  obtain ⟨ha, hb⟩ := qlog2_spec_pos q hq
  by_contra hne
  rcases lt_or_gt_of_ne hne with h | h
  · have h2 : (2:ℚ) ^ (qlog2 q + 1) ≤ (2:ℚ) ^ e :=
      zpow_le_zpow_right₀ (by norm_num) (by omega)
    linarith
  · have h2 : (2:ℚ) ^ (e + 1) ≤ (2:ℚ) ^ qlog2 q :=
      zpow_le_zpow_right₀ (by norm_num) (by omega)
    linarith

/-- Helper: rounding an integer to the nearest integer is exact. -/
theorem rneInt_int (z : ℤ) : rneInt (z : ℚ) = z := by
  simp only [rneInt, Int.floor_intCast]
  norm_num

/-- Helper: round-to-nearest lands within half a unit. -/
theorem rneInt_err (x : ℚ) : |((rneInt x : ℤ) : ℚ) - x| ≤ 1/2 := by
  have hfl : (⌊x⌋ : ℚ) ≤ x := Int.floor_le x
  have hfu : x < ⌊x⌋ + 1 := Int.lt_floor_add_one x
  simp only [rneInt]
  split_ifs with hA hB hC
  · rw [abs_le]
    constructor <;> linarith
  · rw [abs_le]
    push_cast
    constructor <;> linarith
  · rw [abs_le]
    constructor <;> linarith
  · rw [abs_le]
    push_cast
    constructor <;> linarith

/-- Helper: binary64 rounding of a positive value, uniform exponent
form. -/
theorem rndPos_zpow (q : ℚ) :
    rndPos q = ((rneInt (q * (2:ℚ) ^ (-(qlog2 q - 52))) : ℤ) : ℚ) *
      (2:ℚ) ^ (qlog2 q - 52) := by
  simp only [rndPos]
  by_cases hs : 0 ≤ qlog2 q - 52
  · rw [if_pos hs]
    have h2 : (2:ℚ) ^ ((qlog2 q - 52).toNat) = (2:ℚ) ^ (qlog2 q - 52) := by
      rw [← zpow_natCast, Int.toNat_of_nonneg hs]
    rw [h2, div_eq_mul_inv, ← zpow_neg]
  · rw [if_neg hs]
    have hs' : 0 ≤ -(qlog2 q - 52) := by omega
    have h2 : (2:ℚ) ^ ((-(qlog2 q - 52)).toNat) = (2:ℚ) ^ (-(qlog2 q - 52)) := by
      rw [← zpow_natCast, Int.toNat_of_nonneg hs']
    rw [h2, div_eq_mul_inv, ← zpow_neg, neg_neg]

/-- Helper: the rounding error of one binary64 operation is at most
half an ulp. -/
theorem rndPos_err (q : ℚ) :
    |rndPos q - q| ≤ (2:ℚ) ^ (qlog2 q - 53) := by
  rw [rndPos_zpow]
  set e : ℤ := qlog2 q - 52 with he
  set y : ℚ := q * (2:ℚ) ^ (-e) with hy
  have hq2 : q = y * (2:ℚ) ^ e := by
    rw [hy, mul_assoc, ← zpow_add₀ (by norm_num : (2:ℚ) ≠ 0)]
    norm_num
  have herr := rneInt_err y
  have hpos : (0:ℚ) < (2:ℚ) ^ e := zpow_pos (by norm_num) e
  calc |((rneInt y : ℤ) : ℚ) * (2:ℚ) ^ e - q| =
      |(((rneInt y : ℤ) : ℚ) - y) * (2:ℚ) ^ e| := by
        rw [hq2]
        congr 1
        ring
  _ = |((rneInt y : ℤ) : ℚ) - y| * (2:ℚ) ^ e := by
        rw [abs_mul, abs_of_pos hpos]
  _ ≤ (1/2) * (2:ℚ) ^ e := mul_le_mul_of_nonneg_right herr (le_of_lt hpos)
  _ = (2:ℚ) ^ (qlog2 q - 53) := by
        rw [show qlog2 q - 53 = e - 1 from by omega,
          zpow_sub_one₀ (by norm_num : (2:ℚ) ≠ 0)]
        ring

/-- Helper: a positive dyadic with a 53-bit significand rounds to
itself. -/
theorem rnd_dyadic_pos (m : ℤ) (e : ℤ) (hm : 0 < m) (hb : m < 2 ^ 53) :
    rndPos ((m : ℚ) * (2:ℚ) ^ e) = (m : ℚ) * (2:ℚ) ^ e := by
  have hm1 : 1 ≤ m.toNat := by omega
  obtain ⟨ha, hb2⟩ := natLog2_spec m.toNat hm1
  set L : ℕ := natLog2 m.toNat with hL
  have hmcast : ((m.toNat : ℕ) : ℚ) = (m : ℚ) := by
    have : ((m.toNat : ℤ)) = m := Int.toNat_of_nonneg hm.le
    exact_mod_cast this
  have hmn : m.toNat < 2 ^ 53 := by
    have h53 : (2:ℤ) ^ 53 = 9007199254740992 := by norm_num
    have h53n : (2:ℕ) ^ 53 = 9007199254740992 := by norm_num
    omega
  have hL52 : L ≤ 52 := by
    by_contra hc
    have h1 : (2:ℕ) ^ 53 ≤ 2 ^ L := Nat.pow_le_pow_right (by norm_num) (by omega)
    omega
  have hq : (0:ℚ) < (m:ℚ) * (2:ℚ) ^ e :=
    mul_pos (by exact_mod_cast hm) (zpow_pos (by norm_num) e)
  have hqe : qlog2 ((m:ℚ) * (2:ℚ) ^ e) = (L : ℤ) + e := by
    apply qlog2_eq_of _ _ hq
    · rw [zpow_add₀ (by norm_num : (2:ℚ) ≠ 0), zpow_natCast]
      have hcast : ((2:ℚ) ^ (L:ℕ)) ≤ (m:ℚ) := by
        rw [← hmcast]
        exact_mod_cast ha
      exact mul_le_mul_of_nonneg_right hcast (le_of_lt (zpow_pos (by norm_num) e))
    · rw [show (L:ℤ) + e + 1 = ((L:ℤ) + 1) + e from by ring,
        zpow_add₀ (by norm_num : (2:ℚ) ≠ 0)]
      have hcast : (m:ℚ) < (2:ℚ) ^ ((L:ℤ) + 1) := by
        rw [show ((L:ℤ) + 1) = ((L + 1 : ℕ) : ℤ) from by push_cast; ring,
          zpow_natCast, ← hmcast]
        exact_mod_cast hb2
      exact mul_lt_mul_of_pos_right hcast (zpow_pos (by norm_num) e)
  rw [rndPos_zpow, hqe]
  have hy : (m : ℚ) * (2:ℚ) ^ e * (2:ℚ) ^ (-((L:ℤ) + e - 52)) =
      ((m * 2 ^ (52 - L) : ℤ) : ℚ) := by
    have hexp : e + (-((L:ℤ) + e - 52)) = ((52 - L : ℕ) : ℤ) := by omega
    rw [mul_assoc, ← zpow_add₀ (by norm_num : (2:ℚ) ≠ 0), hexp, zpow_natCast]
    push_cast
    ring
  rw [hy, rneInt_int]
  push_cast
  rw [← zpow_natCast (2:ℚ) (52 - L), mul_assoc,
    ← zpow_add₀ (by norm_num : (2:ℚ) ≠ 0)]
  have hexp2 : ((52 - L : ℕ) : ℤ) + ((L:ℤ) + e - 52) = e := by omega
  rw [hexp2]

/-- Helper: any dyadic with a 53-bit significand rounds to itself. -/
theorem rnd_dyadic_exact (m e : ℤ) (hb : |m| < 2 ^ 53) :
    rnd ((m : ℚ) * (2:ℚ) ^ e) = (m : ℚ) * (2:ℚ) ^ e := by
  have habs := abs_lt.mp hb
  rcases lt_trichotomy m 0 with hm | hm | hm
  · have hq : (m:ℚ) * (2:ℚ) ^ e < 0 :=
      mul_neg_of_neg_of_pos (by exact_mod_cast hm) (zpow_pos (by norm_num) e)
    rw [rnd, if_neg (ne_of_lt hq), if_neg (not_lt.mpr hq.le)]
    have hneg : -((m:ℚ) * (2:ℚ) ^ e) = ((-m : ℤ):ℚ) * (2:ℚ) ^ e := by
      push_cast
      ring
    rw [hneg, rnd_dyadic_pos (-m) e (by omega) (by omega)]
    push_cast
    ring
  · subst hm
    simp [rnd]
  · have hq : (0:ℚ) < (m:ℚ) * (2:ℚ) ^ e :=
      mul_pos (by exact_mod_cast hm) (zpow_pos (by norm_num) e)
    rw [rnd, if_neg (ne_of_gt hq), if_pos hq]
    exact rnd_dyadic_pos m e hm (by omega)

/-- Helper: integers below 2^53 convert to double exactly. -/
theorem rnd_int_exact (z : ℤ) (hb : |z| < 2 ^ 53) : rnd (z:ℚ) = z := by
  have h := rnd_dyadic_exact z 0 hb
  simpa using h

/-- Helper: binary64 rounding commutes with negation (positive
argument). -/
theorem rnd_neg_of_pos {q : ℚ} (hq : 0 < q) : rnd (-q) = -rnd q := by
  rw [rnd, if_neg (by intro h; linarith [neg_eq_zero.mp h]),
    if_neg (by intro h; linarith), neg_neg]
  rw [rnd, if_neg (ne_of_gt hq), if_pos hq]

/-- Helper: std::round commutes with negation. -/
theorem stdRound_neg (x : ℚ) : stdRound (-x) = -stdRound x := by
  rcases lt_trichotomy x 0 with hx | hx | hx
  · rw [stdRound, if_pos (by linarith), stdRound, if_neg (not_le.mpr hx), neg_neg]
  · subst hx
    simp [stdRound]
    norm_num
  · rw [stdRound, if_neg (by intro h; linarith), stdRound, if_pos hx.le, neg_neg]

/-- Helper: std::round of an integer is that integer. -/
theorem stdRound_int (z : ℤ) : stdRound ((z : ℤ) : ℚ) = z := by
  by_cases hz : (0:ℚ) ≤ (z : ℚ)
  · rw [stdRound, if_pos hz, add_comm, Int.floor_add_int]
    norm_num
  · rw [stdRound, if_neg hz]
    have hneg : -((z:ℚ)) + 1/2 = ((-z : ℤ) : ℚ) + 1/2 := by
      push_cast
      ring
    rw [hneg, add_comm, Int.floor_add_int]
    norm_num

/-- Helper: round-to-nearest-even at an exact half. -/
theorem rneInt_tie (z : ℤ) :
    rneInt ((z:ℚ) + 1/2) = if z % 2 = 0 then z else z + 1 := by
  have hfl : ⌊(z:ℚ) + 1/2⌋ = z := by
    rw [add_comm, Int.floor_add_int]
    norm_num
  simp only [rneInt, hfl]
  norm_num

/-- Helper: rounding the quotient by 10^8 to binary64 never moves it
across a rounding boundary of std::round, for positive products below
2^53. -/
theorem stdRound_rnd_div_pos (P : ℤ) (hP : 0 < P) (hb : P < 2 ^ 53) :
    stdRound (rnd ((P:ℚ) / 10 ^ 8)) = stdRound ((P:ℚ) / 10 ^ 8) := by
  have h53 : (2:ℤ) ^ 53 = 9007199254740992 := by norm_num
  set q : ℚ := (P:ℚ) / 10 ^ 8 with hqdef
  have hq100 : q * 100000000 = (P:ℚ) := by
    rw [hqdef, show ((10:ℚ) ^ 8) = 100000000 from by norm_num]
    field_simp
  have hq : 0 < q := by
    rw [hqdef]
    exact div_pos (by exact_mod_cast hP) (by norm_num)
  have hPq : (P:ℚ) < 9007199254740992 := by
    exact_mod_cast (show P < 9007199254740992 by omega)
  have hP1 : (1:ℚ) ≤ (P:ℚ) := by exact_mod_cast hP
  have hq27 : q < 134217728 := by linarith
  have hq8 : (1:ℚ)/100000000 ≤ q := by linarith
  by_cases htie : ∃ t : ℤ, q = (t:ℚ) + 1/2
  · obtain ⟨t, ht⟩ := htie
    have hform : q = ((2*t + 1 : ℤ) : ℚ) * (2:ℚ) ^ (-1 : ℤ) := by
      rw [ht]
      push_cast
      rw [zpow_neg, zpow_one]
      ring
    have htZ : t < 134217728 := by
      exact_mod_cast (show (t:ℚ) < 134217728 by linarith)
    have htZ0 : 0 ≤ t := by
      have h1 : (-1:ℚ) < (t:ℚ) := by linarith
      have h2 : (-1:ℤ) < t := by exact_mod_cast h1
      omega
    have hbound : |2*t + 1| < 2 ^ 53 := by
      rw [abs_of_nonneg (by omega)]
      omega
    rw [hform, rnd_dyadic_exact _ _ hbound]
  · have h108 : (0:ℚ) < (100000000:ℚ) := by norm_num
    set n : ℤ := ⌊q + 1/2⌋ with hn
    have hfl : (n : ℚ) ≤ q + 1/2 := Int.floor_le _
    have hfu : q + 1/2 < n + 1 := Int.lt_floor_add_one _
    have hstrict : (n:ℚ) < q + 1/2 := by
      rcases eq_or_lt_of_le hfl with h | h
      · exact absurd ⟨n - 1, by push_cast; linarith⟩ htie
      · exact h
    have hNq : ((P + 50000000 - 100000000 * n : ℤ) : ℚ) =
        (q + 1/2 - n) * 100000000 := by
      push_cast
      linarith [hq100]
    have hN1 : 1 ≤ P + 50000000 - 100000000 * n := by
      have hpos : (0:ℚ) < (q + 1/2 - n) * 100000000 :=
        mul_pos (by linarith) h108
      have h0 : (0:ℤ) < P + 50000000 - 100000000 * n := by
        exact_mod_cast hNq ▸ hpos
      omega
    have hMq : ((100000000 * (n + 1) - P - 50000000 : ℤ) : ℚ) =
        ((n:ℚ) + 1 - (q + 1/2)) * 100000000 := by
      push_cast
      linarith [hq100]
    have hM1 : 1 ≤ 100000000 * (n + 1) - P - 50000000 := by
      have hpos : (0:ℚ) < ((n:ℚ) + 1 - (q + 1/2)) * 100000000 :=
        mul_pos (by linarith) h108
      have h0 : (0:ℤ) < 100000000 * (n + 1) - P - 50000000 := by
        exact_mod_cast hMq ▸ hpos
      omega
    have hdistL : (n:ℚ) + 1/100000000 ≤ q + 1/2 := by
      have h1 : (1:ℚ) ≤ (q + 1/2 - n) * 100000000 := by
        rw [← hNq]
        exact_mod_cast hN1
      linarith
    have hdistR : q + 1/2 + 1/100000000 ≤ (n:ℚ) + 1 := by
      have h1 : (1:ℚ) ≤ ((n:ℚ) + 1 - (q + 1/2)) * 100000000 := by
        rw [← hMq]
        exact_mod_cast hM1
      linarith
    have hlog : qlog2 q ≤ 26 := by
      by_contra hc
      push_neg at hc
      have h1 := (qlog2_spec_pos q hq).1
      have h2 : (2:ℚ) ^ (27:ℤ) ≤ (2:ℚ) ^ qlog2 q :=
        zpow_le_zpow_right₀ (by norm_num) (by omega)
      have h3 : (2:ℚ) ^ (27:ℤ) = 134217728 := by
        rw [show (27:ℤ) = ((27:ℕ):ℤ) from rfl, zpow_natCast]
        norm_num
      linarith
    have hrnd : rnd q = rndPos q := by
      rw [rnd, if_neg (ne_of_gt hq), if_pos hq]
    have hdel2 : |rnd q - q| < 1/100000000 := by
      refine lt_of_le_of_lt (hrnd ▸ le_trans (rndPos_err q)
        (zpow_le_zpow_right₀ (by norm_num) (by omega : qlog2 q - 53 ≤ -27))) ?_
      rw [show (-27:ℤ) = -((27:ℕ):ℤ) from rfl, zpow_neg, zpow_natCast]
      norm_num
    have habs := abs_lt.mp hdel2
    have hrp : (0:ℚ) < rnd q := by linarith
    rw [stdRound, if_pos hrp.le, stdRound, if_pos hq.le]
    have hL : ⌊rnd q + 1/2⌋ = n := by
      rw [Int.floor_eq_iff]
      constructor
      · linarith
      · push_cast
        linarith
    rw [hL]

/-- Helper: the same for any product below 2^53 in magnitude. -/
theorem stdRound_rnd_div (P : ℤ) (hb : |P| < 2 ^ 53) :
    stdRound (rnd ((P:ℚ) / 10 ^ 8)) = stdRound ((P:ℚ) / 10 ^ 8) := by
  have habs := abs_lt.mp hb
  rcases lt_trichotomy P 0 with hP | hP | hP
  · have hpos := stdRound_rnd_div_pos (-P) (by omega) (by omega)
    have hneg : ((P:ℚ)) / 10 ^ 8 = -(((-P : ℤ):ℚ) / 10 ^ 8) := by
      push_cast
      ring
    have hq : (0:ℚ) < ((-P : ℤ):ℚ) / 10 ^ 8 :=
      div_pos (by exact_mod_cast (by omega : 0 < -P)) (by norm_num)
    rw [hneg, rnd_neg_of_pos hq, stdRound_neg, stdRound_neg, hpos]
  · subst hP
    norm_num [rnd]
  · exact stdRound_rnd_div_pos P hP (by omega)

/-- Helper: FixedPoint::operator* computes the correctly rounded
product whenever operands and product stay below 2^53. -/
theorem fixedMul_exact (a b : ℤ) (ha : |a| < 2 ^ 53) (hb : |b| < 2 ^ 53)
    (hab : |a * b| < 2 ^ 53) :
    fixedMul a b = stdRound (((a * b : ℤ) : ℚ) / (fpScale : ℚ)) := by
  rw [fixedMul, mulDiv, rnd_int_exact a ha, rnd_int_exact b hb]
  have hProd : (a:ℚ) * (b:ℚ) = ((a * b : ℤ):ℚ) := by
    push_cast
    ring
  rw [hProd, rnd_int_exact _ hab]
  have hfs : rnd ((fpScale : ℤ):ℚ) = ((fpScale:ℤ):ℚ) :=
    rnd_int_exact _ (by norm_num [fpScale])
  rw [hfs, show ((fpScale : ℤ) : ℚ) = 10 ^ 8 from by norm_num [fpScale]]
  exact stdRound_rnd_div (a * b) hab

/-- Helper: 2^53 + 1 is the first integer double conversion rounds
away (tie to even). -/
theorem rnd_big : rnd (9007199254740993 : ℚ) = 9007199254740992 := by
  have hq : (0:ℚ) < 9007199254740993 := by norm_num
  have hqe : qlog2 (9007199254740993 : ℚ) = 53 := by
    apply qlog2_eq_of _ _ hq
    · rw [show (53:ℤ) = ((53:ℕ):ℤ) from rfl, zpow_natCast]
      norm_num
    · rw [show (53:ℤ) + 1 = ((54:ℕ):ℤ) from rfl, zpow_natCast]
      norm_num
  rw [rnd, if_neg (by norm_num), if_pos hq, rndPos_zpow, hqe,
    show ((53:ℤ) - 52) = 1 from by norm_num]
  have harg : (9007199254740993 : ℚ) * (2:ℚ) ^ (-1:ℤ) =
      ((4503599627370496:ℤ):ℚ) + 1/2 := by
    rw [zpow_neg, zpow_one]
    push_cast
    norm_num
  rw [harg, rneInt_tie]
  norm_num

/-- Helper: the double path of operator* loses 2^53 + 1 times one. -/
theorem fixedMul_big : fixedMul 9007199254740993 100000000 = 9007199254740992 := by
  rw [fixedMul, mulDiv, show (fpScale:ℤ) = (100000000:ℤ) from rfl]
  have h1 : rnd (((9007199254740993:ℤ)) : ℚ) = (9007199254740992:ℚ) := by
    rw [show (((9007199254740993:ℤ)):ℚ) = (9007199254740993:ℚ) from by norm_num]
    exact rnd_big
  have h2 : rnd (((100000000:ℤ)) : ℚ) = (((100000000:ℤ)):ℚ) :=
    rnd_int_exact _ (by norm_num)
  rw [h1, h2]
  have h3 : (9007199254740992:ℚ) * (((100000000:ℤ)):ℚ) =
      ((390625:ℤ):ℚ) * (2:ℚ) ^ (61:ℤ) := by
    rw [show (61:ℤ) = ((61:ℕ):ℤ) from rfl, zpow_natCast]
    push_cast
    norm_num
  rw [h3, rnd_dyadic_exact 390625 61 (by norm_num)]
  have h4 : ((390625:ℤ):ℚ) * (2:ℚ) ^ (61:ℤ) / (((100000000:ℤ)):ℚ) =
      ((1:ℤ):ℚ) * (2:ℚ) ^ (53:ℤ) := by
    rw [show (61:ℤ) = ((61:ℕ):ℤ) from rfl, show (53:ℤ) = ((53:ℕ):ℤ) from rfl,
      zpow_natCast, zpow_natCast]
    push_cast
    norm_num
  rw [h4, rnd_dyadic_exact 1 53 (by norm_num)]
  have h5 : ((1:ℤ):ℚ) * (2:ℚ) ^ (53:ℤ) = ((9007199254740992:ℤ):ℚ) := by
    rw [show (53:ℤ) = ((53:ℕ):ℤ) from rfl, zpow_natCast]
    push_cast
    norm_num
  rw [h5, stdRound_int]

/-- C6 counterexample: at a = 2^53 + 1 = 9007199254740993 and
b = 10^8 the exact rounded quotient is a itself, but operator* computes
through doubles and returns 2^53: mul(a,b) is not exactly
round(a.raw * b.raw / 10^D). -/
theorem C6_counterexample :
    fixedMul 9007199254740993 100000000 = 9007199254740992 ∧
    stdRound (((9007199254740993 * 100000000 : ℤ) : ℚ) / (fpScale : ℚ)) =
      9007199254740993 ∧
    fixedMul 9007199254740993 100000000 ≠
      stdRound (((9007199254740993 * 100000000 : ℤ) : ℚ) / (fpScale : ℚ)) := by
  have hB : stdRound (((9007199254740993 * 100000000 : ℤ) : ℚ) / (fpScale : ℚ)) =
      9007199254740993 := by
    have heq : ((9007199254740993 * 100000000 : ℤ) : ℚ) / (fpScale : ℚ) =
        ((9007199254740993:ℤ):ℚ) := by
      rw [show ((fpScale:ℤ):ℚ) = (100000000:ℚ) from by norm_num [fpScale]]
      push_cast
      norm_num
    rw [heq, stdRound_int]
  exact ⟨fixedMul_big, hB, by rw [fixedMul_big, hB]; norm_num⟩

/-- C6 (amended): operator* equals the correctly rounded
round(a.raw * b.raw / 10^D) whenever |a.raw|, |b.raw| and the exact
product stay below 2^53 (outside that range the double path loses
precision); try_divide is none exactly for a zero divisor and otherwise
the rounded round(a.raw * 10^D / b.raw) of its specification. -/
theorem C6_mul_div_amended :
    (∀ a b : ℤ, |a| < 2 ^ 53 → |b| < 2 ^ 53 → |a * b| < 2 ^ 53 →
      fixedMul a b = stdRound (((a * b : ℤ) : ℚ) / (fpScale : ℚ))) ∧
    (∀ a b : ℤ, tryDivide a b = none ↔ b = 0) ∧
    (∀ a b : ℤ, b ≠ 0 →
      tryDivide a b = some (stdRound (((a * fpScale : ℤ) : ℚ) / (b : ℚ)))) := by
  refine ⟨fun a b ha hb hab => fixedMul_exact a b ha hb hab, ?_, ?_⟩
  · intro a b
    constructor
    · intro h
      by_contra hb
      rw [tryDivide, if_neg hb] at h
      exact absurd h (by simp)
    · intro hb
      rw [tryDivide, if_pos hb]
  · intro a b hb
    rw [tryDivide, if_neg hb]

/-- C6 witness: 2.0 times 0.3 with raws 200000000 and 30000000 lands
exactly on 60000000 (0.6), and try_divide refuses only the zero
divisor. -/
theorem C6_mul_div_amended_witness :
    (|(200000000:ℤ)| < 2 ^ 53 ∧ |(30000000:ℤ)| < 2 ^ 53 ∧
      |(200000000 * 30000000 : ℤ)| < 2 ^ 53) ∧
    fixedMul 200000000 30000000 =
      stdRound (((200000000 * 30000000 : ℤ) : ℚ) / (fpScale : ℚ)) ∧
    stdRound (((200000000 * 30000000 : ℤ) : ℚ) / (fpScale : ℚ)) = 60000000 ∧
    tryDivide 100 0 = none ∧
    tryDivide 300000000 200000000 =
      some (stdRound (((300000000 * fpScale : ℤ) : ℚ) / ((200000000:ℤ) : ℚ))) := by
  refine ⟨⟨by norm_num, by norm_num, by norm_num⟩,
    C6_mul_div_amended.1 200000000 30000000 (by norm_num) (by norm_num)
      (by norm_num),
    ?_, (C6_mul_div_amended.2.1 100 0).mpr rfl,
    C6_mul_div_amended.2.2 300000000 200000000 (by norm_num)⟩
  have heq : ((200000000 * 30000000 : ℤ) : ℚ) / (fpScale : ℚ) =
      ((60000000:ℤ):ℚ) := by
    rw [show ((fpScale:ℤ):ℚ) = (100000000:ℚ) from by norm_num [fpScale]]
    push_cast
    norm_num
  rw [heq, stdRound_int]

end Titan
